import Mathlib

/-!
The job table and the job-control core of the tiny shell `tsh`: a shallow embedding of
`src/tsh.c`.

* C `int` / `pid_t` values are `Int`.  The only arithmetic on them is `nextjid++` and
  `maxjid(jobs)+1`; on every state the shell reaches these stay far below `2^31`, so no
  wrap-around of the machine integer is modelled there.  The one place where the width of
  an `int` decides the result is `atoi`, which cuts the number it reads to 32 bits.
* A job's `cmdline` buffer and every `char *` are the C string they hold, a `String`.
* The global array `jobs[MAXJOBS]` is the list of its slots in index order.  A scan
  `for (i = 0; i < MAXJOBS; i++)` is a left-to-right pass over that list, and a pointer
  `&jobs[i]` is the index `i`.
* `printf` calls and system calls (`kill`, `fork`, `sigprocmask`, ...) are appended, in
  program order, to the trace `out` of the state; what a system call returns is an argument
  of the function that makes it.
-/

namespace Tsh

/-! ## Manifest constants -/

/-- Source: `#define MAXJOBS 16`. -/
def MAXJOBS : Nat := 16

/-- Source: `#define UNDEF 0`. -/
def UNDEF : Int := 0
/-- Source: `#define FG 1`. -/
def FG : Int := 1
/-- Source: `#define BG 2`. -/
def BG : Int := 2
/-- Source: `#define ST 3`. -/
def ST : Int := 3

/-- Linux value of `SIGCONT`. -/
def SIGCONT : Int := 18
/-- Linux value of `SIG_BLOCK`, the `how` of `sigprocmask`. -/
def SIG_BLOCK : Int := 0
/-- Linux value of `SIG_UNBLOCK`. -/
def SIG_UNBLOCK : Int := 1

/-! ## Data model -/

/-- Source: `struct job_t`. -/
structure job_t where
  pid : Int
  jid : Int
  state : Int
  cmdline : String
  deriving DecidableEq, Repr, Inhabited

/-- One observable action of the shell process. -/
inductive Effect where
  /-- A `printf` call, with the text it writes. -/
  | print (text : String)
  /-- A successful or attempted `kill(pid, sig)` call. -/
  | kill (pid : Int) (sig : Int)
  /-- A call of `unix_error(msg)`: prints `msg` with the errno text and ends the shell
  with `exit(1)`. -/
  | unix_error (msg : String)
  /-- The shell enters `waitfg(pid)`, where it stays until `fgpid(jobs)` is 0. -/
  | waitfg (pid : Int)
  /-- One pass through the body of the loop of `waitfg`, the call `sleep(secs)`. -/
  | sleep (secs : Int)
  /-- A call of `sigprocmask(how, &mask, NULL)` with `mask = {SIGCHLD}`. -/
  | sigprocmask (how : Int)
  /-- A successful `fork()` in the shell, which created the child `pid`. -/
  | fork (pid : Int)
  /-- A call of `exit(code)` outside `unix_error`. -/
  | exit (code : Int)
  /-- A successful `setpgid(0, 0)` in the child. -/
  | setpgid
  /-- A call of `execve(path, argv, environ)` in the child. -/
  | execve (path : String)
  deriving DecidableEq, Repr

/-- The global variables of the shell that the job-control core reads and writes:
`jobs`, `nextjid`, `verbose`, together with the trace of its effects so far. -/
structure Shell where
  jobs : List job_t
  nextjid : Int
  verbose : Bool
  out : List Effect
  deriving DecidableEq, Repr

/-- Append one `printf` to the trace. -/
def printf (s : Shell) (text : String) : Shell :=
  { s with out := s.out ++ [Effect.print text] }

/-- Text that `printf("%d", n)` writes. -/
def fmtd (n : Int) : String := toString n

/-! ## Helper routines that manipulate the job list -/

/-- Index of the first slot, in index order, at which the test of a scanning `for` loop
succeeds; `none` when the loop runs to its end. -/
def firstSlot (p : job_t → Bool) : List job_t → Option Nat
  | [] => none
  | j :: js => if p j then some 0 else (firstSlot p js).map (· + 1)

/-- Source: `clearjob`.  Every field of the slot is overwritten. -/
def clearjob (_job : job_t) : job_t :=
  { pid := 0, jid := 0, state := UNDEF, cmdline := "" }

/-- Source: `initjobs`. -/
def initjobs (jobs : List job_t) : List job_t :=
  jobs.map clearjob

/-- Source: the loop of `maxjid`, with `max` the running maximum. -/
def maxjidFrom (max : Int) : List job_t → Int
  | [] => max
  | j :: js => maxjidFrom (if j.jid > max then j.jid else max) js

/-- Source: `maxjid`. -/
def maxjid (jobs : List job_t) : Int :=
  maxjidFrom 0 jobs

/-- Source: `addjob`.  The first component is the return value. -/
def addjob (s : Shell) (pid : Int) (state : Int) (cmdline : String) : Int × Shell :=
  if pid < 1 then (0, s)
  else
    match firstSlot (fun j => j.pid == 0) s.jobs with
    | some i =>
      let job : job_t := { pid := pid, state := state, jid := s.nextjid, cmdline := cmdline }
      let next := s.nextjid + 1
      let s1 : Shell :=
        { s with jobs := s.jobs.set i job,
                 nextjid := if next > (MAXJOBS : Int) then 1 else next }
      (1, if s.verbose then
            printf s1 ("Added job [" ++ fmtd job.jid ++ "] " ++ fmtd job.pid ++ " "
              ++ job.cmdline ++ "\n")
          else s1)
    | none => (0, printf s "Tried to create too many jobs\n")

/-- Source: `deletejob`.  The first component is the return value. -/
def deletejob (s : Shell) (pid : Int) : Int × Shell :=
  if pid < 1 then (0, s)
  else
    match firstSlot (fun j => j.pid == pid) s.jobs with
    | some i =>
      let jobs1 := s.jobs.set i (clearjob (s.jobs.getD i default))
      (1, { s with jobs := jobs1, nextjid := maxjid jobs1 + 1 })
    | none => (0, s)

/-- Source: `fgpid`. -/
def fgpid : List job_t → Int
  | [] => 0
  | j :: js => if j.state = FG then j.pid else fgpid js

/-- Source: `getjobpid`.  The result is the index of the slot pointed to, `none` for
`NULL`. -/
def getjobpid (jobs : List job_t) (pid : Int) : Option Nat :=
  if pid < 1 then none else firstSlot (fun j => j.pid == pid) jobs

/-- Source: `getjobjid`.  The result is the index of the slot pointed to, `none` for
`NULL`. -/
def getjobjid (jobs : List job_t) (jid : Int) : Option Nat :=
  if jid < 1 then none else firstSlot (fun j => j.jid == jid) jobs

/-- Source: the loop of `pid2jid`. -/
def pid2jidLoop (pid : Int) : List job_t → Int
  | [] => 0
  | j :: js => if j.pid = pid then j.jid else pid2jidLoop pid js

/-- Source: `pid2jid` (it reads the global `jobs`). -/
def pid2jid (s : Shell) (pid : Int) : Int :=
  if pid < 1 then 0 else pid2jidLoop pid s.jobs

/-- The assignment `job->state = st` through the pointer `&jobs[i]`. -/
def setState (jobs : List job_t) (i : Nat) (st : Int) : List job_t :=
  match jobs[i]? with
  | some j => jobs.set i { j with state := st }
  | none => jobs

/-- The table and counter after `main` has run `initjobs(jobs)`: the zero-initialised
global array cleared, `nextjid = 1`. -/
def initShell (verbose : Bool) : Shell :=
  { jobs := initjobs (List.replicate MAXJOBS { pid := 0, jid := 0, state := 0, cmdline := "" }),
    nextjid := 1, verbose := verbose, out := [] }

/-! ## Error-handling wrappers -/

/-- Source: `kill_wrapper`.  `ok` is whether the `kill` system call succeeds; when it
fails the wrapper calls `unix_error`, which ends the shell. -/
def kill_wrapper (s : Shell) (pid : Int) (sig : Int) (ok : Bool) : Shell :=
  { s with out := s.out ++ (if ok then [Effect.kill pid sig]
                            else [Effect.kill pid sig, Effect.unix_error "kill error"]) }

/-- Source: `sigproc_wrapper` with the mask `{SIGCHLD}` that `eval` builds.  With a valid
`how` and mask `sigprocmask` does not fail, so the wrapper's `unix_error` branch is left
out. -/
def sigproc_wrapper (s : Shell) (how : Int) : Shell :=
  { s with out := s.out ++ [Effect.sigprocmask how] }

/-- Source: `setpgid_wrapper`, in the child, where `setpgid(0, 0)` succeeds. -/
def setpgid_wrapper (s : Shell) : Shell :=
  { s with out := s.out ++ [Effect.setpgid] }

/-- Source: `Fork`.  `pid` is what `fork()` returns in this process: negative on failure
(`unix_error` ends the shell), 0 in the child, the child's pid in the parent. -/
def Fork (s : Shell) (pid : Int) : Shell :=
  if pid < 0 then { s with out := s.out ++ [Effect.unix_error "fork error"] }
  else
    let s1 : Shell := if pid = 0 then s else { s with out := s.out ++ [Effect.fork pid] }
    if s1.verbose then printf s1 ("[+] " ++ fmtd pid ++ "\n") else s1

/-! ## The C library functions used by `do_bgfg` -/

/-- C `isspace` in the "C" locale. -/
def isspace (c : Char) : Bool :=
  c == ' ' || c == '\t' || c == '\n' || c == '\r' || c.toNat == 11 || c.toNat == 12

/-- C `isalpha` in the "C" locale. -/
def isalpha (c : Char) : Bool :=
  c.isAlpha

/-- The digit-accumulating loop of C `atoi`. -/
def atoiDigits (acc : Int) : List Char → Int
  | [] => acc
  | c :: cs => if c.isDigit then atoiDigits (acc * 10 + ((c.toNat : Int) - 48)) cs else acc

/-- The number that the characters of a C string spell, before any machine range is
applied: leading white space is skipped, an optional sign is read, then decimal digits up
to the first other character. -/
def strtolValue (cs : List Char) : Int :=
  match cs.dropWhile isspace with
  | '-' :: r => - atoiDigits 0 r
  | '+' :: r => atoiDigits 0 r
  | r => atoiDigits 0 r

/-- C `strtol(s, NULL, 10)` with a 64-bit `long`: the spelled number, clamped to
`LONG_MIN .. LONG_MAX` when it is out of range. -/
def strtol (cs : List Char) : Int :=
  if strtolValue cs < -9223372036854775808 then -9223372036854775808
  else if 9223372036854775807 < strtolValue cs then 9223372036854775807
  else strtolValue cs

/-- The conversion of a `long` to a 32-bit `int`: the value modulo `2^32`, taken in
`-2^31 .. 2^31 - 1`. -/
def toInt32 (v : Int) : Int :=
  (v + 2147483648) % 4294967296 - 2147483648

/-- C `atoi`, which in the C library of the lab's platform (glibc, x86-64) is
`(int) strtol(s, NULL, 10)`: the number read by `strtol`, cut to the 32 bits of an `int`,
so that `atoi("4294967297")` is 1. -/
def atoi (cs : List Char) : Int :=
  toInt32 (strtol cs)

/-- The character `temp[i]` of a C string of ASCII characters, for the two indices that
`do_bgfg` reads, 0 and 1; the terminating NUL reads as NUL. For the empty string `temp[1]`
is the byte behind the terminator in the buffer of `parseline`, which the string does not
determine; it is read as NUL here, and no statement below is about an empty `argv[1]`. -/
def charAt (temp : String) (i : Nat) : Char :=
  temp.data.getD i (Char.ofNat 0)

/-! ## Built-in commands `fg` and `bg` -/

/-- Source: the first half of `do_bgfg` after the `argv[1] == NULL` test: `temp = argv[1]`
is resolved to a job.  The result is the state after the diagnostics printed on the way
and the pointer `job`, as a slot index; `none` when the function has returned early. -/
def do_bgfg_lookup (s : Shell) (argv0 temp : String) : Shell × Option Nat :=
  if charAt temp 0 == '%' then
    let jid := atoi (temp.data.drop 1)
    let s1 := if s.verbose then printf s (fmtd jid ++ "\n") else s
    match getjobjid s1.jobs jid with
    | none => (printf s1 ("%" ++ fmtd jid ++ ": No such job\n"), none)
    | some i => (s1, some i)
  else
    if isalpha (charAt temp 0) || isalpha (charAt temp 1) then
      (printf s (argv0 ++ ": argument must be a PID or %jobid\n"), none)
    else
      let pid := atoi temp.data
      let s1 := if s.verbose then printf s (fmtd pid ++ "\n") else s
      match getjobpid s1.jobs pid with
      | none => (printf s1 ("(" ++ fmtd pid ++ "): No such process\n"), none)
      | some i => (s1, some i)

/-- Source: the second half of `do_bgfg`, "we have the job and the ground (fg/bg)", up to
and including the call of `waitfg`; `i` is the slot that `job` points to and `killOk` is
whether the `kill` system call succeeds. -/
def do_bgfg_move (s : Shell) (ground : Bool) (i : Nat) (killOk : Bool) : Shell :=
  let job := s.jobs.getD i default
  if ground then
    let s1 := if s.verbose then printf s ("testing: " ++ fmtd job.state ++ "\n") else s
    let s2 : Shell := { s1 with jobs := setState s1.jobs i FG }
    let s3 := kill_wrapper s2 (-job.pid) SIGCONT killOk
    if killOk then { s3 with out := s3.out ++ [Effect.waitfg job.pid] } else s3
  else
    let s1 : Shell := { s with jobs := setState s.jobs i BG }
    let s2 := printf s1 ("[" ++ fmtd job.jid ++ "] (" ++ fmtd job.pid ++ ") " ++ job.cmdline)
    kill_wrapper s2 (-job.pid) SIGCONT killOk

/-- Source: `do_bgfg`.  `argv` is the NULL-terminated argument vector without its final
`NULL`; it is never empty, since `builtin_cmd` has matched `argv[0]`. -/
def do_bgfg (s : Shell) (argv : List String) (killOk : Bool) : Shell :=
  match argv with
  | [] => s
  | [argv0] => printf s (argv0 ++ " command requires PID or %jobid argument\n")
  | argv0 :: temp :: _ =>
    let ground : Bool := argv0 == "fg"
    match do_bgfg_lookup s argv0 temp with
    | (s1, none) => s1
    | (s1, some i) => do_bgfg_move s1 ground i killOk

/-! ## The SIGCHLD handler -/

/-- What `waitpid` stores in `status` for a child: it exited, it was killed by a signal,
or it was stopped by a signal (the three cases `WNOHANG|WUNTRACED` can report). -/
inductive WStatus where
  | exited (code : Int)
  | signaled (sig : Int)
  | stopped (sig : Int)
  deriving DecidableEq, Repr

/-- Macro `WIFEXITED` of `<sys/wait.h>`. -/
def WIFEXITED : WStatus → Bool
  | .exited _ => true
  | _ => false

/-- Macro `WIFSTOPPED` of `<sys/wait.h>`. -/
def WIFSTOPPED : WStatus → Bool
  | .stopped _ => true
  | _ => false

/-- Macro `WIFSIGNALED` of `<sys/wait.h>`. -/
def WIFSIGNALED : WStatus → Bool
  | .signaled _ => true
  | _ => false

/-- Macro `WEXITSTATUS` of `<sys/wait.h>`. -/
def WEXITSTATUS : WStatus → Int
  | .exited code => code
  | _ => 0

/-- Source: the body of the `while` loop of `sigchld_handler`, for one child `pid` whose
`status` `waitpid` has returned; `jid` is the local variable set before the loop.  The
result is `none` when the body writes through the `NULL` that `getjobjid` returned. -/
def sigchld_body (jid : Int) (s : Shell) (pid : Int) (status : WStatus) : Option Shell :=
  let s1 : Shell :=
    if WIFEXITED status then
      let s0 := if s.verbose then
          printf s ("\nchild: " ++ fmtd pid ++ " terminated " ++ fmtd (WEXITSTATUS status) ++ "\n")
        else s
      (deletejob s0 pid).2
    else s
  let s2 : Option Shell :=
    if WIFSTOPPED status then
      let s1p := printf s1 ("Job [" ++ fmtd jid ++ "] (" ++ fmtd pid ++ ") stopped by signal 20\n")
      match getjobjid s1p.jobs jid with
      | some i => some { s1p with jobs := setState s1p.jobs i ST }
      | none => none
    else some s1
  s2.map fun s2 =>
    if WIFSIGNALED status then
      (deletejob
        (printf s2 ("Job [" ++ fmtd jid ++ "] (" ++ fmtd pid ++ ") terminated by signal 2\n"))
        pid).2
    else s2

/-- Source: the `while` loop of `sigchld_handler`.  `polls` are the successive results of
`waitpid(-1, &status, WNOHANG|WUNTRACED)`; the loop ends at the first result that is not
positive, and the end of the list stands for such a result. -/
def sigchld_loop (jid : Int) : Shell → List (Int × WStatus) → Option Shell
  | s, [] => some s
  | s, (pid, status) :: rest =>
    if pid > 0 then
      match sigchld_body jid s pid status with
      | some s1 => sigchld_loop jid s1 rest
      | none => none
    else some s

/-- Source: `sigchld_handler`. -/
def sigchld_handler (s : Shell) (polls : List (Int × WStatus)) : Option Shell :=
  let pid := fgpid s.jobs
  let jid := pid2jid s pid
  sigchld_loop jid s polls

/-! ## Launching a job -/

/-- Source: the parent branch of `eval` after `Fork()` has returned the child's `pid`
(the `else` block: `addjob`, the unblocking of SIGCHLD, then `waitfg` or the background
notice).  The return value
of `addjob` is ignored, as in the source. -/
def eval_parent (s : Shell) (pid : Int) (bg : Bool) (cmdline : String) : Shell :=
  let jobstate : Int := if !bg then FG else BG
  let s1 := (addjob s pid jobstate cmdline).2
  let s2 := sigproc_wrapper s1 SIG_UNBLOCK
  if !bg then { s2 with out := s2.out ++ [Effect.waitfg pid] }
  else printf s2 ("[" ++ fmtd (pid2jid s2 pid) ++ "] (" ++ fmtd pid ++ ") " ++ cmdline)

/-! ## Listing the jobs -/

/-- Source: the loop of `listjobs` from slot index `i` on, over the slots not yet
visited. -/
def listjobsFrom (i : Nat) : Shell → List job_t → Shell
  | s, [] => s
  | s, j :: js =>
    if j.pid ≠ 0 then
      let s1 := printf s ("[" ++ fmtd j.jid ++ "] (" ++ fmtd j.pid ++ ") ")
      let s2 :=
        if j.state = BG then printf s1 "Running "
        else if j.state = FG then printf s1 "Foreground "
        else if j.state = ST then printf s1 "Stopped "
        else printf s1 ("listjobs: Internal error: job[" ++ fmtd i ++ "].state="
          ++ fmtd j.state ++ " ")
      listjobsFrom (i + 1) (printf s2 j.cmdline) js
    else listjobsFrom (i + 1) s js

/-- Source: `listjobs`. -/
def listjobs (s : Shell) : Shell :=
  listjobsFrom 0 s s.jobs

/-! ## The SIGINT and SIGTSTP handlers -/

/-- How a call of `waitfg` stands after the passes of its loop that were followed: it has
returned, it is still in its loop, or the SIGCHLD handler that ran during a `sleep` wrote
through `NULL`. -/
inductive Wait where
  | returned (s : Shell)
  | waiting (s : Shell)
  | crashed
  deriving DecidableEq, Repr

/-- Source: `waitfg` (its argument `pid` is not used by the body).  The loop tests
`fgpid(jobs)` and calls `sleep(0)`; the table changes only under the SIGCHLD handler, and
`wakeups` lists, pass by pass, the `waitpid` results that the handler finds when it runs
during that pass. -/
def waitfg : Shell → List (List (Int × WStatus)) → Wait
  | s, [] => if fgpid s.jobs ≠ 0 then Wait.waiting s else Wait.returned s
  | s, polls :: rest =>
    if fgpid s.jobs ≠ 0 then
      match sigchld_handler { s with out := s.out ++ [Effect.sleep 0] } polls with
      | some s1 => waitfg s1 rest
      | none => Wait.crashed
    else Wait.returned s

/-! ## Parsing the command line -/

/-- Source: `#define MAXARGS 128`. -/
def MAXARGS : Nat := 128

/-- The single-quote character. -/
def quote : Char := Char.ofNat 39

/-- Source: `while (*buf && (*buf == ' ')) buf++;` in `parseline`; the result is the
string at the new `buf`. -/
def skipSpaces : List Char → List Char
  | [] => []
  | c :: r => if c = ' ' then skipSpaces r else c :: r

/-- C `strchr(buf, c)` on the characters of a C string: `none` for `NULL`, otherwise the
characters before the first `c` and the string at `delim + 1`. -/
def strchr (c : Char) : List Char → Option (List Char × List Char)
  | [] => none
  | x :: r => if x = c then some ([], r) else (strchr c r).map fun p => (x :: p.1, p.2)

/-- Source: the choice of `delim` in `parseline`: after a single quote at `*buf` the
argument runs from `buf + 1` to the next single quote, otherwise from `buf` to the next
space.  The result is the argument and the string at `delim + 1`, `none` when `delim` is
`NULL`. -/
def nextArg : List Char → Option (List Char × List Char)
  | [] => none
  | c :: r => if c = quote then strchr quote r else strchr ' ' (c :: r)

/-- Source: the loop `while (delim)` of `parseline`, started with `buf` past the leading
spaces; it lists the arguments stored into `argv`.  Every pass moves `buf` forward, so
`fuel` above the length of `buf` never runs out. -/
def parseArgs : Nat → List Char → List (List Char)
  | 0, _ => []
  | fuel + 1, buf =>
    match nextArg buf with
    | none => []
    | some (arg, rest) => arg :: parseArgs fuel (skipSpaces rest)

/-- Source: `parseline`.  The result is the return value `bg` and the array `argv` up to
its `NULL`; it is `none` where the source writes outside its buffers: for the empty string
(`buf[strlen(buf)-1]`) and for `MAXARGS` or more arguments (`argv[argc]`). -/
def parseline (cmdline : String) : Option (Bool × List String) :=
  match cmdline.data with
  | [] => none
  | c :: cs =>
    let buf := (c :: cs).dropLast ++ [' ']
    let args := parseArgs (buf.length + 1) (skipSpaces buf)
    if MAXARGS ≤ args.length then none
    else
      match args.getLast? with
      | none => some (true, [])
      | some last =>
        let bg : Bool := last.head? == some '&'
        some (bg, (if bg then args.dropLast else args).map String.mk)

/-! ## Evaluating a command line -/

/-- Source: the array `builtIn`. -/
def builtIn : List String := ["quit", "fg", "bg", "jobs"]

/-- Source: `builtin_cmd`.  The first component is the return value, `none` when the
function does not return because `quit` has called `exit(0)`. -/
def builtin_cmd (s : Shell) (argv : List String) (killOk : Bool) : Option Int × Shell :=
  let argv0 := argv.headD ""
  let cmd : Nat :=
    (List.range 4).foldl (fun cmd i => if builtIn.getD i "" = argv0 then i else cmd) 4
  if cmd = 0 then (none, { s with out := s.out ++ [Effect.exit 0] })
  else if cmd = 1 then (some 1, do_bgfg s argv killOk)
  else if cmd = 2 then (some 1, do_bgfg s argv killOk)
  else if cmd = 3 then (some 1, listjobs s)
  else (some 0, s)

/-- Source: the child branch of `eval`, run by the child process after `Fork()` has
returned 0 there; `execOk` is whether `execve` succeeds. -/
def eval_child (s : Shell) (argv0 : String) (execOk : Bool) : Shell :=
  let s1 := sigproc_wrapper s SIG_UNBLOCK
  let s2 := setpgid_wrapper s1
  let s3 : Shell := { s2 with out := s2.out ++ [Effect.execve argv0] }
  if execOk then s3
  else
    let s4 := printf s3 (argv0 ++ ": Command not found.\n")
    { s4 with out := s4.out ++ [Effect.exit 0] }

/-- Source: `eval`.  `forkPid` is what `fork()` returns in the process that runs this
code, `execOk` and `killOk` are whether `execve` and `kill` succeed.  The result is `none`
where `parseline` writes outside its buffers. -/
def eval (s : Shell) (cmdline : String) (forkPid : Int) (execOk killOk : Bool) :
    Option Shell :=
  match parseline cmdline with
  | none => none
  | some (bg, argv) =>
    match argv with
    | [] => some s
    | argv0 :: _ =>
      match builtin_cmd s argv killOk with
      | (none, s1) => some s1
      | (some r, s1) =>
        if r ≠ 0 then some s1
        else
          let s2 := sigproc_wrapper s1 SIG_BLOCK
          let s3 := Fork s2 forkPid
          if forkPid < 0 then some s3
          else if forkPid = 0 then some (eval_child s3 argv0 execOk)
          else some (eval_parent s3 forkPid bg cmdline)

/-! ## The parent path of `eval` statement by statement -/

/-- The statements of `eval` on its way through the parent branch for a command that is
not built in, named by what is executed next. -/
inductive EvalPc where
  | block
  | fork
  | addjob
  | unblock
  | finish
  | done
  deriving DecidableEq, Repr

/-- The shell in the middle of `eval`: its variables, the statement to execute next,
whether SIGCHLD is in its signal mask, and the child it has created so far. -/
structure EvalRun where
  sh : Shell
  pc : EvalPc
  blocked : Bool
  child : Option Int
  deriving DecidableEq, Repr

/-- Source: one statement of the parent path of `eval`, for the pid `pid` that `fork()`
returns: `sigproc_wrapper(SIG_BLOCK, &mask)`, `Fork()`, `addjob(...)`,
`sigproc_wrapper(SIG_UNBLOCK, &mask)`, and the final `waitfg(pid)` or `printf`. -/
def evalStep (pid : Int) (bg : Bool) (cmdline : String) (r : EvalRun) : EvalRun :=
  match r.pc with
  | EvalPc.block =>
    { r with sh := sigproc_wrapper r.sh SIG_BLOCK, blocked := true, pc := EvalPc.fork }
  | EvalPc.fork =>
    { r with sh := Fork r.sh pid, child := some pid, pc := EvalPc.addjob }
  | EvalPc.addjob =>
    { r with sh := (addjob r.sh pid (if !bg then FG else BG) cmdline).2,
             pc := EvalPc.unblock }
  | EvalPc.unblock =>
    { r with sh := sigproc_wrapper r.sh SIG_UNBLOCK, blocked := false, pc := EvalPc.finish }
  | EvalPc.finish =>
    { r with sh := (if !bg then { r.sh with out := r.sh.out ++ [Effect.waitfg pid] }
                    else printf r.sh ("[" ++ fmtd (pid2jid r.sh pid) ++ "] (" ++ fmtd pid
                      ++ ") " ++ cmdline)),
             pc := EvalPc.done }
  | EvalPc.done => r

/-- The runs of the parent path of `eval` from the shell state `s0` under asynchronous
SIGCHLD delivery: between any two statements `sigchld_handler` may run on any batch of
`waitpid` results, but only while SIGCHLD is not blocked. -/
inductive EvalReach (pid : Int) (bg : Bool) (cmdline : String) (s0 : Shell) :
    EvalRun → Prop where
  | start : EvalReach pid bg cmdline s0
      { sh := s0, pc := EvalPc.block, blocked := false, child := none }
  | step {r : EvalRun} : EvalReach pid bg cmdline s0 r →
      EvalReach pid bg cmdline s0 (evalStep pid bg cmdline r)
  | sigchld {r : EvalRun} (polls : List (Int × WStatus)) (s1 : Shell) :
      EvalReach pid bg cmdline s0 r → r.blocked = false →
      sigchld_handler r.sh polls = some s1 → EvalReach pid bg cmdline s0 { r with sh := s1 }

/-! ## Vocabulary of the statements -/

/-- A job table all of whose slots are occupied. -/
def fullTable : Shell :=
  { jobs := (List.range 16).map fun (k : Nat) =>
      { pid := 100 + (k : Int), jid := 1 + (k : Int), state := BG, cmdline := "sleep 9 &\n" },
    nextjid := 1, verbose := false, out := [] }

/-- The content of a slot after `clearjob`. -/
def emptyJob : job_t :=
  { pid := 0, jid := 0, state := UNDEF, cmdline := "" }

/-- Every occupied slot has a positive job id and no two occupied slots share one. -/
def jidsOk (jobs : List job_t) : Prop :=
  (∀ j ∈ jobs, j.pid ≠ 0 → 0 < j.jid) ∧
    jobs.Pairwise (fun a b => a.pid ≠ 0 → b.pid ≠ 0 → a.jid ≠ b.jid)

instance (jobs : List job_t) : Decidable (jidsOk jobs) := by
  unfold jidsOk
  infer_instance

/-- One call on the job table: `addjob(jobs, pid, state, cmdline)` or
`deletejob(jobs, pid)`. -/
inductive TableOp where
  | add (pid : Int) (state : Int) (cmdline : String)
  | del (pid : Int)
  deriving DecidableEq, Repr

/-- The states reached from the initial table by `addjob` calls, each with a pid `>= 1`
that is not in the table, and `deletejob` calls. -/
inductive TableReach : Shell → Prop where
  | init (v : Bool) : TableReach (initShell v)
  | add {s : Shell} (pid state : Int) (cmdline : String) :
      TableReach s → 1 ≤ pid → (∀ j ∈ s.jobs, j.pid ≠ pid) →
      TableReach (addjob s pid state cmdline).2
  | del {s : Shell} (pid : Int) : TableReach s → TableReach (deletejob s pid).2

/-- Run a list of table calls; `none` when an `addjob` call has a pid below 1 or one that
is already in the table. -/
def runOps : Shell → List TableOp → Option Shell
  | s, [] => some s
  | s, TableOp.add pid state cmdline :: ops =>
    if 1 ≤ pid ∧ ∀ j ∈ s.jobs, j.pid ≠ pid then runOps (addjob s pid state cmdline).2 ops
    else none
  | s, TableOp.del pid :: ops => runOps (deletejob s pid).2 ops

/-- Sixteen launches fill the table with the ids 1..16; the jobs with pids 2 and 3 end;
the next launch gets id 17 and wraps `nextjid` to 1; one more launch gets id 1. -/
def wrapOps : List TableOp :=
  ((List.range 16).map fun (k : Nat) => TableOp.add (1 + (k : Int)) BG "sleep 9 &\n") ++
    [TableOp.del 2, TableOp.del 3, TableOp.add 17 BG "sleep 9 &\n",
     TableOp.add 18 BG "sleep 9 &\n"]

/-- The invariant behind unique job ids: empty slots carry job id 0, occupied slots carry
distinct positive ids, and `nextjid` is above every id in the table unless the table is
full. -/
structure JidInv (s : Shell) : Prop where
  clear : ∀ j ∈ s.jobs, j.pid = 0 → j.jid = 0
  ok : jidsOk s.jobs
  next : (∀ j ∈ s.jobs, j.jid < s.nextjid) ∨ (∀ j ∈ s.jobs, j.pid ≠ 0)

/-- The states of `TableReach` along which no `addjob` call wraps `nextjid` back to 1 while
a slot stays free: each call is made with `nextjid < MAXJOBS` or with at most one free
slot. -/
inductive TableReachNoWrap : Shell → Prop where
  | init (v : Bool) : TableReachNoWrap (initShell v)
  | add {s : Shell} (pid state : Int) (cmdline : String) :
      TableReachNoWrap s → 1 ≤ pid → (∀ j ∈ s.jobs, j.pid ≠ pid) →
      (s.nextjid + 1 ≤ (MAXJOBS : Int) ∨ List.countP (fun j => j.pid == 0) s.jobs ≤ 1) →
      TableReachNoWrap (addjob s pid state cmdline).2
  | del {s : Shell} (pid : Int) : TableReachNoWrap s → TableReachNoWrap (deletejob s pid).2

/-- Successive `addjob` calls, one per element `(pid, state, cmdline)`; the second
component lists, call by call, the job id `pid2jid(pid)` right after the call, the id that
`eval` prints for the new job. -/
def addjobs : Shell → List (Int × Int × String) → Shell × List Int
  | s, [] => (s, [])
  | s, (pid, state, cmdline) :: rest =>
    ((addjobs (addjob s pid state cmdline).2 rest).1,
      pid2jid (addjob s pid state cmdline).2 pid ::
        (addjobs (addjob s pid state cmdline).2 rest).2)

/-- The slots that consecutive launches starting at job id `n` leave in the table. -/
def jobsFrom (n : Int) : List (Int × Int × String) → List job_t
  | [] => []
  | (pid, state, cmdline) :: rest =>
    { pid := pid, jid := n, state := state, cmdline := cmdline } :: jobsFrom (n + 1) rest

/-- The first fifteen of sixteen launches. -/
def launches15 : List (Int × Int × String) :=
  (List.range 15).map fun (k : Nat) => (100 + (k : Int), BG, "sleep 9 &\n")

/-- Well-formedness of the job table: a slot with pid 0 is a cleared slot, and no pid is
negative. -/
structure TableInv (jobs : List job_t) : Prop where
  clear : ∀ j ∈ jobs, j.pid = 0 → j = emptyJob
  nonneg : ∀ j ∈ jobs, 0 ≤ j.pid

/-- Number of slots whose state is `FG`. -/
def countFG (jobs : List job_t) : Nat :=
  List.countP (fun j => j.state == FG) jobs

/-- The job-table states the shell reaches from `initjobs` in the runs in which every
call completes before the next step begins: `eval` launches a foreground or background
job for the pid `Fork` returned, `do_bgfg` runs `fg` or `bg` with no handler run inside
it, `sigchld_handler` handles any batch of child events between two calls; a command is
begun only when `fgpid(jobs)` is 0, which is when `waitfg` returns. These are some of the
runs of the shell, not all of them: `do_bgfg` does not block SIGCHLD, and `ShellRun`
below adds the runs in which the handler runs inside it. -/
inductive ShellReach : Shell → Prop where
  | init (v : Bool) : ShellReach (initShell v)
  | launch {s : Shell} (pid : Int) (bg : Bool) (cmdline : String) :
      ShellReach s → fgpid s.jobs = 0 → 1 ≤ pid → ShellReach (eval_parent s pid bg cmdline)
  | bgfg {s : Shell} (argv : List String) (killOk : Bool) :
      ShellReach s → fgpid s.jobs = 0 →
      (argv.head? = some "fg" ∨ argv.head? = some "bg") →
      ShellReach (do_bgfg s argv killOk)
  | sigchld {s s1 : Shell} (polls : List (Int × WStatus)) :
      ShellReach s → sigchld_handler s polls = some s1 → ShellReach s1

/-- A table with a foreground job (pid 10, job id 1) and a background job (pid 20, job
id 2); the other slots are empty. -/
def fgAndBg : Shell :=
  { jobs := [{ pid := 10, jid := 1, state := FG, cmdline := "cat\n" },
             { pid := 20, jid := 2, state := BG, cmdline := "sleep 9 &\n" }]
      ++ List.replicate 14 emptyJob,
    nextjid := 3, verbose := false, out := [] }

/-- A table whose only job is a background job (pid 20, job id 1). -/
def bgOnly : Shell :=
  { jobs := [{ pid := 20, jid := 1, state := BG, cmdline := "sleep 9 &\n" }]
      ++ List.replicate 15 emptyJob,
    nextjid := 2, verbose := false, out := [] }

/-- The table with every slot that holds `pid` cleared. -/
def clearPid (pid : Int) (jobs : List job_t) : List job_t :=
  jobs.map fun j => if j.pid = pid then emptyJob else j

/-- No two occupied slots hold the same pid. -/
def distinctPids (jobs : List job_t) : Prop :=
  jobs.Pairwise fun a b => a.pid ≠ 0 → a.pid ≠ b.pid

instance (jobs : List job_t) : Decidable (distinctPids jobs) := by
  unfold distinctPids
  infer_instance

/-- The ten decimal digit characters, as `printf("%d")` writes them. -/
def IsDecDigit (c : Char) : Prop :=
  ∃ k, k < 10 ∧ c = Nat.digitChar k

/-- The state after the `verbose` echo of the number `do_bgfg` has parsed. -/
def verboseEcho (s : Shell) (n : Int) : Shell :=
  if s.verbose then printf s (fmtd n ++ "\n") else s

/-- What a successful `fg` (`fg = true`) or `bg` command on the job in slot `i` leaves
behind, `num` being the number parsed from `argv[1]`: the state of slot `i` is `FG`
respectively `BG` and nothing else in the table changes; after the echo of verbose mode the
trace gains, for `fg`, the `kill(-pid, SIGCONT)` call and the entry into `waitfg`, and for
`bg` the notice `[jid] (pid) cmdline` followed by the `kill(-pid, SIGCONT)` call (a failed
`kill` ends in `unix_error`). -/
def bgfgDone (s : Shell) (fg : Bool) (killOk : Bool) (num : Int) (i : Nat) (r : Shell) : Prop :=
  r.jobs = s.jobs.set i { s.jobs.getD i default with state := if fg then FG else BG } ∧
    r.nextjid = s.nextjid ∧ r.verbose = s.verbose ∧
    r.out = (verboseEcho s num).out ++
      (if fg then
        (if s.verbose then
            [Effect.print ("testing: " ++ fmtd (s.jobs.getD i default).state ++ "\n")]
          else []) ++
          [Effect.kill (-(s.jobs.getD i default).pid) SIGCONT] ++
          (if killOk then [Effect.waitfg (s.jobs.getD i default).pid]
            else [Effect.unix_error "kill error"])
      else
        [Effect.print ("[" ++ fmtd (s.jobs.getD i default).jid ++ "] ("
            ++ fmtd (s.jobs.getD i default).pid ++ ") " ++ (s.jobs.getD i default).cmdline),
          Effect.kill (-(s.jobs.getD i default).pid) SIGCONT] ++
          (if killOk then [] else [Effect.unix_error "kill error"]))

/-- The label of a listing entry as the `jobs` listing words it: `Running` for `BG`,
`Foreground` for `FG`, `Stopped` for `ST`; any other state of an occupied slot gives the
internal-error text with the slot index. -/
def entryLabel (i : Nat) (j : job_t) : String :=
  if j.state = BG then "Running "
  else if j.state = FG then "Foreground "
  else if j.state = ST then "Stopped "
  else "listjobs: Internal error: job[" ++ fmtd i ++ "].state=" ++ fmtd j.state ++ " "

/-- The `printf` calls that make up the entry `[jid] (pid) <label> cmdline` of the job `j`
in slot `i`. -/
def listingEntry (i : Nat) (j : job_t) : List Effect :=
  [Effect.print ("[" ++ fmtd j.jid ++ "] (" ++ fmtd j.pid ++ ") "),
   Effect.print (entryLabel i j), Effect.print j.cmdline]

/-- The listing of a table: one entry for each occupied slot, in ascending slot index
order. -/
def listing (jobs : List job_t) : List Effect :=
  (jobs.enum.filter fun e => e.2.pid ≠ 0).flatMap fun e => listingEntry e.1 e.2

/-- The states reached from `initjobs` by calls of `addjob`, `deletejob`, `do_bgfg` and
`sigchld_handler`, with any arguments, in any order, each call completing before the next
begins. `do_bgfg` does not block SIGCHLD; `OpsRun` below adds the runs in which the
handler runs inside it. -/
inductive OpsReach : Shell → Prop where
  | init (v : Bool) : OpsReach (initShell v)
  | addjob {s : Shell} (pid state : Int) (cmdline : String) :
      OpsReach s → OpsReach (addjob s pid state cmdline).2
  | deletejob {s : Shell} (pid : Int) : OpsReach s → OpsReach (deletejob s pid).2
  | do_bgfg {s : Shell} (argv : List String) (killOk : Bool) :
      OpsReach s → OpsReach (do_bgfg s argv killOk)
  | sigchld {s s1 : Shell} (polls : List (Int × WStatus)) :
      OpsReach s → sigchld_handler s polls = some s1 → OpsReach s1

/-- An argument as it is typed on a command line: a plain word, or a text between single
quotes. -/
inductive Arg where
  | word (w : List Char)
  | quoted (t : List Char)
  deriving DecidableEq, Repr

/-- The argument itself: the word, or the text between the quotes. -/
def Arg.text : Arg → List Char
  | Arg.word w => w
  | Arg.quoted t => t

/-- A plain word is not empty, holds no space and does not begin with a single quote; a
quoted text holds no single quote. -/
def Arg.wellFormed : Arg → Prop
  | Arg.word w => w ≠ [] ∧ (∀ c ∈ w, c ≠ ' ') ∧ w.head? ≠ some quote
  | Arg.quoted t => ∀ c ∈ t, c ≠ quote

instance (a : Arg) : Decidable a.wellFormed := by
  cases a <;> unfold Arg.wellFormed <;> infer_instance

/-- How an argument stands on the line: a plain word is followed by `gap + 1` spaces, a
quoted text stands between two single quotes and is followed by `gap` spaces. -/
def Arg.render (gap : Nat) : Arg → List Char
  | Arg.word w => w ++ List.replicate (gap + 1) ' '
  | Arg.quoted t => quote :: (t ++ quote :: List.replicate gap ' ')

/-- A line of arguments: `lead` spaces, then each argument with the spaces after it. -/
def renderLine (lead : Nat) (args : List (Arg × Nat)) : List Char :=
  List.replicate lead ' ' ++ args.flatMap fun p => p.1.render p.2

/-- Whether the last of the arguments begins with the character `&`. -/
def beginsAmp (texts : List (List Char)) : Bool :=
  texts.getLast?.bind List.head? == some '&'

/-- The run of `eval` on the background command `sleep 9 &` from the full table
`fullTable`, with child pid 300, after its first four statements: SIGCHLD blocked, child
created, `addjob` called, SIGCHLD unblocked. -/
def fullTableRun : EvalRun :=
  evalStep 300 true "sleep 9 &\n" (evalStep 300 true "sleep 9 &\n"
    (evalStep 300 true "sleep 9 &\n" (evalStep 300 true "sleep 9 &\n"
      { sh := fullTable, pc := EvalPc.block, blocked := false, child := none })))

/-- The shell after it has launched the background job `sleep 9 &` (pid 20, job id 1) from
the empty table: one job, none in the foreground. -/
def afterBgLaunch : Shell :=
  eval_parent (initShell false) 20 true "sleep 9 &\n"

/-- The shell after it has then launched the foreground job `cat` (pid 10, job id 2). -/
def afterFgLaunch : Shell :=
  eval_parent afterBgLaunch 10 false "cat\n"

/-- Run a list of table calls as `runOps` does, refusing in addition every `addjob` call
that is made with `nextjid >= MAXJOBS` while more than one slot is free. -/
def runOpsNoWrap : Shell → List TableOp → Option Shell
  | s, [] => some s
  | s, TableOp.add pid state cmdline :: ops =>
    if (1 ≤ pid ∧ ∀ j ∈ s.jobs, j.pid ≠ pid) ∧
        (s.nextjid + 1 ≤ (MAXJOBS : Int) ∨ List.countP (fun j => j.pid == 0) s.jobs ≤ 1) then
      runOpsNoWrap (addjob s pid state cmdline).2 ops
    else none
  | s, TableOp.del pid :: ops => runOpsNoWrap (deletejob s pid).2 ops

/-- The state after a list of table calls, made one after the other. -/
def applyOps : Shell → List TableOp → Shell
  | s, [] => s
  | s, TableOp.add pid state cmdline :: ops => applyOps (addjob s pid state cmdline).2 ops
  | s, TableOp.del pid :: ops => applyOps (deletejob s pid).2 ops

/-- Sixteen launches fill the table with the ids 1..16; the job with pid 5 ends, which
sets `nextjid` to 17; the next launch takes the one free slot with id 17 and wraps
`nextjid` to 1. -/
def refillOps : List TableOp :=
  ((List.range 16).map fun (k : Nat) => TableOp.add (1 + (k : Int)) BG "sleep 9 &\n") ++
    [TableOp.del 5, TableOp.add 17 BG "sleep 9 &\n"]

/-- The full table that the calls of `refillOps` leave. -/
def refillState : Shell :=
  applyOps (initShell false) refillOps

/-- The runs of the shell at the grain at which SIGCHLD is delivered. `eval` blocks SIGCHLD
around `addjob`, so a launch is one step; `do_bgfg` never blocks it, so the handler can run
between the lookup of the job and the write of `job->state`: `fg` and `bg` are two steps,
and the second component holds, between them, `ground` and the slot that the local
pointer `job` refers to (`none` when no `do_bgfg` call is under way). As in `ShellReach`,
a command is begun only when `fgpid(jobs)` is 0. -/
inductive ShellRun : Shell → Option (Bool × Nat) → Prop where
  | init (v : Bool) : ShellRun (initShell v) none
  | launch {s : Shell} (pid : Int) (bg : Bool) (cmdline : String) :
      ShellRun s none → fgpid s.jobs = 0 → 1 ≤ pid →
      ShellRun (eval_parent s pid bg cmdline) none
  | usage {s : Shell} (argv0 : String) (killOk : Bool) :
      ShellRun s none → fgpid s.jobs = 0 → (argv0 = "fg" ∨ argv0 = "bg") →
      ShellRun (do_bgfg s [argv0] killOk) none
  | lookup {s : Shell} (argv0 temp : String) :
      ShellRun s none → fgpid s.jobs = 0 → (argv0 = "fg" ∨ argv0 = "bg") →
      ShellRun (do_bgfg_lookup s argv0 temp).1
        ((do_bgfg_lookup s argv0 temp).2.map fun i => (argv0 == "fg", i))
  | move {s : Shell} {ground : Bool} {i : Nat} (killOk : Bool) :
      ShellRun s (some (ground, i)) → ShellRun (do_bgfg_move s ground i killOk) none
  | sigchld {s s1 : Shell} {job : Option (Bool × Nat)} (polls : List (Int × WStatus)) :
      ShellRun s job → sigchld_handler s polls = some s1 → ShellRun s1 job

/-- Two background jobs have been launched: pid 20 (slot 0, job id 1) and pid 21 (slot 1,
job id 2). -/
def raceStart : Shell :=
  eval_parent (eval_parent (initShell false) 20 true "sleep 1 &\n") 21 true "sleep 2 &\n"

/-- The table of `raceStart` after the handler has reaped both children. -/
def raceReaped : Shell :=
  (deletejob (deletejob raceStart 20).2 21).2

/-- The state in which `fg %2`, begun in `raceStart`, returns when both children exit
between its lookup and its write of `job->state`. -/
def raceMarked : Shell :=
  do_bgfg_move raceReaped true 1 true

/-- The state after the next command, the foreground launch of pid 30. -/
def raceLaunched : Shell :=
  eval_parent raceMarked 30 false "cat\n"

/-- The states reached from `initjobs` by calls of `addjob`, `deletejob`, `do_bgfg` and
`sigchld_handler` when the handler may also run inside a `do_bgfg` call, which does not
block SIGCHLD: between the lookup of the job and the write of `job->state`. The second
component holds, between these two steps, `ground` and the slot that the local pointer
`job` refers to. -/
inductive OpsRun : Shell → Option (Bool × Nat) → Prop where
  | init (v : Bool) : OpsRun (initShell v) none
  | addjob {s : Shell} (pid state : Int) (cmdline : String) :
      OpsRun s none → OpsRun (addjob s pid state cmdline).2 none
  | deletejob {s : Shell} (pid : Int) : OpsRun s none → OpsRun (deletejob s pid).2 none
  | do_bgfg {s : Shell} (argv : List String) (killOk : Bool) :
      OpsRun s none → OpsRun (do_bgfg s argv killOk) none
  | lookup {s : Shell} (argv0 temp : String) :
      OpsRun s none →
      OpsRun (do_bgfg_lookup s argv0 temp).1
        ((do_bgfg_lookup s argv0 temp).2.map fun i => (argv0 == "fg", i))
  | move {s : Shell} {ground : Bool} {i : Nat} (killOk : Bool) :
      OpsRun s (some (ground, i)) → OpsRun (do_bgfg_move s ground i killOk) none
  | sigchld {s s1 : Shell} {job : Option (Bool × Nat)} (polls : List (Int × WStatus)) :
      OpsRun s job → sigchld_handler s polls = some s1 → OpsRun s1 job

/-- The table after `addjob(jobs, 20, BG, "sleep 1 &\n")`: one background job, in slot 0
with job id 1. -/
def oneJob : Shell :=
  (addjob (initShell false) 20 BG "sleep 1 &\n").2

/-- The state in which `fg %1`, begun in `oneJob`, returns when child 20 exits between
its lookup and its write of `job->state`. -/
def oneJobMarked : Shell :=
  do_bgfg_move (deletejob oneJob 20).2 true 0 true

/-! ## Facts about slot scans -/

theorem firstSlot_eq_none {p : job_t → Bool} {l : List job_t} :
    firstSlot p l = none ↔ ∀ j ∈ l, p j = false := by
  induction l with
  | nil => simp [firstSlot]
  | cons a l ih => by_cases h : p a <;> simp [firstSlot, h, ih]

theorem firstSlot_some_spec {p : job_t → Bool} {l : List job_t} {i : Nat}
    (h : firstSlot p l = some i) :
    i < l.length ∧ p (l.getD i default) = true ∧
      ∀ k, k < i → p (l.getD k default) = false := by
  induction l generalizing i with
  | nil => simp [firstSlot] at h
  | cons a l ih =>
    by_cases ha : p a
    · simp [firstSlot, ha] at h
      subst h
      simp [ha]
    · simp only [firstSlot, ha, Bool.false_eq_true, if_false, Option.map_eq_some'] at h
      obtain ⟨i0, h0, rfl⟩ := h
      obtain ⟨h1, h2, h3⟩ := ih h0
      refine ⟨by simp; omega, by simpa using h2, ?_⟩
      intro k hk
      cases k with
      | zero => simpa using ha
      | succ k => simpa using h3 k (by omega)

theorem firstSlot_isSome {p : job_t → Bool} {l : List job_t} (h : ∃ j ∈ l, p j = true) :
    ∃ i, firstSlot p l = some i := by
  cases hf : firstSlot p l with
  | some i => exact ⟨i, rfl⟩
  | none =>
    obtain ⟨j, hj, hp⟩ := h
    rw [firstSlot_eq_none] at hf
    simp [hf j hj] at hp

theorem firstSlot_set_new {q : job_t → Bool} {l : List job_t} {i : Nat} {x : job_t}
    (hl : ∀ j ∈ l, q j = false) (hi : i < l.length) (hx : q x = true) :
    firstSlot q (l.set i x) = some i := by
  induction l generalizing i with
  | nil => simp at hi
  | cons a l ih =>
    cases i with
    | zero => simp [firstSlot, hx]
    | succ i =>
      have ha : q a = false := hl a (by simp)
      have := ih (fun j hj => hl j (by simp [hj])) (by simpa using hi)
      simp [firstSlot, ha, this]

theorem pid2jidLoop_set_new {pid : Int} {l : List job_t} {i : Nat} {x : job_t}
    (hl : ∀ j ∈ l, j.pid ≠ pid) (hi : i < l.length) (hx : x.pid = pid) :
    pid2jidLoop pid (l.set i x) = x.jid := by
  induction l generalizing i with
  | nil => simp at hi
  | cons a l ih =>
    cases i with
    | zero => simp [pid2jidLoop, hx]
    | succ i =>
      have ha : a.pid ≠ pid := hl a (by simp)
      have := ih (fun j hj => hl j (by simp [hj])) (by simpa using hi)
      simp [pid2jidLoop, ha, this]

/-! ## `addjob` -/

/-- C2. When all `MAXJOBS` slots of the job table are occupied, `addjob` returns 0 and
leaves every slot and `nextjid` unchanged, for every pid, state and command line. -/
theorem addjob_full_unchanged (s : Shell) (pid state : Int) (cmdline : String)
    (_hlen : s.jobs.length = MAXJOBS) (hfull : ∀ j ∈ s.jobs, j.pid ≠ 0) :
    (addjob s pid state cmdline).1 = 0 ∧
      (addjob s pid state cmdline).2.jobs = s.jobs ∧
      (addjob s pid state cmdline).2.nextjid = s.nextjid := by
  have hnone : firstSlot (fun j => j.pid == 0) s.jobs = none := by
    rw [firstSlot_eq_none]
    intro j hj
    simpa using hfull j hj
  unfold addjob
  by_cases hp : pid < 1
  · simp [hp]
  · simp [hp, hnone, printf]

theorem addjob_full_unchanged_witness :
    (addjob fullTable 7 FG "ls\n").1 = 0 ∧
      (addjob fullTable 7 FG "ls\n").2.jobs = fullTable.jobs ∧
      (addjob fullTable 7 FG "ls\n").2.nextjid = fullTable.nextjid :=
  addjob_full_unchanged fullTable 7 FG "ls\n" (by decide) (by decide)

theorem addjob_spec (s : Shell) (pid state : Int) (cmdline : String)
    (hfree : ∃ j ∈ s.jobs, j.pid = 0) (hpid : 1 ≤ pid) (hnew : ∀ j ∈ s.jobs, j.pid ≠ pid) :
    ∃ i, i < s.jobs.length ∧ (s.jobs.getD i default).pid = 0 ∧
      (∀ k, k < i → (s.jobs.getD k default).pid ≠ 0) ∧
      (addjob s pid state cmdline).1 = 1 ∧
      (addjob s pid state cmdline).2.jobs =
        s.jobs.set i { pid := pid, jid := s.nextjid, state := state, cmdline := cmdline } ∧
      getjobpid (addjob s pid state cmdline).2.jobs pid = some i ∧
      pid2jid (addjob s pid state cmdline).2 pid = s.nextjid := by
  obtain ⟨i, hi⟩ := firstSlot_isSome (p := fun j => j.pid == 0)
    (by obtain ⟨j, hj, h0⟩ := hfree; exact ⟨j, hj, by simp [h0]⟩)
  obtain ⟨hlt, h0, hlow⟩ := firstSlot_some_spec hi
  have hp : ¬ pid < 1 := by omega
  have hjobs : (addjob s pid state cmdline).2.jobs =
      s.jobs.set i { pid := pid, jid := s.nextjid, state := state, cmdline := cmdline } := by
    unfold addjob
    cases hv : s.verbose <;> simp [hp, hi, hv, printf]
  refine ⟨i, hlt, by simpa using h0, fun k hk => by simpa using hlow k hk, ?_, hjobs, ?_, ?_⟩
  · unfold addjob
    simp [hp, hi]
  · rw [hjobs]
    unfold getjobpid
    simp only [hp, if_false]
    exact firstSlot_set_new (fun j hj => by simpa using hnew j hj) hlt (by simp)
  · unfold pid2jid
    simp only [hp, if_false]
    rw [hjobs]
    exact pid2jidLoop_set_new hnew hlt rfl

/-- C3. In a table with an empty slot, `addjob` with a pid `>= 1` that is not in the table
returns 1, writes exactly `pid`, `state`, `cmdline` and the old `nextjid` as job id into the
lowest-index empty slot `i`, changes no other slot, and afterwards `getjobpid` finds slot
`i` for `pid` and `pid2jid` gives the old `nextjid`. -/
theorem addjob_free_slot (s : Shell) (pid state : Int) (cmdline : String)
    (hfree : ∃ j ∈ s.jobs, j.pid = 0) (hpid : 1 ≤ pid) (hnew : ∀ j ∈ s.jobs, j.pid ≠ pid) :
    ∃ i, i < s.jobs.length ∧ (s.jobs.getD i default).pid = 0 ∧
      (∀ k, k < i → (s.jobs.getD k default).pid ≠ 0) ∧
      (addjob s pid state cmdline).1 = 1 ∧
      (addjob s pid state cmdline).2.jobs =
        s.jobs.set i { pid := pid, jid := s.nextjid, state := state, cmdline := cmdline } ∧
      getjobpid (addjob s pid state cmdline).2.jobs pid = some i ∧
      pid2jid (addjob s pid state cmdline).2 pid = s.nextjid :=
  addjob_spec s pid state cmdline hfree hpid hnew

theorem addjob_free_slot_witness :
    ∃ i, i < (initShell false).jobs.length ∧ ((initShell false).jobs.getD i default).pid = 0 ∧
      (∀ k, k < i → ((initShell false).jobs.getD k default).pid ≠ 0) ∧
      (addjob (initShell false) 5 BG "ls &\n").1 = 1 ∧
      (addjob (initShell false) 5 BG "ls &\n").2.jobs =
        (initShell false).jobs.set i
          { pid := 5, jid := (initShell false).nextjid, state := BG, cmdline := "ls &\n" } ∧
      getjobpid (addjob (initShell false) 5 BG "ls &\n").2.jobs 5 = some i ∧
      pid2jid (addjob (initShell false) 5 BG "ls &\n").2 5 = (initShell false).nextjid :=
  addjob_free_slot (initShell false) 5 BG "ls &\n" (by decide) (by decide) (by decide)

/-! ## `deletejob` -/

theorem deletejob_found {s : Shell} {pid : Int} {i : Nat} (hp : 1 ≤ pid)
    (hi : firstSlot (fun j => j.pid == pid) s.jobs = some i) :
    deletejob s pid =
      (1, { s with jobs := s.jobs.set i emptyJob,
                   nextjid := maxjid (s.jobs.set i emptyJob) + 1 }) := by
  have hp1 : ¬ pid < 1 := by omega
  simp [deletejob, hp1, hi, clearjob, emptyJob]

theorem deletejob_absent {s : Shell} {pid : Int}
    (h : pid < 1 ∨ ∀ j ∈ s.jobs, j.pid ≠ pid) : deletejob s pid = (0, s) := by
  unfold deletejob
  by_cases hp : pid < 1
  · simp [hp]
  · have hnone : firstSlot (fun j => j.pid == pid) s.jobs = none := by
      rw [firstSlot_eq_none]
      intro j hj
      rcases h with h | h
      · exact absurd h hp
      · simpa using h j hj
    simp [hp, hnone]

/-- C6. `deletejob` returns 1 exactly when `pid >= 1` and some slot holds `pid`; then the
lowest-index slot holding `pid` is cleared (pid 0, jid 0, state UNDEF, empty command line)
and no other slot changes; otherwise it returns 0 and the whole state, every slot and
`nextjid` included, is unchanged. -/
theorem deletejob_spec (s : Shell) (pid : Int) :
    ((deletejob s pid).1 = 1 ↔ (1 ≤ pid ∧ ∃ j ∈ s.jobs, j.pid = pid)) ∧
    ((deletejob s pid).1 = 1 →
      ∃ i, i < s.jobs.length ∧ (s.jobs.getD i default).pid = pid ∧
        (∀ k, k < i → (s.jobs.getD k default).pid ≠ pid) ∧
        (deletejob s pid).2.jobs =
          s.jobs.set i { pid := 0, jid := 0, state := UNDEF, cmdline := "" }) ∧
    ((deletejob s pid).1 ≠ 1 → (deletejob s pid).1 = 0 ∧ (deletejob s pid).2 = s) := by
  by_cases hex : 1 ≤ pid ∧ ∃ j ∈ s.jobs, j.pid = pid
  · obtain ⟨hp, j, hj, hjp⟩ := hex
    obtain ⟨i, hi⟩ := firstSlot_isSome (p := fun j => j.pid == pid) ⟨j, hj, by simp [hjp]⟩
    obtain ⟨hlt, h0, hlow⟩ := firstSlot_some_spec hi
    rw [deletejob_found hp hi]
    refine ⟨⟨fun _ => ⟨hp, j, hj, hjp⟩, fun _ => rfl⟩, fun _ => ?_, fun h => absurd rfl h⟩
    exact ⟨i, hlt, by simpa using h0, fun k hk => by simpa using hlow k hk, rfl⟩
  · have habs : pid < 1 ∨ ∀ j ∈ s.jobs, j.pid ≠ pid := by
      by_cases hp : pid < 1
      · exact Or.inl hp
      · right
        intro j hj hjp
        exact hex ⟨by omega, j, hj, hjp⟩
    rw [deletejob_absent habs]
    refine ⟨⟨fun h => by simp at h, fun h => absurd h hex⟩, fun h => by simp at h, fun _ => ⟨rfl, rfl⟩⟩

/-! ## Job ids -/

theorem addjob_found {s : Shell} {pid : Int} (state : Int) (cmdline : String) {i : Nat}
    (hp : 1 ≤ pid) (hi : firstSlot (fun j => j.pid == 0) s.jobs = some i) :
    (addjob s pid state cmdline).1 = 1 ∧
      (addjob s pid state cmdline).2.jobs =
        s.jobs.set i { pid := pid, jid := s.nextjid, state := state, cmdline := cmdline } ∧
      (addjob s pid state cmdline).2.nextjid =
        (if s.nextjid + 1 > (MAXJOBS : Int) then 1 else s.nextjid + 1) ∧
      (addjob s pid state cmdline).2.verbose = s.verbose := by
  have hp1 : ¬ pid < 1 := by omega
  unfold addjob
  cases hv : s.verbose <;> simp [hp1, hi, hv, printf]

theorem addjob_refused (s : Shell) (pid : Int) (state : Int) (cmdline : String)
    (h : pid < 1 ∨ firstSlot (fun j => j.pid == 0) s.jobs = none) :
    (addjob s pid state cmdline).1 = 0 ∧
      (addjob s pid state cmdline).2.jobs = s.jobs ∧
      (addjob s pid state cmdline).2.nextjid = s.nextjid ∧
      (addjob s pid state cmdline).2.verbose = s.verbose := by
  unfold addjob
  by_cases hp : pid < 1
  · simp [hp]
  · rcases h with h | h
    · exact absurd h hp
    · simp [hp, h, printf]

theorem maxjidFrom_ge_acc (acc : Int) (l : List job_t) : acc ≤ maxjidFrom acc l := by
  induction l generalizing acc with
  | nil => simp [maxjidFrom]
  | cons a l ih =>
    simp only [maxjidFrom]
    have := ih (if a.jid > acc then a.jid else acc)
    split_ifs at this ⊢ <;> omega

theorem maxjidFrom_ge_mem (acc : Int) (l : List job_t) :
    ∀ j ∈ l, j.jid ≤ maxjidFrom acc l := by
  induction l generalizing acc with
  | nil => simp
  | cons a l ih =>
    intro j hj
    simp only [maxjidFrom]
    rcases List.mem_cons.1 hj with rfl | hj
    · have := maxjidFrom_ge_acc (if j.jid > acc then j.jid else acc) l
      split_ifs at this ⊢ <;> omega
    · exact ih _ j hj

theorem maxjidFrom_attained (acc : Int) (l : List job_t) :
    maxjidFrom acc l = acc ∨ ∃ j ∈ l, j.jid = maxjidFrom acc l := by
  induction l generalizing acc with
  | nil => simp [maxjidFrom]
  | cons a l ih =>
    simp only [maxjidFrom]
    rcases ih (if a.jid > acc then a.jid else acc) with h | ⟨j, hj, h⟩
    · by_cases ha : a.jid > acc
      · right
        refine ⟨a, by simp, ?_⟩
        rw [h]
        simp [ha]
      · left
        rw [h]
        simp [ha]
    · exact Or.inr ⟨j, by simp [hj], h⟩

theorem pairwise_set {R : job_t → job_t → Prop} {l : List job_t} (i : Nat) {x : job_t}
    (hl : l.Pairwise R) (hx : ∀ a ∈ l, R a x ∧ R x a) : (l.set i x).Pairwise R := by
  induction l generalizing i with
  | nil => simp
  | cons a l ih =>
    rw [List.pairwise_cons] at hl
    cases i with
    | zero =>
      simp only [List.set_cons_zero, List.pairwise_cons]
      exact ⟨fun b hb => (hx b (by simp [hb])).2, hl.2⟩
    | succ i =>
      simp only [List.set_cons_succ, List.pairwise_cons]
      refine ⟨fun b hb => ?_, ih i hl.2 (fun b hb => hx b (by simp [hb]))⟩
      rcases List.mem_or_eq_of_mem_set hb with hb | rfl
      · exact hl.1 b hb
      · exact (hx a (by simp)).1

theorem countP_set_lt {p : job_t → Bool} {l : List job_t} {i : Nat} {x : job_t}
    (hi : i < l.length) (hold : p (l.getD i default) = true) (hx : p x = false) :
    List.countP p (l.set i x) + 1 = List.countP p l := by
  induction l generalizing i with
  | nil => simp at hi
  | cons a l ih =>
    cases i with
    | zero =>
      have ha : p a = true := by simpa using hold
      simp [List.countP_cons, ha, hx]
    | succ i =>
      have := ih (i := i) (by simpa using hi) (by simpa using hold)
      simp only [List.set_cons_succ, List.countP_cons]
      omega

theorem runOps_reach {s s1 : Shell} {ops : List TableOp} (hs : TableReach s)
    (h : runOps s ops = some s1) : TableReach s1 := by
  induction ops generalizing s with
  | nil =>
    simp only [runOps, Option.some.injEq] at h
    exact h ▸ hs
  | cons op ops ih =>
    cases op with
    | add pid state cmdline =>
      simp only [runOps] at h
      split_ifs at h with hg
      exact ih (TableReach.add pid state cmdline hs hg.1 hg.2) h
    | del pid =>
      simp only [runOps] at h
      exact ih (TableReach.del pid hs) h

theorem getD_mem {l : List job_t} {i : Nat} (hi : i < l.length) : l.getD i default ∈ l := by
  induction l generalizing i with
  | nil => simp at hi
  | cons a l ih =>
    cases i with
    | zero => simp
    | succ i =>
      have := ih (i := i) (by simpa using hi)
      exact List.mem_cons_of_mem _ this

theorem jidInv_init (v : Bool) : JidInv (initShell v) := by
  cases v
  · exact ⟨by decide, by decide, Or.inl (by decide)⟩
  · exact ⟨by decide, by decide, Or.inl (by decide)⟩

theorem jidInv_congr {s s1 : Shell} (hj : s1.jobs = s.jobs) (hn : s1.nextjid = s.nextjid)
    (h : JidInv s) : JidInv s1 := by
  obtain ⟨h1, h2, h3⟩ := h
  exact ⟨by rw [hj]; exact h1, by rw [hj]; exact h2, by rw [hj, hn]; exact h3⟩

theorem jidInv_deletejob {s : Shell} (pid : Int) (h : JidInv s) :
    JidInv (deletejob s pid).2 := by
  by_cases hex : 1 ≤ pid ∧ ∃ j ∈ s.jobs, j.pid = pid
  · obtain ⟨hp, j, hj, hjp⟩ := hex
    obtain ⟨i, hi⟩ := firstSlot_isSome (p := fun j => j.pid == pid) ⟨j, hj, by simp [hjp]⟩
    rw [deletejob_found hp hi]
    obtain ⟨h1, ⟨h2, h2p⟩, _⟩ := h
    refine ⟨?_, ⟨?_, ?_⟩, Or.inl ?_⟩
    · intro a ha
      rcases List.mem_or_eq_of_mem_set ha with ha | rfl
      · exact h1 a ha
      · intro _
        rfl
    · intro a ha hne
      rcases List.mem_or_eq_of_mem_set ha with ha | rfl
      · exact h2 a ha hne
      · exact absurd rfl hne
    · exact pairwise_set i h2p (fun a _ => ⟨fun _ hx => absurd rfl hx, fun hx => absurd rfl hx⟩)
    · intro a ha
      have := maxjidFrom_ge_mem 0 (s.jobs.set i emptyJob) a ha
      simp only [maxjid]
      omega
  · have habs : pid < 1 ∨ ∀ j ∈ s.jobs, j.pid ≠ pid := by
      by_cases hp : pid < 1
      · exact Or.inl hp
      · right
        intro j hj hjp
        exact hex ⟨by omega, j, hj, hjp⟩
    rw [deletejob_absent habs]
    exact h

theorem jidInv_addjob {s : Shell} (pid state : Int) (cmdline : String) (h : JidInv s)
    (hp : 1 ≤ pid)
    (hg : s.nextjid + 1 ≤ (MAXJOBS : Int) ∨ List.countP (fun j => j.pid == 0) s.jobs ≤ 1) :
    JidInv (addjob s pid state cmdline).2 := by
  cases hf : firstSlot (fun j => j.pid == 0) s.jobs with
  | none =>
    obtain ⟨_, e1, e2, _⟩ := addjob_refused s pid state cmdline (Or.inr hf)
    exact jidInv_congr e1 e2 h
  | some i =>
    obtain ⟨_, e1, e2, _⟩ := addjob_found state cmdline hp hf
    obtain ⟨hlt, h0, _⟩ := firstSlot_some_spec hf
    have h0 : (s.jobs.getD i default).pid = 0 := by simpa using h0
    obtain ⟨h1, ⟨h2, h2p⟩, h3⟩ := h
    have hmem := getD_mem hlt
    have hbelow : ∀ j ∈ s.jobs, j.jid < s.nextjid := by
      rcases h3 with h3 | h3
      · exact h3
      · exact absurd h0 (h3 _ hmem)
    have hpos : 0 < s.nextjid := by
      have := hbelow _ hmem
      rw [h1 _ hmem h0] at this
      exact this
    refine ⟨?_, ⟨?_, ?_⟩, ?_⟩
    · rw [e1]
      intro a ha
      rcases List.mem_or_eq_of_mem_set ha with ha | rfl
      · exact h1 a ha
      · intro hz
        simp only at hz
        omega
    · rw [e1]
      intro a ha hne
      rcases List.mem_or_eq_of_mem_set ha with ha | rfl
      · exact h2 a ha hne
      · exact hpos
    · rw [e1]
      refine pairwise_set i h2p (fun a ha => ⟨fun _ _ => ?_, fun _ _ => ?_⟩)
      · have := hbelow a ha
        simp only [ne_eq]
        omega
      · have := hbelow a ha
        simp only [ne_eq]
        omega
    · rw [e1, e2]
      by_cases hw : s.nextjid + 1 > (MAXJOBS : Int)
      · right
        have hc : List.countP (fun j => j.pid == 0) s.jobs ≤ 1 := by
          rcases hg with hg | hg
          · omega
          · exact hg
        have hx : (fun j : job_t => j.pid == 0)
            { pid := pid, jid := s.nextjid, state := state, cmdline := cmdline } = false := by
          simp only [beq_eq_false_iff_ne, ne_eq]
          omega
        have hcount := countP_set_lt (p := fun j => j.pid == 0) hlt (by simpa using h0) hx
        have hzero : List.countP (fun j => j.pid == 0)
            (s.jobs.set i { pid := pid, jid := s.nextjid, state := state, cmdline := cmdline })
            = 0 := by omega
        rw [List.countP_eq_zero] at hzero
        intro a ha
        simpa using hzero a ha
      · left
        simp only [hw, if_false]
        intro a ha
        rcases List.mem_or_eq_of_mem_set ha with ha | rfl
        · have := hbelow a ha
          omega
        · simp only
          omega

theorem jidInv_of_noWrap {s : Shell} (h : TableReachNoWrap s) : JidInv s := by
  induction h with
  | init v => exact jidInv_init v
  | add pid state cmdline _ hp _ hg ih => exact jidInv_addjob pid state cmdline ih hp hg
  | del pid _ ih => exact jidInv_deletejob pid ih

/-- C4, as stated, fails: after the calls of `wrapOps` the jobs with pids 1 and 18 both
hold job id 1. -/
theorem jid_collision_after_wrap :
    ∃ s, runOps (initShell false) wrapOps = some s ∧ TableReach s ∧ ¬ jidsOk s.jobs := by
  have h : (runOps (initShell false) wrapOps).isSome = true := by decide
  obtain ⟨s, hs⟩ := Option.isSome_iff_exists.1 h
  refine ⟨s, hs, runOps_reach (TableReach.init false) hs, ?_⟩
  have hj : (runOps (initShell false) wrapOps).map (fun s => decide (jidsOk s.jobs))
      = some false := by decide
  rw [hs] at hj
  simpa using hj

theorem runOpsNoWrap_reach {s s1 : Shell} {ops : List TableOp} (hs : TableReachNoWrap s)
    (h : runOpsNoWrap s ops = some s1) : TableReachNoWrap s1 := by
  induction ops generalizing s with
  | nil =>
    simp only [runOpsNoWrap, Option.some.injEq] at h
    exact h ▸ hs
  | cons op ops ih =>
    cases op with
    | add pid state cmdline =>
      simp only [runOpsNoWrap] at h
      split_ifs at h with hg
      exact ih (TableReachNoWrap.add pid state cmdline hs hg.1.1 hg.1.2 hg.2) h
    | del pid =>
      simp only [runOpsNoWrap] at h
      exact ih (TableReachNoWrap.del pid hs) h

theorem tableReach_of_noWrap {s : Shell} (h : TableReachNoWrap s) : TableReach s := by
  induction h with
  | init v => exact TableReach.init v
  | add pid state cmdline _ hp hn _ ih => exact TableReach.add pid state cmdline ih hp hn
  | del pid _ ih => exact TableReach.del pid ih

/-- Along every sequence of `addjob` and `deletejob` calls, wrapping or not, `nextjid` is
at least 1 and every occupied slot has a positive job id. -/
theorem tableReach_jid_pos {s : Shell} (h : TableReach s) :
    1 ≤ s.nextjid ∧ ∀ j ∈ s.jobs, j.pid ≠ 0 → 0 < j.jid := by
  induction h with
  | init v =>
    cases v
    · exact ⟨by decide, by decide⟩
    · exact ⟨by decide, by decide⟩
  | @add s pid state cmdline _ hp _ ih =>
    cases hf : firstSlot (fun j => j.pid == 0) s.jobs with
    | none =>
      obtain ⟨_, e1, e2, _⟩ := addjob_refused s pid state cmdline (Or.inr hf)
      rw [e1, e2]
      exact ih
    | some i =>
      obtain ⟨_, e1, e2, _⟩ := addjob_found state cmdline hp hf
      rw [e1, e2]
      refine ⟨by split_ifs <;> omega, ?_⟩
      intro a ha
      rcases List.mem_or_eq_of_mem_set ha with ha | rfl
      · exact ih.2 a ha
      · intro _
        show 0 < s.nextjid
        omega
  | @del s pid _ ih =>
    by_cases hex : 1 ≤ pid ∧ ∃ j ∈ s.jobs, j.pid = pid
    · obtain ⟨hp, j, hj, hjp⟩ := hex
      obtain ⟨i, hi⟩ := firstSlot_isSome (p := fun j => j.pid == pid) ⟨j, hj, by simp [hjp]⟩
      rw [deletejob_found hp hi]
      refine ⟨?_, ?_⟩
      · have := maxjidFrom_ge_acc 0 (s.jobs.set i emptyJob)
        show 1 ≤ maxjid (s.jobs.set i emptyJob) + 1
        unfold maxjid
        omega
      · intro a ha
        rcases List.mem_or_eq_of_mem_set ha with ha | rfl
        · exact ih.2 a ha
        · intro h0
          exact absurd rfl h0
    · have habs : pid < 1 ∨ ∀ j ∈ s.jobs, j.pid ≠ pid := by
        by_cases hp : pid < 1
        · exact Or.inl hp
        · right
          intro j hj hjp
          exact hex ⟨by omega, j, hj, hjp⟩
      rw [deletejob_absent habs]
      exact ih

/-- C4, amended. In every state reached from the initial empty table by `addjob` calls
(each with a pid `>= 1` that is not in the table) and `deletejob` calls, every occupied
slot has a positive job id; and when the state is reached without an `addjob` call that
wraps `nextjid` to 1 while a slot stays free (each call made with `nextjid < MAXJOBS` or
with at most one free slot), no two occupied slots have the same job id. -/
theorem jids_unique_no_wrap (s : Shell) (h : TableReach s) :
    (∀ j ∈ s.jobs, j.pid ≠ 0 → 0 < j.jid) ∧
      (TableReachNoWrap s →
        s.jobs.Pairwise (fun a b => a.pid ≠ 0 → b.pid ≠ 0 → a.jid ≠ b.jid)) :=
  ⟨(tableReach_jid_pos h).2, fun hn => (jidInv_of_noWrap hn).ok.2⟩

theorem jids_unique_no_wrap_witness :
    TableReach refillState ∧ TableReachNoWrap refillState ∧
      refillState.jobs.map (fun j => (j.pid, j.jid)) =
        [(1, 1), (2, 2), (3, 3), (4, 4), (17, 17), (6, 6), (7, 7), (8, 8), (9, 9),
          (10, 10), (11, 11), (12, 12), (13, 13), (14, 14), (15, 15), (16, 16)] ∧
      (∀ j ∈ refillState.jobs, j.pid ≠ 0 → 0 < j.jid) ∧
      refillState.jobs.Pairwise (fun a b => a.pid ≠ 0 → b.pid ≠ 0 → a.jid ≠ b.jid) :=
  have hn : TableReachNoWrap refillState :=
    runOpsNoWrap_reach (TableReachNoWrap.init false)
      (by decide : runOpsNoWrap (initShell false) refillOps = some refillState)
  ⟨tableReach_of_noWrap hn, hn, by decide,
    (jids_unique_no_wrap refillState (tableReach_of_noWrap hn)).1,
    (jids_unique_no_wrap refillState (tableReach_of_noWrap hn)).2 hn⟩

/-! ## Launching N jobs in a row -/

theorem firstSlot_append {p : job_t → Bool} {l1 : List job_t} (l2 : List job_t)
    (h : ∀ j ∈ l1, p j = false) :
    firstSlot p (l1 ++ l2) = (firstSlot p l2).map (· + l1.length) := by
  induction l1 with
  | nil => simp
  | cons a l ih =>
    have ha : p a = false := h a (by simp)
    have := ih (fun j hj => h j (by simp [hj]))
    show firstSlot p (a :: (l ++ l2)) = _
    simp only [firstSlot, ha, Bool.false_eq_true, if_false, this]
    cases firstSlot p l2 <;> simp [Nat.add_assoc]

theorem firstSlot_append_hit {p : job_t → Bool} {l1 : List job_t} (x : job_t)
    (l2 : List job_t) (h : ∀ j ∈ l1, p j = false) (hx : p x = true) :
    firstSlot p (l1 ++ x :: l2) = some l1.length := by
  rw [firstSlot_append _ h]
  simp [firstSlot, hx]

theorem set_append_hit (l1 : List job_t) (x y : job_t) (l2 : List job_t) :
    (l1 ++ x :: l2).set l1.length y = l1 ++ y :: l2 := by
  induction l1 with
  | nil => simp
  | cons a l ih => simp [ih]

theorem pid2jidLoop_append {pid : Int} {l1 : List job_t} (l2 : List job_t)
    (h : ∀ j ∈ l1, j.pid ≠ pid) : pid2jidLoop pid (l1 ++ l2) = pid2jidLoop pid l2 := by
  induction l1 with
  | nil => simp
  | cons a l ih =>
    have ha : a.pid ≠ pid := h a (by simp)
    simp [pid2jidLoop, ha, ih (fun j hj => h j (by simp [hj]))]

theorem maxjidFrom_append (acc : Int) (l1 l2 : List job_t) :
    maxjidFrom acc (l1 ++ l2) = maxjidFrom (maxjidFrom acc l1) l2 := by
  induction l1 generalizing acc with
  | nil => simp [maxjidFrom]
  | cons a l ih => simp [maxjidFrom, ih]

theorem maxjidFrom_replicate_empty {acc : Int} (h : 0 ≤ acc) (m : Nat) :
    maxjidFrom acc (List.replicate m emptyJob) = acc := by
  induction m with
  | zero => simp [maxjidFrom]
  | succ m ih =>
    have hn : ¬ (0 : Int) > acc := by omega
    simp [List.replicate_succ, maxjidFrom, emptyJob, hn]
    simpa [emptyJob] using ih

theorem maxjidFrom_jobsFrom (acc : Int) (reqs : List (Int × Int × String)) :
    maxjidFrom acc (jobsFrom (acc + 1) reqs) = acc + reqs.length := by
  induction reqs generalizing acc with
  | nil => simp [jobsFrom, maxjidFrom]
  | cons r rest ih =>
    obtain ⟨pid, state, cmdline⟩ := r
    have hgt : acc + 1 > acc := by omega
    simp only [jobsFrom, maxjidFrom, hgt, if_true, ih (acc + 1), List.length_cons]
    push_cast
    omega

theorem jobsFrom_pid {n : Int} {reqs : List (Int × Int × String)} :
    ∀ j ∈ jobsFrom n reqs, ∃ r ∈ reqs, r.1 = j.pid := by
  induction reqs generalizing n with
  | nil => simp [jobsFrom]
  | cons r rest ih =>
    obtain ⟨pid, state, cmdline⟩ := r
    intro j hj
    simp only [jobsFrom, List.mem_cons] at hj
    rcases hj with rfl | hj
    · exact ⟨(pid, state, cmdline), by simp, rfl⟩
    · obtain ⟨r, hr, e⟩ := ih j hj
      exact ⟨r, by simp [hr], e⟩

theorem jobsFrom_append (n : Int) (a b : List (Int × Int × String)) :
    jobsFrom n (a ++ b) = jobsFrom n a ++ jobsFrom (n + a.length) b := by
  induction a generalizing n with
  | nil => simp [jobsFrom]
  | cons r rest ih =>
    obtain ⟨pid, state, cmdline⟩ := r
    show jobsFrom n ((pid, state, cmdline) :: (rest ++ b)) = _
    simp only [jobsFrom, ih, List.length_cons, List.cons_append]
    push_cast
    rw [show n + 1 + (rest.length : Int) = n + ((rest.length : Int) + 1) by omega]

theorem jobsFrom_length (n : Int) (reqs : List (Int × Int × String)) :
    (jobsFrom n reqs).length = reqs.length := by
  induction reqs generalizing n with
  | nil => simp [jobsFrom]
  | cons r rest ih =>
    obtain ⟨pid, state, cmdline⟩ := r
    simp [jobsFrom, ih]

/-- One launch into a table whose occupied slots `occ` come first and are followed by at
least one empty slot. -/
theorem addjob_shape {s : Shell} {occ : List job_t} {m : Nat} (pid state : Int)
    (cmdline : String) (hs : s.jobs = occ ++ List.replicate (m + 1) emptyJob)
    (hocc : ∀ j ∈ occ, j.pid ≠ 0) (hp : 1 ≤ pid) (hnew : ∀ j ∈ occ, j.pid ≠ pid) :
    (addjob s pid state cmdline).1 = 1 ∧
      (addjob s pid state cmdline).2.jobs =
        occ ++ { pid := pid, jid := s.nextjid, state := state, cmdline := cmdline } ::
          List.replicate m emptyJob ∧
      (addjob s pid state cmdline).2.nextjid =
        (if s.nextjid + 1 > (MAXJOBS : Int) then 1 else s.nextjid + 1) ∧
      (addjob s pid state cmdline).2.verbose = s.verbose ∧
      pid2jid (addjob s pid state cmdline).2 pid = s.nextjid := by
  have hslot : firstSlot (fun j => j.pid == 0) s.jobs = some occ.length := by
    rw [hs, List.replicate_succ]
    exact firstSlot_append_hit _ _ (fun j hj => by simpa using hocc j hj) (by simp [emptyJob])
  obtain ⟨e0, e1, e2, e3⟩ := addjob_found state cmdline hp hslot
  have e1' : (addjob s pid state cmdline).2.jobs =
      occ ++ { pid := pid, jid := s.nextjid, state := state, cmdline := cmdline } ::
        List.replicate m emptyJob := by
    rw [e1, hs, List.replicate_succ, set_append_hit]
  refine ⟨e0, e1', e2, e3, ?_⟩
  have hp1 : ¬ pid < 1 := by omega
  simp only [pid2jid, hp1, if_false, e1']
  rw [pid2jidLoop_append _ hnew]
  simp [pid2jidLoop]

theorem addjobs_append (s : Shell) (a b : List (Int × Int × String)) :
    addjobs s (a ++ b) =
      ((addjobs (addjobs s a).1 b).1, (addjobs s a).2 ++ (addjobs (addjobs s a).1 b).2) := by
  induction a generalizing s with
  | nil => simp [addjobs]
  | cons r rest ih =>
    obtain ⟨pid, state, cmdline⟩ := r
    simp [addjobs, ih]

theorem addjobs_shape (reqs : List (Int × Int × String)) (s : Shell) (occ : List job_t)
    (m : Nat) (hs : s.jobs = occ ++ List.replicate m emptyJob)
    (hocc : ∀ j ∈ occ, j.pid ≠ 0) (hm : reqs.length ≤ m)
    (hpos : ∀ r ∈ reqs, 1 ≤ r.1) (hdis : ∀ j ∈ occ, ∀ r ∈ reqs, j.pid ≠ r.1)
    (hnd : (reqs.map (·.1)).Nodup) (hn : s.nextjid + reqs.length ≤ (MAXJOBS : Int)) :
    (addjobs s reqs).1.jobs =
        occ ++ jobsFrom s.nextjid reqs ++ List.replicate (m - reqs.length) emptyJob ∧
      (addjobs s reqs).1.nextjid = s.nextjid + reqs.length ∧
      (addjobs s reqs).1.verbose = s.verbose ∧
      (addjobs s reqs).2 = (List.range reqs.length).map (fun (k : Nat) => s.nextjid + (k : Int)) := by
  induction reqs generalizing s occ m with
  | nil => simp [addjobs, jobsFrom, hs]
  | cons r rest ih =>
    obtain ⟨pid, state, cmdline⟩ := r
    obtain ⟨m, rfl⟩ : ∃ m1, m = m1 + 1 := ⟨m - 1, by simp at hm; omega⟩
    simp only [List.length_cons, Nat.cast_add, Nat.cast_one] at hn
    have hp : 1 ≤ pid := hpos (pid, state, cmdline) (by simp)
    obtain ⟨_, e1, e2, e3, e4⟩ := addjob_shape pid state cmdline hs hocc hp
      (fun j hj => hdis j hj (pid, state, cmdline) (by simp))
    have hnw : ¬ s.nextjid + 1 > (MAXJOBS : Int) := by omega
    simp only [hnw, if_false] at e2
    simp only [List.map_cons, List.nodup_cons, List.mem_map, not_exists, not_and] at hnd
    obtain ⟨x, hx⟩ : ∃ x : job_t,
        x = { pid := pid, jid := s.nextjid, state := state, cmdline := cmdline } := ⟨_, rfl⟩
    have hxp : x.pid = pid := by rw [hx]
    have hxj : x.jid = s.nextjid := by rw [hx]
    rw [← hx] at e1
    have hocc1 : ∀ j ∈ occ ++ [x], j.pid ≠ 0 := by
      intro j hj
      rcases List.mem_append.1 hj with hj | hj
      · exact hocc j hj
      · simp only [List.mem_singleton] at hj
        rw [hj, hxp]
        omega
    have hdis1 : ∀ j ∈ occ ++ [x], ∀ r ∈ rest, j.pid ≠ r.1 := by
      intro j hj r hr
      rcases List.mem_append.1 hj with hj | hj
      · exact hdis j hj r (by simp [hr])
      · simp only [List.mem_singleton] at hj
        rw [hj, hxp]
        exact fun h => hnd.1 r hr h.symm
    obtain ⟨f1, f2, f3, f4⟩ := ih (addjob s pid state cmdline).2 (occ ++ [x]) m
      (by rw [e1]; simp) hocc1 (by simpa using hm) (fun r hr => hpos r (by simp [hr]))
      hdis1 hnd.2 (by rw [e2]; omega)
    refine ⟨?_, ?_, ?_, ?_⟩
    · simp only [addjobs, f1, e2, jobsFrom, List.length_cons, Nat.add_sub_add_right, ← hx]
      simp
    · simp only [addjobs, f2, e2, List.length_cons]
      push_cast
      omega
    · simp only [addjobs, f3, e3]
    · simp only [addjobs, f4, e4, e2, List.length_cons, List.range_succ_eq_map, List.map_cons,
        List.map_map]
      simp only [Nat.cast_zero, add_zero, List.cons.injEq, true_and]
      apply List.map_congr_left
      intro k _
      simp only [Function.comp, Nat.cast_succ]
      omega

theorem initShell_jobs (v : Bool) :
    (initShell v).jobs = [] ++ List.replicate MAXJOBS emptyJob := by
  cases v <;> decide

theorem addjobs_roundtrip_aux (v : Bool) (reqs : List (Int × Int × String))
    (last new : Int × Int × String) (hN : reqs.length + 1 ≤ MAXJOBS)
    (hpos : ∀ r ∈ reqs ++ [last], 1 ≤ r.1) (hnd : ((reqs ++ [last]).map (·.1)).Nodup)
    (hnew : 1 ≤ new.1) (hfresh : ∀ r ∈ reqs, r.1 ≠ new.1) :
    (addjobs (initShell v) (reqs ++ [last])).2 =
        (List.range (reqs.length + 1)).map (fun (k : Nat) => (k : Int) + 1) ∧
      pid2jid (addjobs (initShell v) (reqs ++ [last])).1 last.1 = (reqs.length : Int) + 1 ∧
      maxjid (addjobs (initShell v) (reqs ++ [last])).1.jobs = (reqs.length : Int) + 1 ∧
      (deletejob (addjobs (initShell v) (reqs ++ [last])).1 last.1).1 = 1 ∧
      (addjob (deletejob (addjobs (initShell v) (reqs ++ [last])).1 last.1).2
        new.1 new.2.1 new.2.2).1 = 1 ∧
      pid2jid (addjob (deletejob (addjobs (initShell v) (reqs ++ [last])).1 last.1).2
        new.1 new.2.1 new.2.2).2 new.1 = (reqs.length : Int) + 1 := by
  obtain ⟨lpid, lstate, lcmd⟩ := last
  obtain ⟨npid, nstate, ncmd⟩ := new
  simp only at hnew hfresh ⊢
  have hM : MAXJOBS = 16 := rfl
  have hlp : 1 ≤ lpid := hpos (lpid, lstate, lcmd) (by simp)
  simp only [List.map_append, List.map_cons, List.map_nil] at hnd
  have hnd1 : (reqs.map (·.1)).Nodup := (List.nodup_append.1 hnd).1
  have hlnew : ∀ r ∈ reqs, r.1 ≠ lpid := by
    intro r hr h
    exact (List.nodup_append.1 hnd).2.2 (List.mem_map.2 ⟨r, hr, rfl⟩) (by simp [h])
  -- the table after the first `reqs.length` launches
  obtain ⟨a1, a2, _, a4⟩ := addjobs_shape reqs (initShell v) [] MAXJOBS (initShell_jobs v)
    (by simp) (by omega) (fun r hr => hpos r (by simp [hr])) (by simp) hnd1
    (by show (1 : Int) + reqs.length ≤ (MAXJOBS : Int); rw [hM]; push_cast; omega)
  have hn1 : (initShell v).nextjid = 1 := rfl
  rw [hn1] at a1 a2 a4
  simp only [List.nil_append] at a1
  obtain ⟨m, hm⟩ : ∃ m, MAXJOBS - reqs.length = m + 1 := ⟨MAXJOBS - reqs.length - 1, by omega⟩
  rw [hm] at a1
  have hoccA : ∀ j ∈ jobsFrom 1 reqs, j.pid ≠ 0 := by
    intro j hj
    obtain ⟨r, hr, e⟩ := jobsFrom_pid j hj
    have := hpos r (by simp [hr])
    omega
  have hpidA : ∀ p, (∀ r ∈ reqs, r.1 ≠ p) → ∀ j ∈ jobsFrom 1 reqs, j.pid ≠ p := by
    intro p hp j hj
    obtain ⟨r, hr, e⟩ := jobsFrom_pid j hj
    rw [← e]
    exact hp r hr
  -- the last launch
  obtain ⟨_, b1, _, _, b4⟩ := addjob_shape lpid lstate lcmd a1 hoccA hlp (hpidA lpid hlnew)
  rw [a2] at b1 b4
  have hfin : addjobs (initShell v) (reqs ++ [(lpid, lstate, lcmd)]) =
      ((addjob (addjobs (initShell v) reqs).1 lpid lstate lcmd).2,
        (addjobs (initShell v) reqs).2 ++
          [pid2jid (addjob (addjobs (initShell v) reqs).1 lpid lstate lcmd).2 lpid]) := by
    rw [addjobs_append]
    simp [addjobs]
  rw [hfin]
  simp only
  have hlp1 : ¬ lpid < 1 := by omega
  have hnp1 : ¬ npid < 1 := by omega
  have hlen := jobsFrom_length 1 reqs
  -- deleting the last job
  have hdel : firstSlot (fun j => j.pid == lpid)
      (addjob (addjobs (initShell v) reqs).1 lpid lstate lcmd).2.jobs
        = some (jobsFrom 1 reqs).length := by
    rw [b1]
    exact firstSlot_append_hit _ _ (fun j hj => by simpa using hpidA lpid hlnew j hj) (by simp)
  rw [deletejob_found hlp hdel]
  simp only
  have hjobs2 : (addjob (addjobs (initShell v) reqs).1 lpid lstate lcmd).2.jobs.set
      (jobsFrom 1 reqs).length emptyJob
        = jobsFrom 1 reqs ++ List.replicate (m + 1) emptyJob := by
    rw [b1, set_append_hit, List.replicate_succ]
  rw [hjobs2]
  have hmax2 : maxjid (jobsFrom 1 reqs ++ List.replicate (m + 1) emptyJob)
      = (reqs.length : Int) := by
    simp only [maxjid]
    rw [maxjidFrom_append]
    have := maxjidFrom_jobsFrom 0 reqs
    simp only [zero_add] at this
    rw [this, maxjidFrom_replicate_empty (by omega)]
  rw [hmax2]
  obtain ⟨c0, _, _, _, c4⟩ := addjob_shape
    (s := { (addjob (addjobs (initShell v) reqs).1 lpid lstate lcmd).2 with
            jobs := jobsFrom 1 reqs ++ List.replicate (m + 1) emptyJob,
            nextjid := (reqs.length : Int) + 1 })
    npid nstate ncmd rfl hoccA hnew (hpidA npid hfresh)
  refine ⟨?_, ?_, ?_, trivial, c0, c4⟩
  · rw [a4, b4, List.range_succ, List.map_append]
    simp only [List.map_cons, List.map_nil]
    rw [show (1 : Int) + (reqs.length : Int) = (reqs.length : Int) + 1 by omega]
    congr 1
    exact List.map_congr_left (fun k _ => by omega)
  · rw [b4]
    omega
  · rw [b1]
    simp only [maxjid]
    rw [maxjidFrom_append]
    have := maxjidFrom_jobsFrom 0 reqs
    simp only [zero_add] at this
    rw [this]
    have hgt : (1 : Int) + reqs.length > reqs.length := by omega
    simp only [maxjidFrom, hgt, if_true]
    rw [maxjidFrom_replicate_empty (by omega)]
    omega

/-- C5. From the empty table with `nextjid = 1`, `N = reqs.length + 1 <= 16` successive
`addjob` calls with distinct pids `>= 1` assign the job ids `1, 2, ..., N` in that order;
the last job then holds the highest id `N`, and after `deletejob` removes it a further
`addjob` (for a pid `>= 1` not in the table) assigns the id `N` again. -/
theorem addjobs_ids_roundtrip (v : Bool) (reqs : List (Int × Int × String))
    (last new : Int × Int × String) (hN : reqs.length + 1 ≤ MAXJOBS)
    (hpos : ∀ r ∈ reqs ++ [last], 1 ≤ r.1) (hnd : ((reqs ++ [last]).map (·.1)).Nodup)
    (hnew : 1 ≤ new.1) (hfresh : ∀ r ∈ reqs, r.1 ≠ new.1) :
    (addjobs (initShell v) (reqs ++ [last])).2 =
        (List.range (reqs.length + 1)).map (fun (k : Nat) => (k : Int) + 1) ∧
      pid2jid (addjobs (initShell v) (reqs ++ [last])).1 last.1 = (reqs.length : Int) + 1 ∧
      maxjid (addjobs (initShell v) (reqs ++ [last])).1.jobs = (reqs.length : Int) + 1 ∧
      (deletejob (addjobs (initShell v) (reqs ++ [last])).1 last.1).1 = 1 ∧
      (addjob (deletejob (addjobs (initShell v) (reqs ++ [last])).1 last.1).2
        new.1 new.2.1 new.2.2).1 = 1 ∧
      pid2jid (addjob (deletejob (addjobs (initShell v) (reqs ++ [last])).1 last.1).2
        new.1 new.2.1 new.2.2).2 new.1 = (reqs.length : Int) + 1 :=
  addjobs_roundtrip_aux v reqs last new hN hpos hnd hnew hfresh

theorem addjobs_ids_roundtrip_witness :
    (addjobs (initShell false) (launches15 ++ [(200, BG, "ls &\n")])).2 =
        (List.range (launches15.length + 1)).map (fun (k : Nat) => (k : Int) + 1) ∧
      pid2jid (addjobs (initShell false) (launches15 ++ [(200, BG, "ls &\n")])).1 200
        = (launches15.length : Int) + 1 ∧
      maxjid (addjobs (initShell false) (launches15 ++ [(200, BG, "ls &\n")])).1.jobs
        = (launches15.length : Int) + 1 ∧
      (deletejob (addjobs (initShell false) (launches15 ++ [(200, BG, "ls &\n")])).1 200).1
        = 1 ∧
      (addjob (deletejob (addjobs (initShell false) (launches15 ++ [(200, BG, "ls &\n")])).1
        200).2 300 FG "cat\n").1 = 1 ∧
      pid2jid (addjob (deletejob (addjobs (initShell false)
        (launches15 ++ [(200, BG, "ls &\n")])).1 200).2 300 FG "cat\n").2 300
        = (launches15.length : Int) + 1 :=
  addjobs_ids_roundtrip false launches15 (200, BG, "ls &\n") (300, FG, "cat\n")
    (by decide) (by decide) (by decide) (by decide) (by decide)

/-! ## The foreground invariant -/

theorem tableInv_set {l : List job_t} (i : Nat) {x : job_t} (h : TableInv l)
    (hx : x.pid = 0 → x = emptyJob) (hx0 : 0 ≤ x.pid) : TableInv (l.set i x) := by
  refine ⟨fun j hj => ?_, fun j hj => ?_⟩
  · rcases List.mem_or_eq_of_mem_set hj with hj | rfl
    · exact h.clear j hj
    · exact hx
  · rcases List.mem_or_eq_of_mem_set hj with hj | rfl
    · exact h.nonneg j hj
    · exact hx0

theorem tableInv_tail {a : job_t} {l : List job_t} (h : TableInv (a :: l)) : TableInv l :=
  ⟨fun j hj => h.clear j (by simp [hj]), fun j hj => h.nonneg j (by simp [hj])⟩

theorem countP_set_le {p : job_t → Bool} (l : List job_t) (i : Nat) {x : job_t}
    (hx : p x = false) : List.countP p (l.set i x) ≤ List.countP p l := by
  induction l generalizing i with
  | nil => simp
  | cons a l ih =>
    cases i with
    | zero =>
      simp only [List.set_cons_zero, List.countP_cons, hx]
      simp
    | succ i =>
      have := ih i
      simp only [List.set_cons_succ, List.countP_cons]
      omega

theorem countP_set_le_succ (p : job_t → Bool) (l : List job_t) (i : Nat) (x : job_t) :
    List.countP p (l.set i x) ≤ List.countP p l + 1 := by
  induction l generalizing i with
  | nil => simp
  | cons a l ih =>
    cases i with
    | zero =>
      simp only [List.set_cons_zero, List.countP_cons]
      split_ifs <;> omega
    | succ i =>
      have := ih i
      simp only [List.set_cons_succ, List.countP_cons]
      omega

theorem setState_eq {l : List job_t} {i : Nat} (st : Int) (hi : i < l.length) :
    setState l i st = l.set i { l.getD i default with state := st } := by
  simp [setState, List.getD_eq_getElem?_getD, List.getElem?_eq_getElem hi]

theorem fgpid_zero_count {l : List job_t} (h : TableInv l) (h0 : fgpid l = 0) :
    countFG l = 0 := by
  induction l with
  | nil => rfl
  | cons a l ih =>
    by_cases ha : a.state = FG
    · simp only [fgpid, ha, if_true] at h0
      have := h.clear a (by simp) h0
      rw [this] at ha
      exact absurd ha (by decide)
    · simp only [fgpid, ha, if_false] at h0
      have := ih (tableInv_tail h) h0
      simp only [countFG] at this ⊢
      simp [List.countP_cons, this, ha]

theorem deletejob_jobs (s : Shell) (pid : Int) :
    ((deletejob s pid).2.jobs = s.jobs ∨
        ∃ i, (deletejob s pid).2.jobs = s.jobs.set i emptyJob) ∧
      (deletejob s pid).2.verbose = s.verbose ∧ (deletejob s pid).2.out = s.out := by
  by_cases hex : 1 ≤ pid ∧ ∃ j ∈ s.jobs, j.pid = pid
  · obtain ⟨hp, j, hj, hjp⟩ := hex
    obtain ⟨i, hi⟩ := firstSlot_isSome (p := fun j => j.pid == pid) ⟨j, hj, by simp [hjp]⟩
    rw [deletejob_found hp hi]
    exact ⟨Or.inr ⟨i, rfl⟩, rfl, rfl⟩
  · have habs : pid < 1 ∨ ∀ j ∈ s.jobs, j.pid ≠ pid := by
      by_cases hp : pid < 1
      · exact Or.inl hp
      · right
        intro j hj hjp
        exact hex ⟨by omega, j, hj, hjp⟩
    rw [deletejob_absent habs]
    exact ⟨Or.inl rfl, rfl, rfl⟩

theorem tableInv_deletejob {s : Shell} (pid : Int) (h : TableInv s.jobs) :
    TableInv (deletejob s pid).2.jobs ∧
      countFG (deletejob s pid).2.jobs ≤ countFG s.jobs := by
  rcases (deletejob_jobs s pid).1 with e | ⟨i, e⟩
  · rw [e]
    exact ⟨h, le_refl _⟩
  · rw [e]
    exact ⟨tableInv_set i h (fun _ => rfl) (by decide), countP_set_le _ _ (by decide)⟩

theorem getjobjid_some {l : List job_t} {jid : Int} {i : Nat} (h : getjobjid l jid = some i) :
    i < l.length ∧ (l.getD i default).jid = jid ∧ 1 ≤ jid := by
  unfold getjobjid at h
  split_ifs at h with hj
  obtain ⟨h1, h2, _⟩ := firstSlot_some_spec h
  exact ⟨h1, by simpa using h2, by omega⟩

theorem getjobpid_some {l : List job_t} {pid : Int} {i : Nat} (h : getjobpid l pid = some i) :
    i < l.length ∧ (l.getD i default).pid = pid ∧ 1 ≤ pid := by
  unfold getjobpid at h
  split_ifs at h with hj
  obtain ⟨h1, h2, _⟩ := firstSlot_some_spec h
  exact ⟨h1, by simpa using h2, by omega⟩

/-- Writing a state into a slot that is occupied keeps the table well-formed. -/
theorem tableInv_setState {l : List job_t} {i : Nat} (st : Int) (h : TableInv l)
    (hi : i < l.length)
    (hocc : 1 ≤ (l.getD i default).pid ∨ 1 ≤ (l.getD i default).jid) :
    TableInv (setState l i st) := by
  rw [setState_eq st hi]
  have hmem := getD_mem hi
  have hne : (l.getD i default).pid ≠ 0 := by
    intro h0
    have := h.clear _ hmem h0
    rw [this] at hocc
    simp [emptyJob] at hocc
  exact tableInv_set i h (fun h0 => absurd h0 hne) (h.nonneg (l.getD i default) hmem)

theorem countFG_setState_le {l : List job_t} {i : Nat} {st : Int} (hst : st ≠ FG)
    (hi : i < l.length) : countFG (setState l i st) ≤ countFG l := by
  rw [setState_eq st hi]
  exact countP_set_le _ _ (by simpa using hst)

theorem countFG_setState_le_succ (l : List job_t) (i : Nat) (st : Int) :
    countFG (setState l i st) ≤ countFG l + 1 := by
  unfold setState
  cases l[i]? with
  | none => exact Nat.le_succ _
  | some j => exact countP_set_le_succ _ _ _ _

/-- One pass of the body of the handler's loop keeps the table well-formed and does not
raise the number of foreground slots. -/
theorem sigchld_body_inv {jid : Int} {s s1 : Shell} {pid : Int} {status : WStatus}
    (h : sigchld_body jid s pid status = some s1) (hinv : TableInv s.jobs) :
    TableInv s1.jobs ∧ countFG s1.jobs ≤ countFG s.jobs := by
  cases status with
  | exited code =>
    simp only [sigchld_body, WIFEXITED, WIFSTOPPED, WIFSIGNALED, if_true, Bool.false_eq_true,
      if_false, Option.map_some', Option.some.injEq] at h
    subst h
    cases hv : s.verbose
    · simpa [hv] using tableInv_deletejob pid hinv
    · simpa [hv] using tableInv_deletejob
        (s := printf s ("\nchild: " ++ fmtd pid ++ " terminated "
          ++ fmtd (WEXITSTATUS (WStatus.exited code)) ++ "\n")) pid hinv
  | signaled sig =>
    simp only [sigchld_body, WIFEXITED, WIFSTOPPED, WIFSIGNALED, if_true, Bool.false_eq_true,
      if_false, Option.map_some', Option.some.injEq] at h
    subst h
    exact tableInv_deletejob
      (s := printf s ("Job [" ++ fmtd jid ++ "] (" ++ fmtd pid ++ ") terminated by signal 2\n"))
      pid hinv
  | stopped sig =>
    simp only [sigchld_body, WIFEXITED, WIFSTOPPED, WIFSIGNALED, if_true, Bool.false_eq_true,
      if_false] at h
    cases hg : getjobjid s.jobs jid with
    | none => simp [printf, hg] at h
    | some i =>
      simp only [printf, hg, Option.map_some', Option.some.injEq] at h
      subst h
      obtain ⟨hi, hj, hpos⟩ := getjobjid_some hg
      exact ⟨tableInv_setState ST hinv hi (Or.inr (by omega)),
        countFG_setState_le (by decide) hi⟩

theorem sigchld_loop_inv {jid : Int} {s s1 : Shell} {polls : List (Int × WStatus)}
    (h : sigchld_loop jid s polls = some s1) (hinv : TableInv s.jobs) :
    TableInv s1.jobs ∧ countFG s1.jobs ≤ countFG s.jobs := by
  induction polls generalizing s with
  | nil =>
    simp only [sigchld_loop, Option.some.injEq] at h
    subst h
    exact ⟨hinv, le_refl _⟩
  | cons e rest ih =>
    obtain ⟨pid, status⟩ := e
    simp only [sigchld_loop] at h
    split_ifs at h with hp
    · cases hb : sigchld_body jid s pid status with
      | none => simp [hb] at h
      | some s2 =>
        simp only [hb] at h
        obtain ⟨b1, b2⟩ := sigchld_body_inv hb hinv
        obtain ⟨c1, c2⟩ := ih h b1
        exact ⟨c1, le_trans c2 b2⟩
    · simp only [Option.some.injEq] at h
      subst h
      exact ⟨hinv, le_refl _⟩

/-- What the lookup half of `do_bgfg` leaves behind: the table, counter and verbosity are
untouched, and a job it returns sits in a slot of the table that is occupied. -/
theorem do_bgfg_lookup_spec (s : Shell) (argv0 temp : String) :
    (do_bgfg_lookup s argv0 temp).1.jobs = s.jobs ∧
      (do_bgfg_lookup s argv0 temp).1.nextjid = s.nextjid ∧
      (do_bgfg_lookup s argv0 temp).1.verbose = s.verbose ∧
      ∀ i, (do_bgfg_lookup s argv0 temp).2 = some i →
        i < s.jobs.length ∧
          (1 ≤ (s.jobs.getD i default).pid ∨ 1 ≤ (s.jobs.getD i default).jid) := by
  unfold do_bgfg_lookup
  generalize atoi (temp.data.drop 1) = jid
  generalize atoi temp.data = pid
  by_cases hc : charAt temp 0 == '%'
  · simp only [hc, if_true]
    cases hg : getjobjid s.jobs jid with
    | none =>
      cases hv : s.verbose <;>
        simp only [hv, printf, Bool.false_eq_true, if_false, if_true, hg] <;> simp
    | some i =>
      obtain ⟨h1, h2, h3⟩ := getjobjid_some hg
      have hres : i < s.jobs.length ∧
          (1 ≤ (s.jobs.getD i default).pid ∨ 1 ≤ (s.jobs.getD i default).jid) :=
        ⟨h1, Or.inr (by omega)⟩
      cases hv : s.verbose <;>
        simp only [hv, printf, Bool.false_eq_true, if_false, if_true, hg] <;>
        exact ⟨trivial, trivial, trivial, fun k hk => by cases hk; exact hres⟩
  · simp only [hc, Bool.false_eq_true, if_false]
    by_cases ha : (isalpha (charAt temp 0) || isalpha (charAt temp 1)) = true
    · simp [ha, printf]
    · simp only [ha, Bool.false_eq_true, if_false]
      cases hg : getjobpid s.jobs pid with
      | none =>
        cases hv : s.verbose <;>
          simp only [hv, printf, Bool.false_eq_true, if_false, if_true, hg] <;> simp
      | some i =>
        obtain ⟨h1, h2, h3⟩ := getjobpid_some hg
        have hres : i < s.jobs.length ∧
            (1 ≤ (s.jobs.getD i default).pid ∨ 1 ≤ (s.jobs.getD i default).jid) :=
          ⟨h1, Or.inl (by omega)⟩
        cases hv : s.verbose <;>
          simp only [hv, printf, Bool.false_eq_true, if_false, if_true, hg] <;>
          exact ⟨trivial, trivial, trivial, fun k hk => by cases hk; exact hres⟩

theorem do_bgfg_move_jobs (s : Shell) (ground : Bool) (i : Nat) (killOk : Bool) :
    (do_bgfg_move s ground i killOk).jobs = setState s.jobs i (if ground then FG else BG) ∧
      (do_bgfg_move s ground i killOk).nextjid = s.nextjid ∧
      (do_bgfg_move s ground i killOk).verbose = s.verbose := by
  unfold do_bgfg_move
  cases ground <;> cases killOk <;> cases hv : s.verbose <;> simp [kill_wrapper, printf, hv]

theorem do_bgfg_inv {s : Shell} (argv : List String) (killOk : Bool)
    (hinv : TableInv s.jobs) :
    TableInv (do_bgfg s argv killOk).jobs ∧
      countFG (do_bgfg s argv killOk).jobs ≤ countFG s.jobs + 1 := by
  unfold do_bgfg
  match argv with
  | [] => exact ⟨hinv, Nat.le_succ _⟩
  | [argv0] => exact ⟨hinv, Nat.le_succ _⟩
  | argv0 :: temp :: _ =>
    simp only
    obtain ⟨h1, _, _, h4⟩ := do_bgfg_lookup_spec s argv0 temp
    rcases hl : do_bgfg_lookup s argv0 temp with ⟨s1, r⟩
    rw [hl] at h1 h4
    simp only at h1 h4
    cases r with
    | none =>
      simp only [h1]
      exact ⟨hinv, Nat.le_succ _⟩
    | some i =>
      simp only [(do_bgfg_move_jobs s1 (argv0 == "fg") i killOk).1, h1]
      obtain ⟨hi, hocc⟩ := h4 i rfl
      exact ⟨tableInv_setState _ hinv hi hocc, countFG_setState_le_succ _ _ _⟩

theorem eval_parent_jobs (s : Shell) (pid : Int) (bg : Bool) (cmdline : String) :
    (eval_parent s pid bg cmdline).jobs =
      (addjob s pid (if !bg then FG else BG) cmdline).2.jobs := by
  unfold eval_parent
  cases bg <;> simp [printf, sigproc_wrapper]

theorem eval_parent_inv {s : Shell} (pid : Int) (bg : Bool) (cmdline : String)
    (hinv : TableInv s.jobs) (hp : 1 ≤ pid) :
    TableInv (eval_parent s pid bg cmdline).jobs ∧
      countFG (eval_parent s pid bg cmdline).jobs ≤ countFG s.jobs + 1 := by
  rw [eval_parent_jobs]
  cases hf : firstSlot (fun j => j.pid == 0) s.jobs with
  | none =>
    rw [(addjob_refused s pid _ cmdline (Or.inr hf)).2.1]
    exact ⟨hinv, Nat.le_succ _⟩
  | some i =>
    rw [(addjob_found _ cmdline hp hf).2.1]
    exact ⟨tableInv_set i hinv (fun h0 => by simp only at h0; omega) (by simp only; omega),
      countP_set_le_succ _ _ _ _⟩

theorem shellReach_inv {s : Shell} (h : ShellReach s) :
    TableInv s.jobs ∧ countFG s.jobs ≤ 1 := by
  induction h with
  | init v =>
    cases v
    · exact ⟨⟨by decide, by decide⟩, by decide⟩
    · exact ⟨⟨by decide, by decide⟩, by decide⟩
  | launch pid bg cmdline _ h0 hp ih =>
    obtain ⟨e1, e2⟩ := eval_parent_inv pid bg cmdline ih.1 hp
    have := fgpid_zero_count ih.1 h0
    exact ⟨e1, by omega⟩
  | bgfg argv killOk _ h0 _ ih =>
    obtain ⟨e1, e2⟩ := do_bgfg_inv argv killOk ih.1
    have := fgpid_zero_count ih.1 h0
    exact ⟨e1, by omega⟩
  | sigchld polls _ hs ih =>
    obtain ⟨e1, e2⟩ := sigchld_loop_inv hs ih.1
    exact ⟨e1, le_trans e2 ih.2⟩

/-- In the runs in which no handler runs inside a `do_bgfg` call (`ShellReach`), at most
one slot has state `FG`. The runs with a handler inside `do_bgfg` are those of `ShellRun`,
and there the property fails. -/
theorem at_most_one_fg (s : Shell) (h : ShellReach s) : countFG s.jobs ≤ 1 :=
  (shellReach_inv h).2

theorem at_most_one_fg_witness :
    countFG (do_bgfg (eval_parent (initShell false) 5 true "sleep 9 &\n")
      ["fg", "%1"] true).jobs ≤ 1 :=
  at_most_one_fg _
    (ShellReach.bgfg ["fg", "%1"] true
      (ShellReach.launch 5 true "sleep 9 &\n" (ShellReach.init false)
        (by decide) (by decide))
      (by decide) (by decide))

/-! ## The SIGCHLD handler on stop events -/

/-- C7 fails on the code. When the background child 20 is stopped (here by SIGSTOP, 19)
while job 10 is foreground, the handler marks the foreground job 10 as `ST` and leaves
job 20 in state `BG`; with no foreground job it writes through the `NULL` that
`getjobjid(jobs, 0)` returns. -/
theorem sigchld_stop_marks_wrong_job :
    (sigchld_handler fgAndBg [(20, WStatus.stopped 19)]).map (fun s => s.jobs) =
        some ([{ pid := 10, jid := 1, state := ST, cmdline := "cat\n" },
               { pid := 20, jid := 2, state := BG, cmdline := "sleep 9 &\n" }]
          ++ List.replicate 14 emptyJob) ∧
      sigchld_handler bgOnly [(20, WStatus.stopped 19)] = none := by
  decide

/-! ## The SIGCHLD handler on terminations -/

theorem clearPid_absent {pid : Int} {l : List job_t} (h : ∀ j ∈ l, j.pid ≠ pid) :
    clearPid pid l = l := by
  induction l with
  | nil => rfl
  | cons a l ih =>
    have ha : a.pid ≠ pid := h a (by simp)
    have := ih (fun j hj => h j (by simp [hj]))
    simp only [clearPid, List.map_cons, ha, if_false, List.cons.injEq, true_and] at this ⊢
    exact this

theorem set_eq_clearPid {pid : Int} {l : List job_t} {i : Nat} (hp : pid ≠ 0)
    (hd : distinctPids l) (hi : firstSlot (fun j => j.pid == pid) l = some i) :
    l.set i emptyJob = clearPid pid l := by
  induction l generalizing i with
  | nil => simp [firstSlot] at hi
  | cons a l ih =>
    unfold distinctPids at hd
    rw [List.pairwise_cons] at hd
    by_cases ha : a.pid = pid
    · simp only [firstSlot, ha, beq_self_eq_true, if_true, Option.some.injEq] at hi
      subst hi
      have hl : ∀ j ∈ l, j.pid ≠ pid := by
        intro j hj h
        exact hd.1 j hj (by rw [ha]; exact hp) (by rw [ha, h])
      have := clearPid_absent hl
      simp only [clearPid] at this
      simp [clearPid, ha, this]
    · have hb : (a.pid == pid) = false := by simpa using ha
      simp only [firstSlot, hb, Bool.false_eq_true, if_false, Option.map_eq_some'] at hi
      obtain ⟨i0, h0, rfl⟩ := hi
      have := ih hd.2 h0
      simp only [clearPid] at this
      simp [clearPid, ha, this]

theorem deletejob_clearPid (s : Shell) {pid : Int} (hp : 1 ≤ pid) (hd : distinctPids s.jobs) :
    (deletejob s pid).2.jobs = clearPid pid s.jobs := by
  cases hf : firstSlot (fun j => j.pid == pid) s.jobs with
  | some i =>
    rw [deletejob_found hp hf]
    exact set_eq_clearPid (by omega) hd hf
  | none =>
    rw [firstSlot_eq_none] at hf
    have habs : ∀ j ∈ s.jobs, j.pid ≠ pid := fun j hj => by simpa using hf j hj
    rw [deletejob_absent (Or.inr habs), clearPid_absent habs]

theorem distinctPids_clearPid {pid : Int} {l : List job_t} (hd : distinctPids l) :
    distinctPids (clearPid pid l) := by
  unfold distinctPids clearPid at *
  rw [List.pairwise_map]
  refine hd.imp ?_
  intro a b hab
  by_cases ha : a.pid = pid
  · simp [ha, emptyJob]
  · by_cases hb : b.pid = pid
    · simp only [ha, hb, if_false, if_true]
      intro h0 h
      exact h0 (by rw [h]; rfl)
    · simpa [ha, hb] using hab

/-- The body of the handler's loop on a child that terminated: it never fails, and it
clears the slots that hold the child's pid. -/
theorem sigchld_body_terminated (jid : Int) (s : Shell) {pid : Int} {status : WStatus}
    (hp : 1 ≤ pid) (hd : distinctPids s.jobs)
    (ht : WIFEXITED status = true ∨ WIFSIGNALED status = true) :
    ∃ s1, sigchld_body jid s pid status = some s1 ∧ s1.jobs = clearPid pid s.jobs := by
  cases status with
  | exited code =>
    cases hv : s.verbose
    · exact ⟨_, by simp [sigchld_body, WIFEXITED, WIFSTOPPED, WIFSIGNALED, hv],
        deletejob_clearPid s hp hd⟩
    · exact ⟨(deletejob (printf s ("\nchild: " ++ fmtd pid ++ " terminated "
          ++ fmtd (WEXITSTATUS (WStatus.exited code)) ++ "\n")) pid).2,
        by simp [sigchld_body, WIFEXITED, WIFSTOPPED, WIFSIGNALED, hv],
        deletejob_clearPid (printf s _) hp hd⟩
  | signaled sig =>
    exact ⟨(deletejob (printf s ("Job [" ++ fmtd jid ++ "] (" ++ fmtd pid
          ++ ") terminated by signal 2\n")) pid).2,
      by simp [sigchld_body, WIFEXITED, WIFSTOPPED, WIFSIGNALED],
      deletejob_clearPid (printf s _) hp hd⟩
  | stopped sig => simp [WIFEXITED, WIFSIGNALED] at ht

theorem clearPid_clearPids (pid : Int) (pids : List Int) (hpos : ∀ q ∈ pids, 1 ≤ q)
    (l : List job_t) :
    (clearPid pid l).map (fun j => if j.pid ∈ pids then emptyJob else j) =
      l.map (fun j => if j.pid ∈ pid :: pids then emptyJob else j) := by
  have h0 : (0 : Int) ∉ pids := fun h => by have := hpos 0 h; omega
  simp only [clearPid, List.map_map]
  apply List.map_congr_left
  intro j _
  by_cases hj : j.pid = pid
  · simp [hj, emptyJob, h0]
  · by_cases hm : j.pid ∈ pids
    · simp [hj, hm]
    · simp [hj, hm]

theorem sigchld_loop_terminated (jid : Int) (s : Shell) (polls : List (Int × WStatus))
    (hd : distinctPids s.jobs)
    (ht : ∀ e ∈ polls, 1 ≤ e.1 ∧ (WIFEXITED e.2 = true ∨ WIFSIGNALED e.2 = true)) :
    ∃ s1, sigchld_loop jid s polls = some s1 ∧
      s1.jobs = s.jobs.map (fun j => if j.pid ∈ polls.map (·.1) then emptyJob else j) := by
  induction polls generalizing s with
  | nil => exact ⟨s, rfl, by simp⟩
  | cons e rest ih =>
    obtain ⟨pid, status⟩ := e
    obtain ⟨hp, hst⟩ := ht (pid, status) (by simp)
    obtain ⟨s1, hb, hj⟩ := sigchld_body_terminated jid s hp hd hst
    obtain ⟨s2, hl, hj2⟩ := ih s1 (by rw [hj]; exact distinctPids_clearPid hd)
      (fun e he => ht e (by simp [he]))
    have hpos : ¬ pid ≤ 0 := by omega
    refine ⟨s2, by simp [sigchld_loop, hpos, hb, hl], ?_⟩
    rw [hj2, hj]
    exact clearPid_clearPids pid (rest.map (·.1))
      (fun q hq => by
        obtain ⟨e, he, rfl⟩ := List.mem_map.1 hq
        exact (ht e (by simp [he])).1) s.jobs

/-- C8. When every pending event of a `sigchld_handler` invocation is a termination (exit
or death by a signal) of a child, and the table has distinct pids, the handler returns
with the table in which exactly the slots holding one of those pids are cleared: no slot
holds any of the pids afterwards and every other slot is as before. -/
theorem sigchld_terminations (s : Shell) (polls : List (Int × WStatus))
    (hd : distinctPids s.jobs)
    (ht : ∀ e ∈ polls, 1 ≤ e.1 ∧ (WIFEXITED e.2 = true ∨ WIFSIGNALED e.2 = true)) :
    ∃ s1, sigchld_handler s polls = some s1 ∧
      s1.jobs = s.jobs.map (fun j => if j.pid ∈ polls.map (·.1) then emptyJob else j) ∧
      ∀ j ∈ s1.jobs, j.pid ∉ polls.map (·.1) := by
  obtain ⟨s1, h1, h2⟩ := sigchld_loop_terminated (pid2jid s (fgpid s.jobs)) s polls hd ht
  refine ⟨s1, h1, h2, ?_⟩
  have h0 : (0 : Int) ∉ polls.map (·.1) := by
    intro h
    obtain ⟨e, he, h⟩ := List.mem_map.1 h
    have := (ht e he).1
    omega
  rw [h2]
  intro j hj
  obtain ⟨j0, _, rfl⟩ := List.mem_map.1 hj
  by_cases hm : j0.pid ∈ polls.map (·.1)
  · simpa [hm, emptyJob] using h0
  · simp [hm]

theorem sigchld_terminations_witness :
    ∃ s1, sigchld_handler fgAndBg [(20, WStatus.signaled 9), (10, WStatus.exited 0)]
        = some s1 ∧
      s1.jobs = fgAndBg.jobs.map (fun j =>
        if j.pid ∈ [(20, WStatus.signaled 9), (10, WStatus.exited 0)].map (·.1)
        then emptyJob else j) ∧
      ∀ j ∈ s1.jobs, j.pid ∉ [(20, WStatus.signaled 9), (10, WStatus.exited 0)].map (·.1) :=
  sigchld_terminations fgAndBg [(20, WStatus.signaled 9), (10, WStatus.exited 0)]
    (by decide) (by decide)

/-! ## The notices of the SIGCHLD handler -/

/-- C9 fails on the code. The background job with pid 20 and job id 1 is killed by
SIGKILL (9) while no job is foreground: the notice names job id 0 and signal 2. The
foreground job with pid 10 and job id 1 is stopped by SIGSTOP (19): the notice names
signal 20. -/
theorem sigchld_notice_wrong_jid_and_signal :
    (sigchld_handler bgOnly [(20, WStatus.signaled 9)]).map (fun s => s.out) =
        some [Effect.print "Job [0] (20) terminated by signal 2\n"] ∧
      (sigchld_handler fgAndBg [(10, WStatus.stopped 19)]).map (fun s => s.out) =
        some [Effect.print "Job [1] (10) stopped by signal 20\n"] := by
  decide

/-! ## `atoi` on decimal numerals -/

theorem isDecDigit_facts {c : Char} (h : IsDecDigit c) :
    c.isDigit = true ∧ isalpha c = false ∧ isspace c = false ∧ c ≠ '%' ∧ c ≠ '-' ∧ c ≠ '+' := by
  obtain ⟨k, hk, rfl⟩ := h
  interval_cases k <;> decide

theorem digitChar_value {k : Nat} (hk : k < 10) :
    ((Nat.digitChar k).toNat : Int) - 48 = (k : Int) := by
  interval_cases k <;> decide

theorem atoiDigits_toDigitsCore (fuel : Nat) :
    ∀ (n : Nat) (ds : List Char), n < fuel →
      ∃ l, Nat.toDigitsCore 10 fuel n ds = l ++ ds ∧ l ≠ [] ∧ (∀ c ∈ l, IsDecDigit c) ∧
        ∀ (acc : Int) (rest : List Char),
          atoiDigits acc (l ++ rest) = atoiDigits (acc * 10 ^ l.length + (n : Int)) rest := by
  induction fuel with
  | zero => intro n ds h; omega
  | succ fuel ih =>
    intro n ds hn
    have hd : IsDecDigit (Nat.digitChar (n % 10)) := ⟨n % 10, Nat.mod_lt _ (by decide), rfl⟩
    have hdv := digitChar_value (k := n % 10) (Nat.mod_lt _ (by decide))
    by_cases h0 : n / 10 = 0
    · refine ⟨[Nat.digitChar (n % 10)], by simp [Nat.toDigitsCore, h0], by simp, ?_, ?_⟩
      · intro c hc
        simp only [List.mem_singleton] at hc
        exact hc ▸ hd
      · intro acc rest
        simp only [List.singleton_append, atoiDigits, (isDecDigit_facts hd).1, if_true, hdv,
          List.length_singleton, pow_one]
        congr 1
        omega
    · obtain ⟨l, e1, _, e3, e4⟩ := ih (n / 10) (Nat.digitChar (n % 10) :: ds) (by omega)
      refine ⟨l ++ [Nat.digitChar (n % 10)], by simp [Nat.toDigitsCore, h0, e1], by simp, ?_, ?_⟩
      · intro c hc
        rcases List.mem_append.1 hc with hc | hc
        · exact e3 c hc
        · simp only [List.mem_singleton] at hc
          exact hc ▸ hd
      · intro acc rest
        rw [List.append_assoc, e4]
        simp only [List.singleton_append, atoiDigits, (isDecDigit_facts hd).1, if_true, hdv,
          List.length_append, List.length_singleton, pow_succ]
        congr 1
        have : (n : Int) = ((n / 10 : Nat) : Int) * 10 + ((n % 10 : Nat) : Int) := by omega
        rw [this]
        push_cast
        ring

/-- The characters that `printf("%d", n)` writes for `n >= 0` are decimal digits, at least
one, and they spell `n`. -/
theorem toString_nat_digits (n : Nat) :
    (toString n).data ≠ [] ∧ (∀ c ∈ (toString n).data, IsDecDigit c) ∧
      strtolValue (toString n).data = (n : Int) := by
  obtain ⟨l, e1, e2, e3, e4⟩ := atoiDigits_toDigitsCore (n + 1) n [] (by omega)
  have hl : (toString n).data = l := by
    show (Nat.toDigits 10 n).asString.data = l
    simp [Nat.toDigits, List.asString, e1]
  rw [hl]
  refine ⟨e2, e3, ?_⟩
  cases l with
  | nil => exact absurd rfl e2
  | cons c l1 =>
    obtain ⟨_, _, h3, _, h5, h6⟩ := isDecDigit_facts (e3 c (by simp))
    have := e4 0 []
    rw [List.append_nil] at this
    simp only [zero_mul, zero_add, atoiDigits] at this
    unfold strtolValue
    simp only [List.dropWhile, h3]
    split
    · rename_i r heq
      simp only [List.cons.injEq] at heq
      exact absurd heq.1 h5
    · rename_i r heq
      simp only [List.cons.injEq] at heq
      exact absurd heq.1 h6
    · simpa [atoiDigits] using this

/-- C `atoi` reads the characters that `printf("%d", n)` writes back as `n`, for `n` in
the range of an `int`. -/
theorem atoi_numeral (n : Nat) (hn : n < 2 ^ 31) : atoi (toString n).data = (n : Int) := by
  have h := (toString_nat_digits n).2.2
  have hn2 : (n : Int) < 2147483648 := by
    have : n < 2147483648 := by simpa using hn
    exact_mod_cast this
  have h0 : (0 : Int) ≤ (n : Int) := Int.ofNat_nonneg n
  unfold atoi strtol toInt32
  rw [h]
  split_ifs <;> omega

/-! ## The failure modes of `do_bgfg` -/

theorem do_bgfg_of_lookup_none {s s1 : Shell} {argv0 temp : String} (rest : List String)
    (killOk : Bool) (h : do_bgfg_lookup s argv0 temp = (s1, none)) :
    do_bgfg s (argv0 :: temp :: rest) killOk = s1 := by
  simp [do_bgfg, h]

theorem do_bgfg_lookup_letter (s : Shell) (argv0 : String) {temp : String}
    (hl : isalpha (charAt temp 0) = true) :
    do_bgfg_lookup s argv0 temp =
      (printf s (argv0 ++ ": argument must be a PID or %jobid\n"), none) := by
  have hne : (charAt temp 0 == '%') = false := by
    rw [beq_eq_false_iff_ne]
    intro h
    rw [h] at hl
    exact absurd hl (by decide)
  simp [do_bgfg_lookup, hne, hl]

theorem do_bgfg_lookup_no_job (s : Shell) (argv0 : String) {temp : String}
    (hc : charAt temp 0 = '%')
    (hg : getjobjid s.jobs (atoi (temp.data.drop 1)) = none) :
    do_bgfg_lookup s argv0 temp =
      (printf (verboseEcho s (atoi (temp.data.drop 1)))
        ("%" ++ fmtd (atoi (temp.data.drop 1)) ++ ": No such job\n"), none) := by
  have hg1 : getjobjid (verboseEcho s (atoi (temp.data.drop 1))).jobs
      (atoi (temp.data.drop 1)) = none := by
    unfold verboseEcho
    cases s.verbose <;> simpa [printf] using hg
  unfold do_bgfg_lookup
  simp only [hc, beq_self_eq_true, if_true]
  show (match getjobjid (verboseEcho s (atoi (temp.data.drop 1))).jobs
      (atoi (temp.data.drop 1)) with
    | none => _
    | some i => _) = _
  rw [hg1]
  rfl

theorem do_bgfg_lookup_no_process (s : Shell) (argv0 : String) {temp : String}
    (hc : charAt temp 0 ≠ '%') (h0 : isalpha (charAt temp 0) = false)
    (h1 : isalpha (charAt temp 1) = false)
    (hg : getjobpid s.jobs (atoi temp.data) = none) :
    do_bgfg_lookup s argv0 temp =
      (printf (verboseEcho s (atoi temp.data))
        ("(" ++ fmtd (atoi temp.data) ++ "): No such process\n"), none) := by
  have hg1 : getjobpid (verboseEcho s (atoi temp.data)).jobs (atoi temp.data) = none := by
    unfold verboseEcho
    cases s.verbose <;> simpa [printf] using hg
  have hne : (charAt temp 0 == '%') = false := by simpa using hc
  unfold do_bgfg_lookup
  simp only [hne, h0, h1, Bool.or_self, Bool.false_eq_true, if_false]
  show (match getjobpid (verboseEcho s (atoi temp.data)).jobs (atoi temp.data) with
    | none => _
    | some i => _) = _
  rw [hg1]
  rfl

theorem getjobjid_none_of_absent {l : List job_t} {jid : Int}
    (h : ∀ j ∈ l, 1 ≤ jid → j.jid ≠ jid) : getjobjid l jid = none := by
  unfold getjobjid
  by_cases hj : jid < 1
  · simp [hj]
  · simp only [hj, if_false]
    rw [firstSlot_eq_none]
    intro j hm
    simpa using h j hm (by omega)

theorem getjobpid_none_of_absent {l : List job_t} {pid : Int}
    (h : ∀ j ∈ l, 1 ≤ pid → j.pid ≠ pid) : getjobpid l pid = none := by
  unfold getjobpid
  by_cases hj : pid < 1
  · simp [hj]
  · simp only [hj, if_false]
    rw [firstSlot_eq_none]
    intro j hm
    simpa using h j hm (by omega)

theorem fmtd_nat (n : Nat) : fmtd (n : Int) = toString n := rfl

theorem charAt_numeral (n : Nat) :
    charAt (toString n) 0 ≠ '%' ∧ isalpha (charAt (toString n) 0) = false ∧
      isalpha (charAt (toString n) 1) = false := by
  obtain ⟨h1, h2, _⟩ := toString_nat_digits n
  unfold charAt
  cases hd : (toString n).data with
  | nil => exact absurd hd h1
  | cons c l =>
    rw [hd] at h2
    obtain ⟨_, a2, _, a4, _, _⟩ := isDecDigit_facts (h2 c (by simp))
    refine ⟨by simpa using a4, by simpa using a2, ?_⟩
    cases l with
    | nil =>
      show isalpha (Char.ofNat 0) = false
      decide
    | cons c1 l1 =>
      obtain ⟨_, b2, _, _, _, _⟩ := isDecDigit_facts (h2 c1 (by simp))
      simpa using b2

theorem do_bgfg_failures_aux (s : Shell) (argv0 : String) (killOk : Bool) (letter : String)
    (n m : Nat) (rest : List String)
    (hl : isalpha (charAt letter 0) = true)
    (hn : n < 2 ^ 31) (hm : m < 2 ^ 31)
    (hjid : ∀ j ∈ s.jobs, 1 ≤ (n : Int) → j.jid ≠ (n : Int))
    (hpid : ∀ j ∈ s.jobs, 1 ≤ (m : Int) → j.pid ≠ (m : Int)) :
    do_bgfg s [argv0] killOk =
        printf s (argv0 ++ " command requires PID or %jobid argument\n") ∧
      do_bgfg s (argv0 :: letter :: rest) killOk =
        printf s (argv0 ++ ": argument must be a PID or %jobid\n") ∧
      do_bgfg s (argv0 :: ("%" ++ toString n) :: rest) killOk =
        printf (verboseEcho s n) ("%" ++ toString n ++ ": No such job\n") ∧
      do_bgfg s (argv0 :: toString m :: rest) killOk =
        printf (verboseEcho s m) ("(" ++ toString m ++ "): No such process\n") := by
  refine ⟨rfl, do_bgfg_of_lookup_none rest killOk (do_bgfg_lookup_letter s argv0 hl), ?_, ?_⟩
  · have hdata : ("%" ++ toString n).data = '%' :: (toString n).data := by
      simp [String.data_append]
    have hc : charAt ("%" ++ toString n) 0 = '%' := by simp [charAt, hdata]
    have ha : atoi (("%" ++ toString n).data.drop 1) = (n : Int) := by
      rw [hdata]
      exact atoi_numeral n hn
    have := do_bgfg_lookup_no_job s argv0 hc
      (by rw [ha]; exact getjobjid_none_of_absent hjid)
    rw [ha, fmtd_nat] at this
    exact do_bgfg_of_lookup_none rest killOk this
  · obtain ⟨c0, c1, c2⟩ := charAt_numeral m
    have ha : atoi (toString m).data = (m : Int) := atoi_numeral m hm
    have := do_bgfg_lookup_no_process s argv0 c0 c1 c2
      (by rw [ha]; exact getjobpid_none_of_absent hpid)
    rw [ha, fmtd_nat] at this
    exact do_bgfg_of_lookup_none rest killOk this

/-- C10, as stated, fails for numerals outside the range of an `int`. In the table whose
only job has pid 20 and job id 1, no job has job id 4294967297 and none has pid
4294967316, but `atoi` reads these numerals as 1 and as 20: `fg %4294967297` and
`fg 4294967316` print no diagnostic, put that job in the foreground and send it
`SIGCONT`. -/
theorem do_bgfg_numeral_beyond_int :
    (∀ j ∈ bgOnly.jobs, j.jid ≠ 4294967297 ∧ j.pid ≠ 4294967316) ∧
      atoi "4294967297".data = 1 ∧ atoi "4294967316".data = 20 ∧
      do_bgfg bgOnly ["fg", "%4294967297"] true =
        { bgOnly with
          jobs := [{ pid := 20, jid := 1, state := FG, cmdline := "sleep 9 &\n" }]
            ++ List.replicate 15 emptyJob,
          out := [Effect.kill (-20) SIGCONT, Effect.waitfg 20] } ∧
      do_bgfg bgOnly ["fg", "4294967316"] true =
        do_bgfg bgOnly ["fg", "%4294967297"] true ∧
      do_bgfg bgOnly ["fg", "%4294967297"] true ≠
        printf bgOnly "%4294967297: No such job\n" ∧
      do_bgfg bgOnly ["fg", "4294967316"] true ≠
        printf bgOnly "(4294967316): No such process\n" := by
  decide

/-- C10, amended. For `argv[0]` `fg` or `bg`, `do_bgfg` handles each failure by printing
its diagnostic and nothing else happens: the result is the state it was called in with
the message appended to the output (after the echo line of verbose mode), so the job table
is unchanged and no signal is sent. With no `argv[1]` the message is
`<cmd> command requires PID or %jobid argument`; for an `argv[1]` that begins with a
letter it is `<cmd>: argument must be a PID or %jobid`; for `%N` with no job of job id `N`
it is `%N: No such job`; for a number `M` with no job of pid `M` it is
`(M): No such process`. `N` and `M` are numerals in the range of a C `int`, below
`2^31`. -/
theorem do_bgfg_failures (s : Shell) (argv0 : String) (killOk : Bool) (letter : String)
    (n m : Nat) (rest : List String)
    (_h0 : argv0 = "fg" ∨ argv0 = "bg")
    (hl : isalpha (charAt letter 0) = true)
    (hn : n < 2 ^ 31) (hm : m < 2 ^ 31)
    (hjid : ∀ j ∈ s.jobs, 1 ≤ (n : Int) → j.jid ≠ (n : Int))
    (hpid : ∀ j ∈ s.jobs, 1 ≤ (m : Int) → j.pid ≠ (m : Int)) :
    do_bgfg s [argv0] killOk =
        printf s (argv0 ++ " command requires PID or %jobid argument\n") ∧
      do_bgfg s (argv0 :: letter :: rest) killOk =
        printf s (argv0 ++ ": argument must be a PID or %jobid\n") ∧
      do_bgfg s (argv0 :: ("%" ++ toString n) :: rest) killOk =
        printf (verboseEcho s n) ("%" ++ toString n ++ ": No such job\n") ∧
      do_bgfg s (argv0 :: toString m :: rest) killOk =
        printf (verboseEcho s m) ("(" ++ toString m ++ "): No such process\n") :=
  do_bgfg_failures_aux s argv0 killOk letter n m rest hl hn hm hjid hpid

theorem do_bgfg_failures_witness :
    do_bgfg fgAndBg ["fg"] true =
        printf fgAndBg ("fg" ++ " command requires PID or %jobid argument\n") ∧
      do_bgfg fgAndBg ("fg" :: "a1" :: []) true =
        printf fgAndBg ("fg" ++ ": argument must be a PID or %jobid\n") ∧
      do_bgfg fgAndBg ("fg" :: ("%" ++ toString 7) :: []) true =
        printf (verboseEcho fgAndBg (7 : Nat)) ("%" ++ toString 7 ++ ": No such job\n") ∧
      do_bgfg fgAndBg ("fg" :: toString 999 :: []) true =
        printf (verboseEcho fgAndBg (999 : Nat))
          ("(" ++ toString 999 ++ "): No such process\n") :=
  do_bgfg_failures fgAndBg "fg" true "a1" 7 999 [] (by decide) (by decide) (by decide)
    (by decide) (by decide) (by decide)

/-! ## The success path of `do_bgfg` -/

theorem firstSlot_of_spec {p : job_t → Bool} {l : List job_t} {i : Nat} (hi : i < l.length)
    (hp : p (l.getD i default) = true) (hlow : ∀ k, k < i → p (l.getD k default) = false) :
    firstSlot p l = some i := by
  induction l generalizing i with
  | nil => simp at hi
  | cons a l ih =>
    cases i with
    | zero =>
      have ha : p a = true := by simpa using hp
      simp [firstSlot, ha]
    | succ i =>
      have ha : p a = false := by simpa using hlow 0 (by omega)
      have := ih (i := i) (by simpa using hi) (by simpa using hp)
        (fun k hk => by simpa using hlow (k + 1) (by omega))
      simp [firstSlot, ha, this]

theorem verboseEcho_fields (s : Shell) (n : Int) :
    (verboseEcho s n).jobs = s.jobs ∧ (verboseEcho s n).nextjid = s.nextjid ∧
      (verboseEcho s n).verbose = s.verbose := by
  unfold verboseEcho
  cases hv : s.verbose <;> simp [printf, hv]

theorem do_bgfg_lookup_job (s : Shell) (argv0 : String) {temp : String} {i : Nat}
    (hc : charAt temp 0 = '%')
    (hg : getjobjid s.jobs (atoi (temp.data.drop 1)) = some i) :
    do_bgfg_lookup s argv0 temp = (verboseEcho s (atoi (temp.data.drop 1)), some i) := by
  have hg1 : getjobjid (verboseEcho s (atoi (temp.data.drop 1))).jobs
      (atoi (temp.data.drop 1)) = some i := by
    rw [(verboseEcho_fields s _).1]
    exact hg
  unfold do_bgfg_lookup
  simp only [hc, beq_self_eq_true, if_true]
  show (match getjobjid (verboseEcho s (atoi (temp.data.drop 1))).jobs
      (atoi (temp.data.drop 1)) with
    | none => _
    | some i => _) = _
  rw [hg1]
  rfl

theorem do_bgfg_lookup_process (s : Shell) (argv0 : String) {temp : String} {i : Nat}
    (hc : charAt temp 0 ≠ '%') (h0 : isalpha (charAt temp 0) = false)
    (h1 : isalpha (charAt temp 1) = false)
    (hg : getjobpid s.jobs (atoi temp.data) = some i) :
    do_bgfg_lookup s argv0 temp = (verboseEcho s (atoi temp.data), some i) := by
  have hg1 : getjobpid (verboseEcho s (atoi temp.data)).jobs (atoi temp.data) = some i := by
    rw [(verboseEcho_fields s _).1]
    exact hg
  have hne : (charAt temp 0 == '%') = false := by simpa using hc
  unfold do_bgfg_lookup
  simp only [hne, h0, h1, Bool.or_self, Bool.false_eq_true, if_false]
  show (match getjobpid (verboseEcho s (atoi temp.data)).jobs (atoi temp.data) with
    | none => _
    | some i => _) = _
  rw [hg1]
  rfl

theorem do_bgfg_of_lookup_some {s s1 : Shell} {argv0 temp : String} {i : Nat}
    (rest : List String) (killOk : Bool) (h : do_bgfg_lookup s argv0 temp = (s1, some i)) :
    do_bgfg s (argv0 :: temp :: rest) killOk = do_bgfg_move s1 (argv0 == "fg") i killOk := by
  simp [do_bgfg, h]

theorem do_bgfg_move_done (s : Shell) (fg killOk : Bool) (num : Int) {i : Nat}
    (hi : i < s.jobs.length) :
    bgfgDone s fg killOk num i (do_bgfg_move (verboseEcho s num) fg i killOk) := by
  obtain ⟨e1, e2, e3⟩ := verboseEcho_fields s num
  obtain ⟨m1, m2, m3⟩ := do_bgfg_move_jobs (verboseEcho s num) fg i killOk
  refine ⟨?_, by rw [m2, e2], by rw [m3, e3], ?_⟩
  · rw [m1, e1, setState_eq _ hi]
  · unfold do_bgfg_move
    rw [e1, e3]
    cases fg <;> cases killOk <;> cases hv : s.verbose <;> simp [kill_wrapper, printf]

theorem do_bgfg_success_aux (s : Shell) (argv0 : String) (killOk : Bool) (n m i k : Nat)
    (rest : List String) (hn1 : 1 ≤ n) (hn : n < 2 ^ 31) (hm1 : 1 ≤ m) (hm : m < 2 ^ 31)
    (hi : i < s.jobs.length ∧ (s.jobs.getD i default).jid = (n : Int) ∧
      ∀ a, a < i → (s.jobs.getD a default).jid ≠ (n : Int))
    (hk : k < s.jobs.length ∧ (s.jobs.getD k default).pid = (m : Int) ∧
      ∀ a, a < k → (s.jobs.getD a default).pid ≠ (m : Int)) :
    bgfgDone s (argv0 == "fg") killOk n i
        (do_bgfg s (argv0 :: ("%" ++ toString n) :: rest) killOk) ∧
      bgfgDone s (argv0 == "fg") killOk m k
        (do_bgfg s (argv0 :: toString m :: rest) killOk) := by
  constructor
  · have hdata : ("%" ++ toString n).data = '%' :: (toString n).data := by
      simp [String.data_append]
    have hc : charAt ("%" ++ toString n) 0 = '%' := by simp [charAt, hdata]
    have ha : atoi (("%" ++ toString n).data.drop 1) = (n : Int) := by
      rw [hdata]
      exact atoi_numeral n hn
    have hg : getjobjid s.jobs (n : Int) = some i := by
      have h1 : ¬ (n : Int) < 1 := by omega
      unfold getjobjid
      simp only [h1, if_false]
      exact firstSlot_of_spec hi.1 (by simpa using hi.2.1) (fun a ha => by simpa using hi.2.2 a ha)
    have := do_bgfg_lookup_job s argv0 hc (by rw [ha]; exact hg)
    rw [ha] at this
    rw [do_bgfg_of_lookup_some rest killOk this]
    exact do_bgfg_move_done s _ killOk n hi.1
  · obtain ⟨c0, c1, c2⟩ := charAt_numeral m
    have ha : atoi (toString m).data = (m : Int) := atoi_numeral m hm
    have hg : getjobpid s.jobs (m : Int) = some k := by
      have h1 : ¬ (m : Int) < 1 := by omega
      unfold getjobpid
      simp only [h1, if_false]
      exact firstSlot_of_spec hk.1 (by simpa using hk.2.1) (fun a ha => by simpa using hk.2.2 a ha)
    have := do_bgfg_lookup_process s argv0 c0 c1 c2 (by rw [ha]; exact hg)
    rw [ha] at this
    rw [do_bgfg_of_lookup_some rest killOk this]
    exact do_bgfg_move_done s _ killOk m hk.1

/-- C11. Let slot `i` be the lowest-index slot with job id `N` and slot `k` the
lowest-index slot with pid `M` (`N`, `M` positive numerals in the range of a C `int`). For
`argv[0]` `fg` or `bg`, `do_bgfg` with `argv[1] = %N` acts on the job in slot `i` and with
`argv[1] = M` on the job in slot `k`: it calls `kill(-pid, SIGCONT)` for that job's pid and
sets that slot's state to `FG` for `fg` and to `BG` for `bg`, `bg` printing the notice
`[jid] (pid) cmdline` first; pid, jid and command line of the slot and all other slots
are unchanged (`bgfgDone`). -/
theorem do_bgfg_success (s : Shell) (argv0 : String) (killOk : Bool) (n m i k : Nat)
    (rest : List String) (_h0 : argv0 = "fg" ∨ argv0 = "bg")
    (hn : 1 ≤ n ∧ n < 2 ^ 31) (hm : 1 ≤ m ∧ m < 2 ^ 31)
    (hi : i < s.jobs.length ∧ (s.jobs.getD i default).jid = (n : Int) ∧
      ∀ a, a < i → (s.jobs.getD a default).jid ≠ (n : Int))
    (hk : k < s.jobs.length ∧ (s.jobs.getD k default).pid = (m : Int) ∧
      ∀ a, a < k → (s.jobs.getD a default).pid ≠ (m : Int)) :
    bgfgDone s (argv0 == "fg") killOk n i
        (do_bgfg s (argv0 :: ("%" ++ toString n) :: rest) killOk) ∧
      bgfgDone s (argv0 == "fg") killOk m k
        (do_bgfg s (argv0 :: toString m :: rest) killOk) :=
  do_bgfg_success_aux s argv0 killOk n m i k rest hn.1 hn.2 hm.1 hm.2 hi hk

theorem do_bgfg_success_witness :
    bgfgDone fgAndBg ("bg" == "fg") true (2 : Nat) 1
        (do_bgfg fgAndBg ("bg" :: ("%" ++ toString 2) :: []) true) ∧
      bgfgDone fgAndBg ("bg" == "fg") true (10 : Nat) 0
        (do_bgfg fgAndBg ("bg" :: toString 10 :: []) true) :=
  do_bgfg_success fgAndBg "bg" true 2 10 1 0 [] (by decide) (by decide) (by decide)
    (by decide) (by decide)

/-! ## `listjobs` -/

theorem listjobsFrom_spec (i : Nat) (s : Shell) (l : List job_t) :
    (listjobsFrom i s l).jobs = s.jobs ∧ (listjobsFrom i s l).nextjid = s.nextjid ∧
      (listjobsFrom i s l).verbose = s.verbose ∧
      (listjobsFrom i s l).out = s.out ++
        ((l.enumFrom i).filter fun e => e.2.pid ≠ 0).flatMap fun e => listingEntry e.1 e.2 := by
  induction l generalizing i s with
  | nil => simp [listjobsFrom]
  | cons j js ih =>
    by_cases hp : j.pid = 0
    · simp only [listjobsFrom, hp, ne_eq, not_true_eq_false, if_false, List.enumFrom_cons]
      obtain ⟨h1, h2, h3, h4⟩ := ih (i + 1) s
      refine ⟨h1, h2, h3, ?_⟩
      rw [h4, List.filter_cons_of_neg (by simp [hp])]
    · simp only [listjobsFrom, hp, ne_eq, not_false_eq_true, if_true, List.enumFrom_cons]
      have hlab : ∀ s1 : Shell,
          (if j.state = BG then printf s1 "Running "
            else if j.state = FG then printf s1 "Foreground "
            else if j.state = ST then printf s1 "Stopped "
            else printf s1 ("listjobs: Internal error: job[" ++ fmtd i ++ "].state="
              ++ fmtd j.state ++ " ")) = printf s1 (entryLabel i j) := by
        intro s1
        unfold entryLabel
        split_ifs <;> rfl
      rw [hlab]
      obtain ⟨h1, h2, h3, h4⟩ := ih (i + 1)
        (printf (printf (printf s ("[" ++ fmtd j.jid ++ "] (" ++ fmtd j.pid ++ ") "))
          (entryLabel i j)) j.cmdline)
      refine ⟨h1, h2, h3, ?_⟩
      rw [h4, List.filter_cons_of_pos (by simp [hp])]
      simp [printf, listingEntry]

/-- C14. `listjobs` changes nothing but the output, to which it appends exactly the
listing of the table: for each occupied slot (pid not 0), in ascending slot index order,
the entry `[jid] (pid) <label> cmdline` with label `Running` for `BG`, `Foreground` for
`FG` and `Stopped` for `ST`, and nothing for an empty slot. -/
theorem listjobs_listing (s : Shell) :
    (listjobs s).jobs = s.jobs ∧ (listjobs s).nextjid = s.nextjid ∧
      (listjobs s).verbose = s.verbose ∧
      (listjobs s).out = s.out ++ listing s.jobs ∧
      (∀ (i : Nat) (j : job_t), j.state = BG → entryLabel i j = "Running ") ∧
      (∀ (i : Nat) (j : job_t), j.state = FG → entryLabel i j = "Foreground ") ∧
      (∀ (i : Nat) (j : job_t), j.state = ST → entryLabel i j = "Stopped ") := by
  obtain ⟨h1, h2, h3, h4⟩ := listjobsFrom_spec 0 s s.jobs
  refine ⟨h1, h2, h3, h4, ?_, ?_, ?_⟩
  · intro i j h
    simp [entryLabel, h]
  · intro i j h
    simp [entryLabel, h, FG, BG]
  · intro i j h
    simp [entryLabel, h, FG, BG, ST]

/-! ## The SIGINT and SIGTSTP handlers -/

theorem fgpid_of_no_fg_job {l : List job_t} (h : ∀ j ∈ l, j.state = FG → j.pid = 0) :
    fgpid l = 0 := by
  induction l with
  | nil => rfl
  | cons a l ih =>
    by_cases ha : a.state = FG
    · simp [fgpid, ha, h a (by simp) ha]
    · simp only [fgpid, ha, if_false]
      exact ih (fun j hj => h j (by simp [hj]))

theorem fgpid_of_first_fg {l : List job_t} {i : Nat} (hi : i < l.length)
    (hfg : (l.getD i default).state = FG)
    (hlow : ∀ k, k < i → (l.getD k default).state ≠ FG) :
    fgpid l = (l.getD i default).pid := by
  induction l generalizing i with
  | nil => simp at hi
  | cons a l ih =>
    cases i with
    | zero =>
      have ha : a.state = FG := by simpa using hfg
      simp [fgpid, ha]
    | succ i =>
      have ha : a.state ≠ FG := by simpa using hlow 0 (by omega)
      have := ih (i := i) (by simpa using hi) (by simpa using hfg)
        (fun k hk => by simpa using hlow (k + 1) (by omega))
      simpa [fgpid, ha] using this

/-- C16. When the first `waitpid` poll of a `sigchld_handler` invocation reports no
changed child (there is no result, or its return value is not positive), the handler
returns with the whole state as it was: every slot, `nextjid` and the output, to which no
notice is added. -/
theorem sigchld_no_event (s : Shell) (polls : List (Int × WStatus))
    (h : ∀ e, polls.head? = some e → e.1 ≤ 0) : sigchld_handler s polls = some s := by
  cases polls with
  | nil => rfl
  | cons e rest =>
    obtain ⟨pid, status⟩ := e
    have hp : ¬ pid > 0 := by
      have := h (pid, status) rfl
      simp only at this
      omega
    simp [sigchld_handler, sigchld_loop, hp]

theorem sigchld_no_event_witness :
    sigchld_handler fgAndBg [(0, WStatus.exited 0)] = some fgAndBg :=
  sigchld_no_event fgAndBg [(0, WStatus.exited 0)] (by decide)

/-! ## The next job id after a deletion -/

theorem deletejob_nextjid_aux (s : Shell) (pid pid1 state1 : Int) (cmdline1 : String)
    (hclear : ∀ j ∈ s.jobs, j.pid = 0 → j.jid = 0)
    (hpos : ∀ j ∈ s.jobs, j.pid ≠ 0 → 1 ≤ j.jid)
    (hdel : (deletejob s pid).1 = 1) (hp1 : 1 ≤ pid1) :
    (∀ j ∈ (deletejob s pid).2.jobs, j.pid ≠ 0 → j.jid < (deletejob s pid).2.nextjid) ∧
      ((∃ j ∈ (deletejob s pid).2.jobs, j.pid ≠ 0 ∧ (deletejob s pid).2.nextjid = j.jid + 1) ∨
        ((∀ j ∈ (deletejob s pid).2.jobs, j.pid = 0) ∧ (deletejob s pid).2.nextjid = 1)) ∧
      (addjob (deletejob s pid).2 pid1 state1 cmdline1).1 = 1 ∧
      ∃ i, i < (deletejob s pid).2.jobs.length ∧
        ((deletejob s pid).2.jobs.getD i default).pid = 0 ∧
        (addjob (deletejob s pid).2 pid1 state1 cmdline1).2.jobs =
          (deletejob s pid).2.jobs.set i
            { pid := pid1, jid := (deletejob s pid).2.nextjid, state := state1,
              cmdline := cmdline1 } := by
  have hfound : 1 ≤ pid ∧ ∃ j ∈ s.jobs, j.pid = pid := by
    by_contra hex
    have habs : pid < 1 ∨ ∀ j ∈ s.jobs, j.pid ≠ pid := by
      by_cases hp : pid < 1
      · exact Or.inl hp
      · right
        intro j hj hjp
        exact hex ⟨by omega, j, hj, hjp⟩
    rw [deletejob_absent habs] at hdel
    simp at hdel
  obtain ⟨hp, j, hj, hjp⟩ := hfound
  obtain ⟨i, hi⟩ := firstSlot_isSome (p := fun j => j.pid == pid) ⟨j, hj, by simp [hjp]⟩
  obtain ⟨hlt, _, _⟩ := firstSlot_some_spec hi
  rw [deletejob_found hp hi]
  simp only
  -- facts about the table after the deletion
  have hmem : ∀ a ∈ s.jobs.set i emptyJob, a ∈ s.jobs ∨ a = emptyJob :=
    fun a ha => List.mem_or_eq_of_mem_set ha
  have hclear1 : ∀ a ∈ s.jobs.set i emptyJob, a.pid = 0 → a.jid = 0 := by
    intro a ha h0
    rcases hmem a ha with ha | rfl
    · exact hclear a ha h0
    · rfl
  have hge := maxjidFrom_ge_mem 0 (s.jobs.set i emptyJob)
  have hempty : emptyJob ∈ s.jobs.set i emptyJob := List.mem_set s.jobs i hlt emptyJob
  refine ⟨?_, ?_, ?_⟩
  · intro a ha _
    have := hge a ha
    simp only [maxjid]
    omega
  · rcases maxjidFrom_attained 0 (s.jobs.set i emptyJob) with h | ⟨a, ha, h⟩
    · by_cases hall : ∀ a ∈ s.jobs.set i emptyJob, a.pid = 0
      · exact Or.inr ⟨hall, by simp [maxjid, h]⟩
      · push_neg at hall
        obtain ⟨a, ha, hne⟩ := hall
        have h1 : 1 ≤ a.jid := by
          rcases hmem a ha with ha1 | rfl
          · exact hpos a ha1 hne
          · exact absurd rfl hne
        have := hge a ha
        omega
    · by_cases hz : a.pid = 0
      · have hj0 := hclear1 a ha hz
        by_cases hall : ∀ b ∈ s.jobs.set i emptyJob, b.pid = 0
        · exact Or.inr ⟨hall, by simp only [maxjid]; omega⟩
        · push_neg at hall
          obtain ⟨b, hb, hne⟩ := hall
          have h1 : 1 ≤ b.jid := by
            rcases hmem b hb with hb1 | rfl
            · exact hpos b hb1 hne
            · exact absurd rfl hne
          have := hge b hb
          omega
      · exact Or.inl ⟨a, ha, hz, by simp only [maxjid]; omega⟩
  · obtain ⟨k, hk⟩ := firstSlot_isSome (p := fun j => j.pid == 0)
      (l := s.jobs.set i emptyJob) ⟨emptyJob, hempty, by decide⟩
    obtain ⟨k1, k2, _⟩ := firstSlot_some_spec hk
    obtain ⟨a1, a2, _, _⟩ := addjob_found
      (s := { s with jobs := s.jobs.set i emptyJob,
                     nextjid := maxjid (s.jobs.set i emptyJob) + 1 })
      state1 cmdline1 hp1 hk
    exact ⟨a1, k, k1, by simpa using k2, a2⟩

/-- C18. On a table whose empty slots carry job id 0 and whose jobs carry positive ids,
after a `deletejob` that succeeds `nextjid` is above the job id of every remaining job and
is one more than the job id of one of them (their maximum), or is 1 when no job remains;
an `addjob` that follows (pid `>= 1`) succeeds and writes exactly that `nextjid` as the job
id of the new job into an empty slot. -/
theorem deletejob_nextjid (s : Shell) (pid pid1 state1 : Int) (cmdline1 : String)
    (hclear : ∀ j ∈ s.jobs, j.pid = 0 → j.jid = 0)
    (hpos : ∀ j ∈ s.jobs, j.pid ≠ 0 → 1 ≤ j.jid)
    (hdel : (deletejob s pid).1 = 1) (hp1 : 1 ≤ pid1) :
    (∀ j ∈ (deletejob s pid).2.jobs, j.pid ≠ 0 → j.jid < (deletejob s pid).2.nextjid) ∧
      ((∃ j ∈ (deletejob s pid).2.jobs, j.pid ≠ 0 ∧ (deletejob s pid).2.nextjid = j.jid + 1) ∨
        ((∀ j ∈ (deletejob s pid).2.jobs, j.pid = 0) ∧ (deletejob s pid).2.nextjid = 1)) ∧
      (addjob (deletejob s pid).2 pid1 state1 cmdline1).1 = 1 ∧
      ∃ i, i < (deletejob s pid).2.jobs.length ∧
        ((deletejob s pid).2.jobs.getD i default).pid = 0 ∧
        (addjob (deletejob s pid).2 pid1 state1 cmdline1).2.jobs =
          (deletejob s pid).2.jobs.set i
            { pid := pid1, jid := (deletejob s pid).2.nextjid, state := state1,
              cmdline := cmdline1 } :=
  deletejob_nextjid_aux s pid pid1 state1 cmdline1 hclear hpos hdel hp1

theorem deletejob_nextjid_witness :
    (∀ j ∈ (deletejob fgAndBg 10).2.jobs, j.pid ≠ 0 → j.jid < (deletejob fgAndBg 10).2.nextjid) ∧
      ((∃ j ∈ (deletejob fgAndBg 10).2.jobs,
          j.pid ≠ 0 ∧ (deletejob fgAndBg 10).2.nextjid = j.jid + 1) ∨
        ((∀ j ∈ (deletejob fgAndBg 10).2.jobs, j.pid = 0) ∧
          (deletejob fgAndBg 10).2.nextjid = 1)) ∧
      (addjob (deletejob fgAndBg 10).2 30 BG "ls &\n").1 = 1 ∧
      ∃ i, i < (deletejob fgAndBg 10).2.jobs.length ∧
        ((deletejob fgAndBg 10).2.jobs.getD i default).pid = 0 ∧
        (addjob (deletejob fgAndBg 10).2 30 BG "ls &\n").2.jobs =
          (deletejob fgAndBg 10).2.jobs.set i
            { pid := 30, jid := (deletejob fgAndBg 10).2.nextjid, state := BG,
              cmdline := "ls &\n" } :=
  deletejob_nextjid fgAndBg 10 30 BG "ls &\n" (by decide) (by decide) (by decide) (by decide)

/-! ## `fgpid` and `waitfg` -/

theorem all_of_getD {P : job_t → Prop} {l : List job_t}
    (h : ∀ k, k < l.length → P (l.getD k default)) : ∀ j ∈ l, P j := by
  induction l with
  | nil => simp
  | cons a l ih =>
    intro j hj
    rcases List.mem_cons.1 hj with rfl | hj
    · simpa using h 0 (by simp)
    · exact ih (fun k hk => by simpa using h (k + 1) (by simpa using hk)) j hj

theorem set_no_fg {l : List job_t} {i : Nat} {x : job_t}
    (h : ∀ k, k ≠ i → k < l.length → (l.getD k default).state ≠ FG) (hx : x.state ≠ FG) :
    ∀ j ∈ l.set i x, j.state ≠ FG := by
  induction l generalizing i with
  | nil => simp
  | cons a l ih =>
    cases i with
    | zero =>
      intro j hj
      simp only [List.set_cons_zero, List.mem_cons] at hj
      rcases hj with rfl | hj
      · exact hx
      · exact all_of_getD (P := fun j => j.state ≠ FG)
          (fun k hk => by simpa using h (k + 1) (by omega) (by simpa using hk)) j hj
    | succ i =>
      intro j hj
      simp only [List.set_cons_succ, List.mem_cons] at hj
      rcases hj with rfl | hj
      · simpa using h 0 (by omega) (by simp)
      · exact ih (i := i)
          (fun k hk hlt => by simpa using h (k + 1) (by omega) (by simpa using hlt)) j hj

theorem setState_no_fg {l : List job_t} {i : Nat} {st : Int}
    (h : ∀ k, k ≠ i → k < l.length → (l.getD k default).state ≠ FG) (hst : st ≠ FG) :
    ∀ j ∈ setState l i st, j.state ≠ FG := by
  by_cases hi : i < l.length
  · rw [setState_eq st hi]
    exact set_no_fg h hst
  · have hnone : l[i]? = none := List.getElem?_eq_none (by omega)
    simp only [setState, hnone]
    exact all_of_getD (P := fun j => j.state ≠ FG)
      (fun k hk => h k (by omega) hk)

theorem sigchld_body_out {jid : Int} {s s1 : Shell} {pid : Int} {status : WStatus}
    (h : sigchld_body jid s pid status = some s1) : s.out.length ≤ s1.out.length := by
  cases status with
  | exited code =>
    simp only [sigchld_body, WIFEXITED, WIFSTOPPED, WIFSIGNALED, if_true, Bool.false_eq_true,
      if_false, Option.map_some', Option.some.injEq] at h
    subst h
    rw [(deletejob_jobs _ pid).2.2]
    cases hv : s.verbose <;> simp [printf]
  | signaled sig =>
    simp only [sigchld_body, WIFEXITED, WIFSTOPPED, WIFSIGNALED, if_true, Bool.false_eq_true,
      if_false, Option.map_some', Option.some.injEq] at h
    subst h
    rw [(deletejob_jobs _ pid).2.2]
    simp [printf]
  | stopped sig =>
    simp only [sigchld_body, WIFEXITED, WIFSTOPPED, WIFSIGNALED, if_true, Bool.false_eq_true,
      if_false] at h
    cases hg : getjobjid s.jobs jid with
    | none => simp [printf, hg] at h
    | some i =>
      simp only [printf, hg, Option.map_some', Option.some.injEq] at h
      subst h
      simp

theorem sigchld_loop_out {jid : Int} {s s1 : Shell} {polls : List (Int × WStatus)}
    (h : sigchld_loop jid s polls = some s1) : s.out.length ≤ s1.out.length := by
  induction polls generalizing s with
  | nil =>
    simp only [sigchld_loop, Option.some.injEq] at h
    subst h
    exact le_refl _
  | cons e rest ih =>
    obtain ⟨pid, status⟩ := e
    simp only [sigchld_loop] at h
    split_ifs at h with hp
    · cases hb : sigchld_body jid s pid status with
      | none => simp [hb] at h
      | some s2 =>
        simp only [hb] at h
        exact le_trans (sigchld_body_out hb) (ih h)
    · simp only [Option.some.injEq] at h
      subst h
      exact le_refl _

theorem waitfg_out {s r : Shell} {wakeups : List (List (Int × WStatus))}
    (h : waitfg s wakeups = Wait.returned r) : s.out.length ≤ r.out.length := by
  induction wakeups generalizing s with
  | nil =>
    simp only [waitfg] at h
    split_ifs at h
    simp only [Wait.returned.injEq] at h
    subst h
    exact le_refl _
  | cons polls rest ih =>
    simp only [waitfg] at h
    split_ifs at h with hf
    · cases hh : sigchld_handler { s with out := s.out ++ [Effect.sleep 0] } polls with
      | none => simp [hh] at h
      | some s1 =>
        simp only [hh] at h
        have h1 := sigchld_loop_out hh
        have h2 := ih h
        simp only [List.length_append, List.length_singleton] at h1
        omega
    · simp only [Wait.returned.injEq] at h
      subst h
      exact le_refl _

theorem waitfg_returned_same {s : Shell} {wakeups : List (List (Int × WStatus))}
    (h : waitfg s wakeups = Wait.returned s) : fgpid s.jobs = 0 := by
  by_contra hf
  cases wakeups with
  | nil => simp [waitfg, hf] at h
  | cons polls rest =>
    simp only [waitfg, ne_eq, hf, not_false_eq_true, if_true] at h
    cases hh : sigchld_handler { s with out := s.out ++ [Effect.sleep 0] } polls with
    | none => simp [hh] at h
    | some s1 =>
      simp only [hh] at h
      have h1 := sigchld_loop_out hh
      have h2 := waitfg_out h
      simp only [List.length_append, List.length_singleton] at h1
      omega

theorem waitfg_of_fgpid_zero {s : Shell} (wakeups : List (List (Int × WStatus)))
    (h : fgpid s.jobs = 0) : waitfg s wakeups = Wait.returned s := by
  cases wakeups <;> simp [waitfg, h]

theorem fgpid_zero_iff {l : List job_t} (hU : ∀ j ∈ l, j.pid = 0 → j.state = UNDEF) :
    fgpid l = 0 ↔ ∀ j ∈ l, j.state ≠ FG := by
  constructor
  · intro h0
    induction l with
    | nil => simp
    | cons a l ih =>
      by_cases ha : a.state = FG
      · simp only [fgpid, ha, if_true] at h0
        have := hU a (by simp) h0
        rw [this] at ha
        exact absurd ha (by decide)
      · simp only [fgpid, ha, if_false] at h0
        intro j hj
        rcases List.mem_cons.1 hj with rfl | hj
        · exact ha
        · exact ih (fun j hj => hU j (by simp [hj])) h0 j hj
  · intro h
    exact fgpid_of_no_fg_job (fun j hj hfg => absurd hfg (h j hj))

theorem fgpid_waitfg_aux (s : Shell) (wakeups : List (List (Int × WStatus)))
    (hU : ∀ j ∈ s.jobs, j.pid = 0 → j.state = UNDEF) :
    (fgpid s.jobs = 0 ↔ ∀ j ∈ s.jobs, j.state ≠ FG) ∧
      (∀ i, i < s.jobs.length → (s.jobs.getD i default).state = FG →
        (∀ k, k < i → (s.jobs.getD k default).state ≠ FG) →
        fgpid s.jobs = (s.jobs.getD i default).pid ∧ fgpid s.jobs ≠ 0) ∧
      (waitfg s wakeups = Wait.returned s ↔ ∀ j ∈ s.jobs, j.state ≠ FG) ∧
      (∀ i, (∀ k, k ≠ i → k < s.jobs.length → (s.jobs.getD k default).state ≠ FG) →
        fgpid (s.jobs.set i emptyJob) = 0 ∧ fgpid (setState s.jobs i ST) = 0 ∧
          fgpid (setState s.jobs i BG) = 0) := by
  have hiff := fgpid_zero_iff hU
  refine ⟨hiff, ?_, ?_, ?_⟩
  · intro i hi hfg hlow
    have e := fgpid_of_first_fg hi hfg hlow
    refine ⟨e, ?_⟩
    rw [e]
    intro h0
    have := hU _ (getD_mem hi) h0
    rw [this] at hfg
    exact absurd hfg (by decide)
  · constructor
    · intro h
      exact hiff.1 (waitfg_returned_same h)
    · intro h
      exact waitfg_of_fgpid_zero wakeups (hiff.2 h)
  · intro i h
    refine ⟨?_, ?_, ?_⟩
    · exact fgpid_of_no_fg_job
        (fun j hj hfg => absurd hfg (set_no_fg h (by decide) j hj))
    · exact fgpid_of_no_fg_job
        (fun j hj hfg => absurd hfg (setState_no_fg h (by decide) j hj))
    · exact fgpid_of_no_fg_job
        (fun j hj hfg => absurd hfg (setState_no_fg h (by decide) j hj))

/-- C19. On a table whose empty slots have state `UNDEF`: `fgpid` returns 0 exactly when
no slot has state `FG`, and otherwise the pid, which is not 0, of the lowest-index slot in
state `FG`; `waitfg` returns at once, with no pass through its loop and the state
untouched, exactly when no slot has state `FG`. Once the only foreground slot `i` is
cleared, stopped or moved to background, `fgpid` is 0 again. -/
theorem fgpid_waitfg (s : Shell) (wakeups : List (List (Int × WStatus)))
    (hU : ∀ j ∈ s.jobs, j.pid = 0 → j.state = UNDEF) :
    (fgpid s.jobs = 0 ↔ ∀ j ∈ s.jobs, j.state ≠ FG) ∧
      (∀ i, i < s.jobs.length → (s.jobs.getD i default).state = FG →
        (∀ k, k < i → (s.jobs.getD k default).state ≠ FG) →
        fgpid s.jobs = (s.jobs.getD i default).pid ∧ fgpid s.jobs ≠ 0) ∧
      (waitfg s wakeups = Wait.returned s ↔ ∀ j ∈ s.jobs, j.state ≠ FG) ∧
      (∀ i, (∀ k, k ≠ i → k < s.jobs.length → (s.jobs.getD k default).state ≠ FG) →
        fgpid (s.jobs.set i emptyJob) = 0 ∧ fgpid (setState s.jobs i ST) = 0 ∧
          fgpid (setState s.jobs i BG) = 0) :=
  fgpid_waitfg_aux s wakeups hU

theorem fgpid_waitfg_witness :
    (fgpid fgAndBg.jobs = 0 ↔ ∀ j ∈ fgAndBg.jobs, j.state ≠ FG) ∧
      (∀ i, i < fgAndBg.jobs.length → (fgAndBg.jobs.getD i default).state = FG →
        (∀ k, k < i → (fgAndBg.jobs.getD k default).state ≠ FG) →
        fgpid fgAndBg.jobs = (fgAndBg.jobs.getD i default).pid ∧ fgpid fgAndBg.jobs ≠ 0) ∧
      (waitfg fgAndBg [[(10, WStatus.exited 0)]] = Wait.returned fgAndBg ↔
        ∀ j ∈ fgAndBg.jobs, j.state ≠ FG) ∧
      (∀ i, (∀ k, k ≠ i → k < fgAndBg.jobs.length →
          (fgAndBg.jobs.getD k default).state ≠ FG) →
        fgpid (fgAndBg.jobs.set i emptyJob) = 0 ∧ fgpid (setState fgAndBg.jobs i ST) = 0 ∧
          fgpid (setState fgAndBg.jobs i BG) = 0) :=
  fgpid_waitfg fgAndBg [[(10, WStatus.exited 0)]] (by decide)

/-! ## Empty slots are clear -/

theorem tableInv_addjob {s : Shell} (pid state : Int) (cmdline : String)
    (hinv : TableInv s.jobs) : TableInv (addjob s pid state cmdline).2.jobs := by
  by_cases hp : pid < 1
  · rw [(addjob_refused s pid state cmdline (Or.inl hp)).2.1]
    exact hinv
  · cases hf : firstSlot (fun j => j.pid == 0) s.jobs with
    | none =>
      rw [(addjob_refused s pid state cmdline (Or.inr hf)).2.1]
      exact hinv
    | some i =>
      rw [(addjob_found state cmdline (by omega) hf).2.1]
      exact tableInv_set i hinv (fun h0 => by simp only at h0; omega) (by simp only; omega)

theorem opsReach_inv {s : Shell} (h : OpsReach s) : TableInv s.jobs := by
  induction h with
  | init v =>
    cases v
    · exact ⟨by decide, by decide⟩
    · exact ⟨by decide, by decide⟩
  | addjob pid state cmdline _ ih => exact tableInv_addjob pid state cmdline ih
  | deletejob pid _ ih => exact (tableInv_deletejob pid ih).1
  | do_bgfg argv killOk _ ih => exact (do_bgfg_inv argv killOk ih).1
  | sigchld polls _ hs ih => exact (sigchld_loop_inv hs ih).1

/-- In every state reached from `initjobs` by whole calls of `addjob`, `deletejob`,
`do_bgfg` and `sigchld_handler`, none with a handler run inside it (`OpsReach`), every
empty slot (pid 0) has job id 0, state `UNDEF` and an empty command line, and every slot
with a job id other than 0 or a state other than `UNDEF` is occupied, with a pid `>= 1`.
With a handler run inside `do_bgfg`, as in `OpsRun`, this fails. -/
theorem empty_slots_clear (s : Shell) (h : OpsReach s) :
    (∀ j ∈ s.jobs, j.pid = 0 → j.jid = 0 ∧ j.state = UNDEF ∧ j.cmdline = "") ∧
      (∀ j ∈ s.jobs, (j.jid ≠ 0 ∨ j.state ≠ UNDEF) → 1 ≤ j.pid) := by
  have hinv := opsReach_inv h
  constructor
  · intro j hj h0
    rw [hinv.clear j hj h0]
    exact ⟨rfl, rfl, rfl⟩
  · intro j hj hne
    have h1 := hinv.nonneg j hj
    have h2 : j.pid ≠ 0 := by
      intro h0
      rw [hinv.clear j hj h0] at hne
      rcases hne with hne | hne
      · exact hne rfl
      · exact hne rfl
    omega

theorem empty_slots_clear_witness :
    (∀ j ∈ (deletejob (addjob (initShell false) 5 FG "cat\n").2 5).2.jobs,
        j.pid = 0 → j.jid = 0 ∧ j.state = UNDEF ∧ j.cmdline = "") ∧
      (∀ j ∈ (deletejob (addjob (initShell false) 5 FG "cat\n").2 5).2.jobs,
        (j.jid ≠ 0 ∨ j.state ≠ UNDEF) → 1 ≤ j.pid) :=
  empty_slots_clear _
    (OpsReach.deletejob 5 (OpsReach.addjob 5 FG "cat\n" (OpsReach.init false)))

/-! ## `parseline` -/

theorem skipSpaces_replicate (n : Nat) (r : List Char) :
    skipSpaces (List.replicate n ' ' ++ r) = skipSpaces r := by
  induction n with
  | zero => simp
  | succ n ih => simp [List.replicate_succ, skipSpaces, ih]

theorem strchr_append {c : Char} {w : List Char} (r : List Char) (h : ∀ x ∈ w, x ≠ c) :
    strchr c (w ++ c :: r) = some (w, r) := by
  induction w with
  | nil => simp [strchr]
  | cons x w ih =>
    have hx : x ≠ c := h x (by simp)
    simp [strchr, hx, ih (fun y hy => h y (by simp [hy]))]

theorem nextArg_render {a : Arg} (g : Nat) (rest : List Char) (h : a.wellFormed) :
    nextArg (a.render g ++ rest) = some (a.text, List.replicate g ' ' ++ rest) ∧
      skipSpaces (a.render g ++ rest) = a.render g ++ rest := by
  cases a with
  | word w =>
    obtain ⟨h1, h2, h3⟩ := h
    cases w with
    | nil => exact absurd rfl h1
    | cons c w1 =>
      have hc : c ≠ quote := by simpa using h3
      have hs : c ≠ ' ' := h2 c (by simp)
      have e : Arg.render g (Arg.word (c :: w1)) ++ rest
          = c :: (w1 ++ ' ' :: (List.replicate g ' ' ++ rest)) := by
        simp [Arg.render, List.replicate_succ]
      rw [e]
      refine ⟨?_, by simp [skipSpaces, hs]⟩
      simp only [nextArg, hc, if_false, Arg.text]
      exact strchr_append (w := c :: w1) _ h2
  | quoted t =>
    have e : Arg.render g (Arg.quoted t) ++ rest
        = quote :: (t ++ quote :: (List.replicate g ' ' ++ rest)) := by
      simp [Arg.render]
    rw [e]
    refine ⟨?_, by simp [skipSpaces, quote]⟩
    simp only [nextArg, if_true, Arg.text]
    exact strchr_append _ h

theorem parseArgs_render (args : List (Arg × Nat)) :
    ∀ fuel, args.length < fuel → (∀ p ∈ args, p.1.wellFormed) →
      parseArgs fuel (skipSpaces (args.flatMap fun p => p.1.render p.2)) =
        args.map fun p => p.1.text := by
  induction args with
  | nil =>
    intro fuel _ _
    cases fuel <;> simp [parseArgs, skipSpaces, nextArg]
  | cons p rest ih =>
    intro fuel hf hwf
    obtain ⟨a, g⟩ := p
    cases fuel with
    | zero => simp at hf
    | succ f =>
      obtain ⟨e1, e2⟩ := nextArg_render g (rest.flatMap fun p => p.1.render p.2)
        (hwf (a, g) (by simp))
      simp only [List.flatMap_cons, e2, parseArgs, e1, skipSpaces_replicate, List.map_cons]
      rw [ih f (by simpa using hf) (fun q hq => hwf q (by simp [hq]))]

theorem render_length_pos (a : Arg) (g : Nat) : 0 < (a.render g).length := by
  cases a <;> simp [Arg.render]

theorem flatMap_render_length (args : List (Arg × Nat)) :
    args.length ≤ (args.flatMap fun p => p.1.render p.2).length := by
  induction args with
  | nil => simp
  | cons p rest ih =>
    have := render_length_pos p.1 p.2
    simp only [List.flatMap_cons, List.length_append, List.length_cons]
    omega

theorem parseline_bg_aux (lead : Nat) (args : List (Arg × Nat)) (body : List Char)
    (hne : args ≠ []) (hwf : ∀ p ∈ args, p.1.wellFormed) (hlen : args.length < MAXARGS)
    (hline : body ++ [' '] = renderLine lead args) :
    parseline (String.mk (body ++ ['\n'])) =
      some (beginsAmp (args.map fun p => p.1.text),
        (if beginsAmp (args.map fun p => p.1.text)
          then (args.map fun p => p.1.text).dropLast
          else args.map fun p => p.1.text).map String.mk) := by
  have hbuf : (body ++ ['\n']).dropLast ++ [' '] = renderLine lead args := by
    rw [List.dropLast_concat, hline]
  have hargs : parseArgs (((body ++ ['\n']).dropLast ++ [' ']).length + 1)
      (skipSpaces ((body ++ ['\n']).dropLast ++ [' '])) = args.map fun p => p.1.text := by
    rw [hbuf]
    unfold renderLine
    rw [skipSpaces_replicate]
    apply parseArgs_render _ _ _ hwf
    have := flatMap_render_length args
    simp only [List.length_append]
    omega
  cases hb : body ++ ['\n'] with
  | nil => simp at hb
  | cons c cs =>
    rw [hb] at hargs
    have hnl : ¬ MAXARGS ≤ (args.map fun p => p.1.text).length := by
      simp only [List.length_map]
      omega
    obtain ⟨last, hlast⟩ : ∃ last, (args.map fun p => p.1.text).getLast? = some last := by
      cases h : (args.map fun p => p.1.text).getLast? with
      | some x => exact ⟨x, rfl⟩
      | none =>
        rw [List.getLast?_eq_none_iff] at h
        simp only [List.map_eq_nil_iff] at h
        exact absurd h hne
    simp only [parseline, hargs, hnl, if_false, hlast, beginsAmp, Option.bind]

theorem skipSpaces_length (l : List Char) : (skipSpaces l).length ≤ l.length := by
  induction l with
  | nil => simp [skipSpaces]
  | cons c r ih =>
    by_cases hc : c = ' '
    · simp only [skipSpaces, hc, if_true, List.length_cons]
      omega
    · simp [skipSpaces, hc]

theorem strchr_length {c : Char} {l a rest : List Char} (h : strchr c l = some (a, rest)) :
    rest.length < l.length := by
  induction l generalizing a rest with
  | nil => simp [strchr] at h
  | cons x r ih =>
    by_cases hx : x = c
    · simp only [strchr, hx, if_true, Option.some.injEq, Prod.mk.injEq] at h
      rw [← h.2]
      simp
    · simp only [strchr, hx, if_false, Option.map_eq_some'] at h
      obtain ⟨p, hp, he⟩ := h
      obtain ⟨p1, p2⟩ := p
      simp only [Prod.mk.injEq] at he
      have := ih hp
      rw [← he.2]
      simp only [List.length_cons]
      omega

theorem nextArg_length {l a rest : List Char} (h : nextArg l = some (a, rest)) :
    rest.length < l.length := by
  cases l with
  | nil => simp [nextArg] at h
  | cons c r =>
    by_cases hc : c = quote
    · simp only [nextArg, hc, if_true] at h
      have := strchr_length h
      simp only [List.length_cons]
      omega
    · simp only [nextArg, hc, if_false] at h
      exact strchr_length h

/-- The loop of `parseline` does not depend on its fuel once the fuel is above the length
of the buffer: the model never stops a loop that the source would continue. -/
theorem parseArgs_fuel (f1 : Nat) :
    ∀ (f2 : Nat) (buf : List Char), buf.length < f1 → buf.length < f2 →
      parseArgs f1 buf = parseArgs f2 buf := by
  induction f1 with
  | zero => intro f2 buf h; omega
  | succ f1 ih =>
    intro f2 buf h1 h2
    cases f2 with
    | zero => omega
    | succ f2 =>
      cases hn : nextArg buf with
      | none => simp [parseArgs, hn]
      | some p =>
        obtain ⟨a, rest⟩ := p
        have hl := nextArg_length hn
        have hs := skipSpaces_length rest
        simp only [parseArgs, hn]
        rw [ih f2 (skipSpaces rest) (by omega) (by omega)]

/-- C17, as stated, fails: on the line `sleep 5 &x`, whose last argument is `&x` and not
`&`, `parseline` returns true and drops that argument. -/
theorem parseline_bg_on_ampersand_word :
    parseline (String.mk ("sleep 5 &x".data ++ ['\n'])) = some (true, ["sleep", "5"]) ∧
      "sleep 5 &x".data ++ [' '] =
        renderLine 0 [(Arg.word "sleep".data, 0), (Arg.word "5".data, 0),
          (Arg.word "&x".data, 0)] ∧
      "&x" ≠ "&" := by
  decide

/-- C17, amended. For a newline-terminated command line that, with its newline read as a
space, consists of leading spaces and at least one well-formed argument (plain words and
quoted texts, each followed by its spaces; fewer than `MAXARGS`), `parseline` returns true
exactly when the last argument begins with the character `&`, and then the argument list
holds all arguments but that last one; otherwise it returns false and the argument list
holds all arguments. -/
theorem parseline_bg (lead : Nat) (args : List (Arg × Nat)) (body : List Char)
    (hne : args ≠ []) (hwf : ∀ p ∈ args, p.1.wellFormed) (hlen : args.length < MAXARGS)
    (hline : body ++ [' '] = renderLine lead args) :
    parseline (String.mk (body ++ ['\n'])) =
      some (beginsAmp (args.map fun p => p.1.text),
        (if beginsAmp (args.map fun p => p.1.text)
          then (args.map fun p => p.1.text).dropLast
          else args.map fun p => p.1.text).map String.mk) :=
  parseline_bg_aux lead args body hne hwf hlen hline

theorem parseline_bg_witness :
    parseline (String.mk (" echo 'a b'  & ".data ++ ['\n'])) =
      some (beginsAmp ([(Arg.word "echo".data, 0), (Arg.quoted "a b".data, 2),
            (Arg.word "&".data, 1)].map fun p => p.1.text),
        (if beginsAmp ([(Arg.word "echo".data, 0), (Arg.quoted "a b".data, 2),
            (Arg.word "&".data, 1)].map fun p => p.1.text)
          then ([(Arg.word "echo".data, 0), (Arg.quoted "a b".data, 2),
            (Arg.word "&".data, 1)].map fun p => p.1.text).dropLast
          else [(Arg.word "echo".data, 0), (Arg.quoted "a b".data, 2),
            (Arg.word "&".data, 1)].map fun p => p.1.text).map String.mk) :=
  parseline_bg 1 [(Arg.word "echo".data, 0), (Arg.quoted "a b".data, 2),
      (Arg.word "&".data, 1)] " echo 'a b'  & ".data
    (by decide) (by decide) (by decide) (by decide)

/-! ## `eval` at a full job table -/

/-- C12 fails on the code. With all 16 slots occupied, `eval` of the background command
`sleep 9 &` (child pid 300) blocks SIGCHLD, creates the child, lets `addjob` print the
capacity error, unblocks SIGCHLD and prints the launch notice `[0] (300) sleep 9 &`; for
the foreground command `sleep 9` it enters `waitfg`, which returns at once. The table is
unchanged in both cases, and nothing is sent to the child. -/
theorem eval_full_table_still_launches :
    (eval fullTable "sleep 9 &\n" 300 true true).map (fun s => (s.jobs, s.out)) =
        some (fullTable.jobs,
          [Effect.sigprocmask SIG_BLOCK, Effect.fork 300,
           Effect.print "Tried to create too many jobs\n", Effect.sigprocmask SIG_UNBLOCK,
           Effect.print "[0] (300) sleep 9 &\n"]) ∧
      (eval fullTable "sleep 9\n" 300 true true).map (fun s => (s.jobs, s.out)) =
        some (fullTable.jobs,
          [Effect.sigprocmask SIG_BLOCK, Effect.fork 300,
           Effect.print "Tried to create too many jobs\n", Effect.sigprocmask SIG_UNBLOCK,
           Effect.waitfg 300]) ∧
      (eval fullTable "sleep 9\n" 300 true true).map (fun s => waitfg s []) =
        (eval fullTable "sleep 9\n" 300 true true).map Wait.returned := by
  decide

/-! ## The order of blocking, creation, registration and unblocking in `eval` -/

/-- The five statements of the parent path, run without interruption, are the parent
branch of `eval`. -/
theorem evalStep_five (s0 : Shell) (pid : Int) (bg : Bool) (cmdline : String) :
    (evalStep pid bg cmdline (evalStep pid bg cmdline (evalStep pid bg cmdline
      (evalStep pid bg cmdline (evalStep pid bg cmdline
        { sh := s0, pc := EvalPc.block, blocked := false, child := none }))))).sh =
      eval_parent (Fork (sigproc_wrapper s0 SIG_BLOCK) pid) pid bg cmdline := by
  cases bg <;> simp [evalStep, eval_parent]

/-- Control invariant of the runs of `eval`: SIGCHLD is blocked from the statement after
the blocking call up to the unblocking call, and the child exists only from `Fork()`
on. -/
theorem evalReach_control {pid : Int} {bg : Bool} {cmdline : String} {s0 : Shell}
    {r : EvalRun} (h : EvalReach pid bg cmdline s0 r) :
    (r.pc = EvalPc.block → r.blocked = false ∧ r.child = none) ∧
      (r.pc = EvalPc.fork → r.blocked = true ∧ r.child = none) ∧
      (r.pc = EvalPc.addjob → r.blocked = true) ∧
      (r.pc = EvalPc.unblock → r.blocked = true) := by
  induction h with
  | start => simp
  | @step r _ ih =>
    obtain ⟨sh, pc, blocked, child⟩ := r
    cases pc <;> simp_all [evalStep]
  | sigchld polls s1 _ hb _ ih => exact ih

/-- In every run of `eval`, `sigchld_handler` can run after the child was created only
once `addjob` has been executed: no handler run falls between process creation and the
call that registers the job. -/
theorem evalReach_handler_after_addjob {pid : Int} {bg : Bool} {cmdline : String}
    {s0 : Shell} {r : EvalRun} (h : EvalReach pid bg cmdline s0 r)
    (henabled : r.blocked = false) (hchild : r.child ≠ none) :
    r.pc = EvalPc.finish ∨ r.pc = EvalPc.done := by
  obtain ⟨h1, h2, h3, h4⟩ := evalReach_control h
  cases hpc : r.pc with
  | block => exact absurd (h1 hpc).2 hchild
  | fork => exact absurd (h2 hpc).2 hchild
  | addjob =>
    rw [h3 hpc] at henabled
    exact absurd henabled (by decide)
  | unblock =>
    rw [h4 hpc] at henabled
    exact absurd henabled (by decide)
  | finish => exact Or.inl rfl
  | done => exact Or.inr rfl

theorem free_slot_set {l : List job_t} (i : Nat) {x : job_t} (h : ∃ j ∈ l, j.pid = 0)
    (hx : x.pid = 0 ∨ x.pid = (l.getD i default).pid) : ∃ j ∈ l.set i x, j.pid = 0 := by
  induction l generalizing i with
  | nil => simp at h
  | cons a l ih =>
    obtain ⟨j, hj, h0⟩ := h
    cases i with
    | zero =>
      rcases List.mem_cons.1 hj with rfl | hj
      · refine ⟨x, by simp, ?_⟩
        rcases hx with hx | hx
        · exact hx
        · simpa [h0] using hx
      · exact ⟨j, by simp [hj], h0⟩
    | succ i =>
      rcases List.mem_cons.1 hj with rfl | hj
      · exact ⟨j, by simp, h0⟩
      · obtain ⟨k, hk, hk0⟩ := ih i ⟨j, hj, h0⟩ (by simpa using hx)
        exact ⟨k, by simp [hk], hk0⟩

theorem free_slot_deletejob {s : Shell} (pid : Int) (h : ∃ j ∈ s.jobs, j.pid = 0) :
    ∃ j ∈ (deletejob s pid).2.jobs, j.pid = 0 := by
  rcases (deletejob_jobs s pid).1 with e | ⟨i, e⟩
  · rw [e]
    exact h
  · rw [e]
    exact free_slot_set i h (Or.inl rfl)

theorem free_slot_setState {l : List job_t} (i : Nat) (st : Int) (h : ∃ j ∈ l, j.pid = 0) :
    ∃ j ∈ setState l i st, j.pid = 0 := by
  by_cases hi : i < l.length
  · rw [setState_eq st hi]
    exact free_slot_set i h (Or.inr rfl)
  · have hnone : l[i]? = none := List.getElem?_eq_none (by omega)
    simpa [setState, hnone] using h

theorem sigchld_body_free {jid : Int} {s s1 : Shell} {pid : Int} {status : WStatus}
    (h : sigchld_body jid s pid status = some s1) (hfree : ∃ j ∈ s.jobs, j.pid = 0) :
    ∃ j ∈ s1.jobs, j.pid = 0 := by
  cases status with
  | exited code =>
    simp only [sigchld_body, WIFEXITED, WIFSTOPPED, WIFSIGNALED, if_true, Bool.false_eq_true,
      if_false, Option.map_some', Option.some.injEq] at h
    subst h
    cases hv : s.verbose
    · simpa [hv] using free_slot_deletejob pid hfree
    · simpa [hv] using free_slot_deletejob
        (s := printf s ("\nchild: " ++ fmtd pid ++ " terminated "
          ++ fmtd (WEXITSTATUS (WStatus.exited code)) ++ "\n")) pid hfree
  | signaled sig =>
    simp only [sigchld_body, WIFEXITED, WIFSTOPPED, WIFSIGNALED, if_true, Bool.false_eq_true,
      if_false, Option.map_some', Option.some.injEq] at h
    subst h
    exact free_slot_deletejob
      (s := printf s ("Job [" ++ fmtd jid ++ "] (" ++ fmtd pid ++ ") terminated by signal 2\n"))
      pid hfree
  | stopped sig =>
    simp only [sigchld_body, WIFEXITED, WIFSTOPPED, WIFSIGNALED, if_true, Bool.false_eq_true,
      if_false] at h
    cases hg : getjobjid s.jobs jid with
    | none => simp [printf, hg] at h
    | some i =>
      simp only [printf, hg, Option.map_some', Option.some.injEq] at h
      subst h
      exact free_slot_setState i ST hfree

theorem sigchld_loop_free {jid : Int} {s s1 : Shell} {polls : List (Int × WStatus)}
    (h : sigchld_loop jid s polls = some s1) (hfree : ∃ j ∈ s.jobs, j.pid = 0) :
    ∃ j ∈ s1.jobs, j.pid = 0 := by
  induction polls generalizing s with
  | nil =>
    simp only [sigchld_loop, Option.some.injEq] at h
    subst h
    exact hfree
  | cons e rest ih =>
    obtain ⟨pid, status⟩ := e
    simp only [sigchld_loop] at h
    split_ifs at h with hp
    · cases hb : sigchld_body jid s pid status with
      | none => simp [hb] at h
      | some s2 =>
        simp only [hb] at h
        exact ih h (sigchld_body_free hb hfree)
    · simp only [Option.some.injEq] at h
      subst h
      exact hfree

theorem Fork_jobs (s : Shell) (pid : Int) : (Fork s pid).jobs = s.jobs := by
  unfold Fork
  by_cases h1 : pid < 0
  · simp [h1]
  · by_cases h2 : pid = 0
    · cases hv : s.verbose <;> simp [h1, h2, hv, printf]
    · cases hv : s.verbose <;> simp [h1, h2, hv, printf]

/-- When the table has a free slot as `eval` starts and `fork()` returns a pid `>= 1`,
the child's job is in the table at the moment `eval` is about to unblock SIGCHLD, in every
run: the handler, kept out since before the child was created, first runs on a table that
holds the job. -/
theorem evalReach_registered {pid : Int} {bg : Bool} {cmdline : String} {s0 : Shell}
    {r : EvalRun} (h : EvalReach pid bg cmdline s0 r) (hp : 1 ≤ pid)
    (hfree : ∃ j ∈ s0.jobs, j.pid = 0) :
    ((r.pc = EvalPc.block ∨ r.pc = EvalPc.fork ∨ r.pc = EvalPc.addjob) →
        ∃ j ∈ r.sh.jobs, j.pid = 0) ∧
      (r.pc = EvalPc.unblock → ∃ j ∈ r.sh.jobs, j.pid = pid) := by
  induction h with
  | start => exact ⟨fun _ => hfree, fun h => by simp at h⟩
  | @step r hr ih =>
    obtain ⟨sh, pc, blocked, child⟩ := r
    cases pc with
    | block => exact ⟨fun _ => by simpa [evalStep, sigproc_wrapper] using ih.1 (Or.inl rfl),
        fun h => by simp [evalStep] at h⟩
    | fork => exact ⟨fun _ => by simpa [evalStep, Fork_jobs] using ih.1 (Or.inr (Or.inl rfl)),
        fun h => by simp [evalStep] at h⟩
    | addjob =>
      refine ⟨fun h => by simp [evalStep] at h, fun _ => ?_⟩
      obtain ⟨i, hi⟩ := firstSlot_isSome (p := fun j => j.pid == 0)
        (by obtain ⟨j, hj, h0⟩ := ih.1 (Or.inr (Or.inr rfl)); exact ⟨j, hj, by simp [h0]⟩)
      obtain ⟨hlt, _, _⟩ := firstSlot_some_spec hi
      simp only [evalStep]
      rw [(addjob_found _ cmdline hp hi).2.1]
      exact ⟨_, List.mem_set _ i hlt _, rfl⟩
    | unblock => exact ⟨fun h => by simp [evalStep] at h, fun h => by simp [evalStep] at h⟩
    | finish => exact ⟨fun h => by simp [evalStep] at h, fun h => by simp [evalStep] at h⟩
    | done => exact ⟨fun h => by simp [evalStep] at h, fun h => by simp [evalStep] at h⟩
  | @sigchld r polls s1 hr hb hs ih =>
    obtain ⟨c1, c2, c3, c4⟩ := evalReach_control hr
    refine ⟨fun hpc => ?_, fun hpc => ?_⟩
    · rcases hpc with hpc | hpc | hpc
      · exact sigchld_loop_free hs (ih.1 (Or.inl hpc))
      · have hpc1 : r.pc = EvalPc.fork := hpc
        rw [(c2 hpc1).1] at hb
        exact absurd hb (by decide)
      · have hpc1 : r.pc = EvalPc.addjob := hpc
        rw [c3 hpc1] at hb
        exact absurd hb (by decide)
    · have hpc1 : r.pc = EvalPc.unblock := hpc
      rw [c4 hpc1] at hb
      exact absurd hb (by decide)

/-- C13 fails on the code. From the full table `eval` reaches, after its unblocking call,
a state in which SIGCHLD is deliverable and the child 300 exists, yet no job holds pid 300:
`sigchld_handler` run there on the exit of child 300 finds no job to delete and leaves the
full table as it is. -/
theorem reaper_sees_child_without_job :
    EvalReach 300 true "sleep 9 &\n" fullTable fullTableRun ∧
      fullTableRun.pc = EvalPc.finish ∧ fullTableRun.blocked = false ∧
      fullTableRun.child = some 300 ∧
      getjobpid fullTableRun.sh.jobs 300 = none ∧
      (deletejob fullTableRun.sh 300).1 = 0 ∧
      (sigchld_handler fullTableRun.sh [(300, WStatus.exited 0)]).map (fun s => s.jobs)
        = some fullTable.jobs :=
  ⟨EvalReach.step (EvalReach.step (EvalReach.step (EvalReach.step EvalReach.start))),
    by decide, by decide, by decide, by decide, by decide, by decide⟩

/-! ## The job lookup of the SIGCHLD handler on stop events -/

/-- Whenever no job is foreground as `sigchld_handler` starts (`fgpid(jobs)` is 0), a stop
event handled first makes it write through `NULL`: `jid` is 0 and `getjobjid(jobs, 0)`
finds nothing, whatever the table holds. -/
theorem sigchld_stop_without_fg (s : Shell) (pid sig : Int)
    (rest : List (Int × WStatus)) (h0 : fgpid s.jobs = 0) (hp : 0 < pid) :
    sigchld_handler s ((pid, WStatus.stopped sig) :: rest) = none := by
  have hj : pid2jid s 0 = 0 := by simp [pid2jid]
  have hg : ∀ l : List job_t, getjobjid l 0 = none := fun l => by simp [getjobjid]
  simp [sigchld_handler, sigchld_loop, h0, hj, hp, sigchld_body, WIFEXITED, WIFSTOPPED,
    printf, hg]

/-- The two tables used below are states of the running shell: they are reached from the
empty table by two launches. -/
theorem launched_states_reachable : ShellReach afterBgLaunch ∧ ShellReach afterFgLaunch :=
  ⟨ShellReach.launch 20 true "sleep 9 &\n" (ShellReach.init false) (by decide) (by decide),
    ShellReach.launch 10 false "cat\n"
      (ShellReach.launch 20 true "sleep 9 &\n" (ShellReach.init false) (by decide) (by decide))
      (by decide) (by decide)⟩

/-- C21 fails on the code. With the background job 20 as only job, the handler starts with
`jid = 0`, `getjobjid(jobs, 0)` is `NULL`, and the stop of child 20 makes it write through
that `NULL`. With job 10 in the foreground (job id 2), the handler starts with `jid = 2`;
once the exit of child 10 has removed that job, `getjobjid(jobs, 2)` is `NULL`, and the
stop of child 20 later in the same invocation makes it write through that `NULL`. -/
theorem sigchld_stop_lookup_null :
    fgpid afterBgLaunch.jobs = 0 ∧
      pid2jid afterBgLaunch (fgpid afterBgLaunch.jobs) = 0 ∧
      getjobjid afterBgLaunch.jobs 0 = none ∧
      sigchld_handler afterBgLaunch [(20, WStatus.stopped 19)] = none ∧
      pid2jid afterFgLaunch (fgpid afterFgLaunch.jobs) = 2 ∧
      getjobjid (deletejob afterFgLaunch 10).2.jobs 2 = none ∧
      sigchld_handler afterFgLaunch [(10, WStatus.exited 0), (20, WStatus.stopped 19)]
        = none := by
  decide

/-! ## Child events inside `do_bgfg` -/

/-- The runs in which every call completes before the next step are runs of the shell. -/
theorem shellReach_run {s : Shell} (h : ShellReach s) : ShellRun s none := by
  induction h with
  | init v => exact ShellRun.init v
  | launch pid bg cmdline _ h0 hp ih => exact ShellRun.launch pid bg cmdline ih h0 hp
  | @bgfg s argv killOk _ h0 hh ih =>
    match argv, hh with
    | [], hh => simp at hh
    | [argv0], hh => exact ShellRun.usage argv0 killOk ih h0 (by simpa using hh)
    | argv0 :: temp :: rest, hh =>
      have hl := ShellRun.lookup argv0 temp ih h0 (by simpa using hh)
      cases hr : do_bgfg_lookup s argv0 temp with
      | mk s1 r =>
        rw [hr] at hl
        cases r with
        | none =>
          rw [do_bgfg_of_lookup_none rest killOk hr]
          exact hl
        | some i =>
          rw [do_bgfg_of_lookup_some rest killOk hr]
          exact ShellRun.move killOk hl
  | sigchld polls _ hs ih => exact ShellRun.sigchld polls ih hs

/-- The run of the race: two background launches, the lookup of `fg %2`, the handler
reaping both children, the write of `job->state`. -/
theorem fg_race_run : ShellRun raceMarked none :=
  ShellRun.move true
    (ShellRun.sigchld [(20, WStatus.exited 0), (21, WStatus.exited 0)]
      (ShellRun.lookup "fg" "%2"
        (ShellRun.launch 21 true "sleep 2 &\n"
          (ShellRun.launch 20 true "sleep 1 &\n" (ShellRun.init false) (by decide) (by decide))
          (by decide) (by decide))
        (by decide) (by decide))
      (by decide : sigchld_handler raceStart [(20, WStatus.exited 0), (21, WStatus.exited 0)]
        = some raceReaped))

/-- C1 fails on the code. `do_bgfg` does not block SIGCHLD, so the handler can run between
its lookup of the job and its write of `job->state`. With the background jobs 20 and 21 in
slots 0 and 1, `fg %2` finds slot 1; both children exit and the handler clears both
slots; `do_bgfg` then writes `FG` into the cleared slot 1. `fgpid(jobs)` is then 0, so
`waitfg` returns at once, and the next command, a foreground launch, puts its job in
slot 0: two slots have state `FG`. -/
theorem fg_race_two_foreground_slots :
    ShellRun raceLaunched none ∧
      do_bgfg_lookup raceStart "fg" "%2" = (raceStart, some 1) ∧
      sigchld_handler raceStart [(20, WStatus.exited 0), (21, WStatus.exited 0)]
        = some raceReaped ∧
      raceMarked.jobs =
        [emptyJob, { pid := 0, jid := 0, state := FG, cmdline := "" }]
          ++ List.replicate 14 emptyJob ∧
      fgpid raceMarked.jobs = 0 ∧
      waitfg raceMarked [] = Wait.returned raceMarked ∧
      raceLaunched.jobs =
        [{ pid := 30, jid := 1, state := FG, cmdline := "cat\n" },
         { pid := 0, jid := 0, state := FG, cmdline := "" }]
          ++ List.replicate 14 emptyJob ∧
      countFG raceLaunched.jobs = 2 :=
  ⟨ShellRun.launch 30 false "cat\n" fg_race_run (by decide) (by decide),
    by decide, by decide, by decide, by decide, by decide, by decide, by decide⟩

/-- The states reached by whole calls are among those of `OpsRun`. -/
theorem opsReach_run {s : Shell} (h : OpsReach s) : OpsRun s none := by
  induction h with
  | init v => exact OpsRun.init v
  | addjob pid state cmdline _ ih => exact OpsRun.addjob pid state cmdline ih
  | deletejob pid _ ih => exact OpsRun.deletejob pid ih
  | do_bgfg argv killOk _ ih => exact OpsRun.do_bgfg argv killOk ih
  | sigchld polls _ hs ih => exact OpsRun.sigchld polls ih hs

/-- C20 fails on the code. `do_bgfg` does not block SIGCHLD, so the handler can run
between its lookup of the job and its write of `job->state`. With job 20 in slot 0,
`fg %1` finds slot 0; child 20 exits and the handler's `deletejob` clears the slot;
`do_bgfg` then writes `FG` into it and calls `kill(0, SIGCONT)`: the slot is empty
(pid 0) and has state `FG`. -/
theorem fg_race_marks_empty_slot :
    OpsRun oneJobMarked none ∧
      do_bgfg_lookup oneJob "fg" "%1" = (oneJob, some 0) ∧
      sigchld_handler oneJob [(20, WStatus.exited 0)] = some (deletejob oneJob 20).2 ∧
      oneJobMarked.jobs =
        { pid := 0, jid := 0, state := FG, cmdline := "" } :: List.replicate 15 emptyJob ∧
      oneJobMarked.out = [Effect.kill 0 SIGCONT, Effect.waitfg 0] ∧
      ¬ (∀ j ∈ oneJobMarked.jobs, j.pid = 0 → j.jid = 0 ∧ j.state = UNDEF ∧ j.cmdline = "") ∧
      ¬ (∀ j ∈ oneJobMarked.jobs, (j.jid ≠ 0 ∨ j.state ≠ UNDEF) → 1 ≤ j.pid) :=
  ⟨OpsRun.move true
      (OpsRun.sigchld [(20, WStatus.exited 0)]
        (OpsRun.lookup "fg" "%1" (OpsRun.addjob 20 BG "sleep 1 &\n" (OpsRun.init false)))
        (by decide : sigchld_handler oneJob [(20, WStatus.exited 0)]
          = some (deletejob oneJob 20).2)),
    by decide, by decide, by decide, by decide, by decide, by decide⟩

end Tsh
